import Mathlib

/-! # KRRT: the kd-tree index (`kdtree.c`) and the planner accessors (`bi_krrt.h`)

A shallow embedding of the kd-tree used as the near-neighbour index of the
kinodynamic planner, and of the small inline members of `BIKRRT`.

Conventions of the embedding.

* Coordinates (`double`) are elements of a type `α` that has the comparisons
  and the operations the code uses (`0`, `1`, unary minus, `+`, `-`, `*`). Each
  function takes exactly the instances it uses, and no law of arithmetic is
  built in. The type `F64` is IEEE 754 binary64: round to nearest, ties to
  even, every operation rounded on its own (no fused multiply-add, no extended
  precision), gradual underflow, overflow to an infinity. NaN is not a value of
  `F64`: no NaN arises from finite coordinates and a finite range. Exact
  arithmetic (`ℤ`, `ℚ`, `ℝ`) is another instance. Statements that depend on
  facts of arithmetic take them from the class `DoubleLaws`, which is proved
  for `F64` and for every linearly ordered commutative ring.
* A C array `double *p` is a `List α`; the read `p[i]` is `p.getD i 0`, the write
  `p[i] = v` is `p.set i v`, and `memcpy(dst, src, dim * sizeof(double))` into a
  fresh array is `src.take dim`.
* `int dim`, `int dir` are natural numbers (`kd_create` is called with `k ≥ 0`);
  `(dir + 1) % dim` is the C remainder, undefined in C when `dim = 0`.
* A pointer to a node is the node it points to; the null pointer is
  `kdnode.null`. A nullable pointer to a struct is an `Option`. The section
  *The queries over an explicit memory* translates the two queries a second
  time with pointers as addresses and stores as updates of a memory; what a
  query leaves unchanged is stated there.
* Every call of `malloc` consumes one entry of an outcome list (`true`: the
  allocation succeeds); the empty list stands for "every further allocation
  succeeds". Functions that allocate return the unconsumed outcomes.
* Status codes (`0`, `-1`) and `kdres.size` are integers.
-/

namespace KRRT

set_option exponentiation.threshold 9000

/-! ## Data model (`kdtree.c`, lines 57-98) -/

/-- The macro `SQ(x)`: `((x) * (x))`. -/
def SQ {α : Type} [Mul α] (x : α) : α := x * x

/-- The library function `fabs`, on a value that is not a NaN. -/
def fabs {α : Type} [LinearOrder α] [Zero α] [Neg α] (x : α) : α := if x < 0 then -x else x

/-- The C struct `kdhyperrect`: dimension and the minimum / maximum coordinates. -/
structure kdhyperrect (α : Type) where
  dim : Nat
  min : List α
  max : List α
deriving DecidableEq, Repr

/-- The C struct `kdnode` (behind a possibly null pointer): position, split
axis, payload and the two children (negative / positive side). -/
inductive kdnode (α δ : Type) where
  | null : kdnode α δ
  | mk (pos : List α) (dir : Nat) (data : δ) (left right : kdnode α δ) : kdnode α δ
deriving DecidableEq, Repr

/-- The C struct `res_node` without its `next` link: a result list is a `List`. -/
structure res_node (α δ : Type) where
  item : kdnode α δ
  dist_sq : α
deriving DecidableEq, Repr

/-- The C struct `kdtree`; `destr` is the address of the payload destructor. -/
structure kdtree (α δ : Type) where
  dim : Nat
  root : kdnode α δ
  rect : Option (kdhyperrect α)
  destr : Option Nat
deriving DecidableEq, Repr

/-- The C struct `kdres`. `rlist` is the chain after the sentinel head and
`riter` the suffix of that chain the iterator points to. -/
structure kdres (α δ : Type) where
  tree : kdtree α δ
  rlist : List (res_node α δ)
  riter : List (res_node α δ)
  size : Int
deriving DecidableEq, Repr

/-- One call of `malloc`: its outcome and the outcomes left for later calls. -/
def malloc (a : List Bool) : Bool × List Bool :=
  match a with
  | [] => (true, [])
  | b :: rest => (b, rest)

/-- The loop `for (i = 0; i < dim; i++) dist_sq += SQ(npos[i] - pos[i])`. -/
def dist_sq {α : Type} [Zero α] [Add α] [Sub α] [Mul α] (npos pos : List α) (dim : Nat) : α :=
  (List.range dim).foldl (fun acc i => acc + SQ (npos.getD i 0 - pos.getD i 0)) 0

/-! ## Creation and clearing -/

/-- The function `kd_create` (lines 133-147). -/
def kd_create {α δ : Type} (a : List Bool) (k : Nat) : Option (kdtree α δ) × List Bool :=
  match malloc a with
  | (false, a1) => (none, a1)
  | (true, a1) => (some { dim := k, root := kdnode.null, destr := none, rect := none }, a1)

/-- The function `clear_rec` (lines 169-181): the payloads handed to the
destructor, in call order (none when the destructor is null). -/
def clear_rec {α δ : Type} (node : kdnode α δ) (destr : Option Nat) : List δ :=
  match node with
  | kdnode.null => []
  | kdnode.mk _ _ data left right =>
    clear_rec left destr ++ clear_rec right destr ++
      (if destr.isSome then [data] else [])

/-- The function `kd_clear` (lines 184-193): the cleared tree and the payloads
passed to the destructor. -/
def kd_clear {α δ : Type} (tree : kdtree α δ) : kdtree α δ × List δ :=
  let destroyed := clear_rec tree.root tree.destr
  let tree1 := { tree with root := kdnode.null }
  match tree1.rect with
  | some _ => ({ tree1 with rect := none }, destroyed)
  | none => (tree1, destroyed)

/-- The function `kd_data_destructor` (lines 195-198). -/
def kd_data_destructor {α δ : Type} (tree : kdtree α δ) (destr : Option Nat) : kdtree α δ :=
  { tree with destr := destr }

/-! ## Hyper-rectangle helpers (lines 741-806) -/

/-- The function `hyperrect_create`: three allocations, then two `memcpy`. -/
def hyperrect_create {α : Type} (a : List Bool) (dim : Nat) (min max : List α) :
    Option (kdhyperrect α) × List Bool :=
  match malloc a with
  | (false, a1) => (none, a1)
  | (true, a1) =>
    match malloc a1 with
    | (false, a2) => (none, a2)
    | (true, a2) =>
      match malloc a2 with
      | (false, a3) => (none, a3)
      | (true, a3) => (some { dim := dim, min := min.take dim, max := max.take dim }, a3)

/-- The function `hyperrect_duplicate`. -/
def hyperrect_duplicate {α : Type} (a : List Bool) (rect : kdhyperrect α) :
    Option (kdhyperrect α) × List Bool :=
  hyperrect_create a rect.dim rect.min rect.max

/-- One iteration of the loop of `hyperrect_extend`. -/
def hyperrect_extend_step {α : Type} [LinearOrder α] [Zero α] (pos : List α)
    (rect : kdhyperrect α) (i : Nat) : kdhyperrect α :=
  let rect1 :=
    if pos.getD i 0 < rect.min.getD i 0 then { rect with min := rect.min.set i (pos.getD i 0) }
    else rect
  if pos.getD i 0 > rect1.max.getD i 0 then { rect1 with max := rect1.max.set i (pos.getD i 0) }
  else rect1

/-- The function `hyperrect_extend` (lines 778-790), in place in C. -/
def hyperrect_extend {α : Type} [LinearOrder α] [Zero α] (rect : kdhyperrect α)
    (pos : List α) : kdhyperrect α :=
  (List.range rect.dim).foldl (hyperrect_extend_step pos) rect

/-- The function `hyperrect_dist_sq` (lines 792-806). -/
def hyperrect_dist_sq {α : Type} [LinearOrder α] [Zero α] [Add α] [Sub α] [Mul α]
    (rect : kdhyperrect α)
    (pos : List α) : α :=
  (List.range rect.dim).foldl
    (fun result i =>
      if pos.getD i 0 < rect.min.getD i 0 then result + SQ (rect.min.getD i 0 - pos.getD i 0)
      else if pos.getD i 0 > rect.max.getD i 0 then result + SQ (rect.max.getD i 0 - pos.getD i 0)
      else result)
    0

/-! ## Insertion (lines 201-244) -/

/-- The function `insert_rec`: the status, the subtree now behind `*nptr`, and
the allocation outcomes left. -/
def insert_rec {α δ : Type} [LinearOrder α] [Zero α] (a : List Bool) (nptr : kdnode α δ)
    (pos : List α) (data : δ) (dir dim : Nat) : Int × kdnode α δ × List Bool :=
  match nptr with
  | kdnode.null =>
    match malloc a with
    | (false, a1) => (-1, kdnode.null, a1)
    | (true, a1) =>
      match malloc a1 with
      | (false, a2) => (-1, kdnode.null, a2)
      | (true, a2) => (0, kdnode.mk (pos.take dim) dir data kdnode.null kdnode.null, a2)
  | kdnode.mk npos ndir ndata left right =>
    let new_dir := (ndir + 1) % dim
    if pos.getD ndir 0 < npos.getD ndir 0 then
      match insert_rec a left pos data new_dir dim with
      | (ret, left1, a1) => (ret, kdnode.mk npos ndir ndata left1 right, a1)
    else
      match insert_rec a right pos data new_dir dim with
      | (ret, right1, a1) => (ret, kdnode.mk npos ndir ndata left right1, a1)

/-- The function `kd_insert`: the status, the tree after the call, and the
allocation outcomes left. -/
def kd_insert {α δ : Type} [LinearOrder α] [Zero α] (a : List Bool) (tree : kdtree α δ)
    (pos : List α) (data : δ) : Int × kdtree α δ × List Bool :=
  match insert_rec a tree.root pos data 0 tree.dim with
  | (ret, root1, a1) =>
    let tree1 := { tree with root := root1 }
    if ret ≠ 0 then (-1, tree1, a1)
    else
      match tree1.rect with
      | none =>
        match hyperrect_create a1 tree1.dim pos pos with
        | (rect, a2) => (0, { tree1 with rect := rect }, a2)
      | some rect => (0, { tree1 with rect := some (hyperrect_extend rect pos) }, a1)

/-! ## Result lists (lines 857-893) -/

/-- The function `rlist_insert`: `list` is the chain after the node the C
pointer `list` designates. With `dist_sq >= 0` the new node goes after the
leading nodes of strictly smaller `dist_sq`, otherwise in front. -/
def rlist_insert {α δ : Type} [LinearOrder α] [Zero α] (a : List Bool)
    (list : List (res_node α δ)) (item : kdnode α δ) (dist_sq : α) :
    Int × List (res_node α δ) × List Bool :=
  match malloc a with
  | (false, a1) => (-1, list, a1)
  | (true, a1) =>
    let rnode : res_node α δ := { item := item, dist_sq := dist_sq }
    if dist_sq ≥ 0 then
      (0, list.takeWhile (fun n => decide (n.dist_sq < dist_sq)) ++
            rnode :: list.dropWhile (fun n => decide (n.dist_sq < dist_sq)), a1)
    else (0, rnode :: list, a1)

/-- The function `clear_results`. -/
def clear_results {α δ : Type} (rset : kdres α δ) : kdres α δ :=
  { rset with rlist := [] }

/-! ## Range search (lines 303-334, 580-602) -/

/-- The function `find_nearest`: the status (`-1`, or the number of results
added), the result list after the call, and the allocation outcomes left. -/
def find_nearest {α δ : Type} [LinearOrder α] [Zero α] [One α] [Neg α] [Add α] [Sub α] [Mul α]
    (a : List Bool) (node : kdnode α δ)
    (pos : List α) (range : α) (list : List (res_node α δ)) (ordered : Bool) (dim : Nat) :
    Int × List (res_node α δ) × List Bool :=
  match node with
  | kdnode.null => (0, list, a)
  | kdnode.mk npos ndir ndata left right =>
    let dist_sq := dist_sq npos pos dim
    let ins : Int × List (res_node α δ) × List Bool :=
      if dist_sq ≤ SQ range then
        rlist_insert a list (kdnode.mk npos ndir ndata left right) (if ordered then dist_sq else -1)
      else (0, list, a)
    if ins.1 = -1 then (-1, ins.2.1, ins.2.2)
    else
      let added_res : Int := if dist_sq ≤ SQ range then 1 else 0
      let dx := pos.getD ndir 0 - npos.getD ndir 0
      let first : Int × List (res_node α δ) × List Bool :=
        if dx ≤ 0 then find_nearest ins.2.2 left pos range ins.2.1 ordered dim
        else find_nearest ins.2.2 right pos range ins.2.1 ordered dim
      if first.1 ≥ 0 ∧ fabs dx < range then
        let second : Int × List (res_node α δ) × List Bool :=
          if dx ≤ 0 then find_nearest first.2.2 right pos range first.2.1 ordered dim
          else find_nearest first.2.2 left pos range first.2.1 ordered dim
        if second.1 = -1 then (-1, second.2.1, second.2.2)
        else (added_res + first.1 + second.1, second.2.1, second.2.2)
      else
        if first.1 = -1 then (-1, first.2.1, first.2.2)
        else (added_res + first.1, first.2.1, first.2.2)

/-- The function `kd_res_rewind`. -/
def kd_res_rewind {α δ : Type} (rset : kdres α δ) : kdres α δ :=
  { rset with riter := rset.rlist }

/-- The function `kd_nearest_range`: the result set (`none` for the null
pointer) and the allocation outcomes left. -/
def kd_nearest_range {α δ : Type} [LinearOrder α] [Zero α] [One α] [Neg α] [Add α] [Sub α] [Mul α]
    (a : List Bool) (kd : kdtree α δ)
    (pos : List α) (range : α) : Option (kdres α δ) × List Bool :=
  match malloc a with
  | (false, a1) => (none, a1)
  | (true, a1) =>
    match malloc a1 with
    | (false, a2) => (none, a2)
    | (true, a2) =>
      match find_nearest a2 kd.root pos range [] false kd.dim with
      | (ret, list, a3) =>
        if ret = -1 then (none, a3)
        else (some (kd_res_rewind { tree := kd, rlist := list, riter := [], size := ret }), a3)

/-! ## Result-set accessors (lines 667-697) -/

/-- The function `kd_res_size`. -/
def kd_res_size {α δ : Type} (set : kdres α δ) : Int := set.size

/-- The function `kd_res_end`. -/
def kd_res_end {α δ : Type} (rset : kdres α δ) : Bool := rset.riter.isEmpty

/-- The function `kd_res_next` (the caller has checked `kd_res_end`): the
advanced set and the returned flag. -/
def kd_res_next {α δ : Type} (rset : kdres α δ) : kdres α δ × Bool :=
  let rset1 := { rset with riter := rset.riter.tail }
  (rset1, !rset1.riter.isEmpty)

/-- The position held by a node (nothing behind the null pointer). -/
def kdnode.pos {α δ : Type} : kdnode α δ → List α
  | kdnode.null => []
  | kdnode.mk pos _ _ _ _ => pos

/-- The payload held by a node (none behind the null pointer). -/
def kdnode.data {α δ : Type} : kdnode α δ → Option δ
  | kdnode.null => none
  | kdnode.mk _ _ data _ _ => some data

/-- The function `kd_res_item`: the returned payload (`none` for the null
pointer) and the caller's buffer `pos` after the call (`none` when the caller
passed a null buffer). -/
def kd_res_item {α δ : Type} (rset : kdres α δ) (pos : Option (List α)) :
    Option δ × Option (List α) :=
  match rset.riter with
  | r :: _ =>
    (r.item.data,
     match pos with
     | some buf => some (r.item.pos.take rset.tree.dim ++ buf.drop rset.tree.dim)
     | none => none)
  | [] => (none, pos)

/-- The function `kd_res_item_data`. -/
def kd_res_item_data {α δ : Type} (set : kdres α δ) : Option δ :=
  (kd_res_item set none).1

/-! ## Single nearest neighbour (lines 386-498) -/

/-- The function `kd_nearest_i`: the best node, its squared distance and the
working hyper-rectangle after the call. The C function is only ever called on
a non-null node. -/
def kd_nearest_i {α δ : Type} [LinearOrder α] [Zero α] [Add α] [Sub α] [Mul α]
    (node : kdnode α δ) (pos : List α)
    (result : kdnode α δ) (result_dist_sq : α) (rect : kdhyperrect α) :
    kdnode α δ × α × kdhyperrect α :=
  match node with
  | kdnode.null => (result, result_dist_sq, rect)
  | kdnode.mk npos dir ndata left right =>
    let dummy := pos.getD dir 0 - npos.getD dir 0
    -- nearer subtree: slice, recurse, undo
    let s1 : kdnode α δ × α × kdhyperrect α :=
      if dummy ≤ 0 then
        match left with
        | kdnode.null => (result, result_dist_sq, rect)
        | kdnode.mk _ _ _ _ _ =>
          let dummy1 := rect.max.getD dir 0
          match kd_nearest_i left pos result result_dist_sq
              { rect with max := rect.max.set dir (npos.getD dir 0) } with
          | (res, d, rect1) => (res, d, { rect1 with max := rect1.max.set dir dummy1 })
      else
        match right with
        | kdnode.null => (result, result_dist_sq, rect)
        | kdnode.mk _ _ _ _ _ =>
          let dummy1 := rect.min.getD dir 0
          match kd_nearest_i right pos result result_dist_sq
              { rect with min := rect.min.set dir (npos.getD dir 0) } with
          | (res, d, rect1) => (res, d, { rect1 with min := rect1.min.set dir dummy1 })
    -- the point at the current node
    let dist_sq := dist_sq npos pos s1.2.2.dim
    let s2 : kdnode α δ × α × kdhyperrect α :=
      if dist_sq < s1.2.1 then (kdnode.mk npos dir ndata left right, dist_sq, s1.2.2) else s1
    -- farther subtree: slice, test the box, recurse, undo
    if dummy ≤ 0 then
      match right with
      | kdnode.null => s2
      | kdnode.mk _ _ _ _ _ =>
        let dummy2 := s2.2.2.min.getD dir 0
        let rect2 := { s2.2.2 with min := s2.2.2.min.set dir (npos.getD dir 0) }
        let s3 : kdnode α δ × α × kdhyperrect α :=
          if hyperrect_dist_sq rect2 pos < s2.2.1 then kd_nearest_i right pos s2.1 s2.2.1 rect2
          else (s2.1, s2.2.1, rect2)
        (s3.1, s3.2.1, { s3.2.2 with min := s3.2.2.min.set dir dummy2 })
    else
      match left with
      | kdnode.null => s2
      | kdnode.mk _ _ _ _ _ =>
        let dummy2 := s2.2.2.max.getD dir 0
        let rect2 := { s2.2.2 with max := s2.2.2.max.set dir (npos.getD dir 0) }
        let s3 : kdnode α δ × α × kdhyperrect α :=
          if hyperrect_dist_sq rect2 pos < s2.2.1 then kd_nearest_i left pos s2.1 s2.2.1 rect2
          else (s2.1, s2.2.1, rect2)
        (s3.1, s3.2.1, { s3.2.2 with max := s3.2.2.max.set dir dummy2 })

/-- The function `kd_nearest`: `kd` is a possibly null pointer to the tree. The
root is dereferenced without a check once `kd->rect` is known to be non-null;
reading the position of a null root is modelled as reading `[]`. -/
def kd_nearest {α δ : Type} [LinearOrder α] [Zero α] [One α] [Neg α] [Add α] [Sub α] [Mul α]
    (a : List Bool) (kd : Option (kdtree α δ))
    (pos : List α) : Option (kdres α δ) × List Bool :=
  match kd with
  | none => (none, a)
  | some kd =>
    match kd.rect with
    | none => (none, a)
    | some kdrect =>
      match malloc a with
      | (false, a1) => (none, a1)
      | (true, a1) =>
        match malloc a1 with
        | (false, a2) => (none, a2)
        | (true, a2) =>
          match hyperrect_duplicate a2 kdrect with
          | (none, a3) => (none, a3)
          | (some rect, a3) =>
            let result := kd.root
            let dist_sq := dist_sq result.pos pos kd.dim
            match kd_nearest_i kd.root pos result dist_sq rect with
            | (result1, _, _) =>
              match result1 with
              | kdnode.null => (none, a3)
              | kdnode.mk _ _ _ _ _ =>
                match rlist_insert a3 [] result1 (-1) with
                | (ret, list, a4) =>
                  if ret = -1 then (none, a4)
                  else (some (kd_res_rewind { tree := kd, rlist := list, riter := [], size := 1 }), a4)

/-! ## Call sequences and the vocabulary of the statements -/

/-- A sequence of `kd_insert` calls on a tree, each call with its own
allocation outcomes; the tree after the last call. -/
def kd_insert_calls {α δ : Type} [LinearOrder α] [Zero α] (tree : kdtree α δ) :
    List (List Bool × List α × δ) → kdtree α δ
  | [] => tree
  | (a, pos, data) :: rest => kd_insert_calls (kd_insert a tree pos data).2.1 rest

/-- A sequence of `kd_insert` calls in which every allocation succeeds. -/
def kd_insert_all {α δ : Type} [LinearOrder α] [Zero α] (tree : kdtree α δ)
    (ins : List (List α × δ)) : kdtree α δ :=
  kd_insert_calls tree (ins.map (fun e => ([], e.1, e.2)))

/-- The nodes of a subtree (each node is the subtree hanging from it), parent
before children. -/
def kdnode.nodes {α δ : Type} : kdnode α δ → List (kdnode α δ)
  | kdnode.null => []
  | kdnode.mk pos dir data left right =>
    kdnode.mk pos dir data left right :: (left.nodes ++ right.nodes)

/-- The stored (position, payload) entries of a subtree, parent before children. -/
def kdnode.entries {α δ : Type} : kdnode α δ → List (List α × δ)
  | kdnode.null => []
  | kdnode.mk pos _ data left right => (pos, data) :: (left.entries ++ right.entries)

/-- The tree `new` is the tree `old` with one empty child slot (or the empty
root) replaced by `leaf`; everything else is untouched. -/
inductive leaf_added {α δ : Type} (leaf : kdnode α δ) : kdnode α δ → kdnode α δ → Prop
  | slot : leaf_added leaf kdnode.null leaf
  | left (pos : List α) (dir : Nat) (data : δ) (l l1 r : kdnode α δ) :
      leaf_added leaf l l1 →
      leaf_added leaf (kdnode.mk pos dir data l r) (kdnode.mk pos dir data l1 r)
  | right (pos : List α) (dir : Nat) (data : δ) (l r r1 : kdnode α δ) :
      leaf_added leaf r r1 →
      leaf_added leaf (kdnode.mk pos dir data l r) (kdnode.mk pos dir data l r1)

/-- The axis-splitting order: below a node with split axis `d`, the left
subtree is strictly smaller on axis `d` and the right subtree is not smaller. -/
def split_ordered {α δ : Type} [LinearOrder α] [Zero α] : kdnode α δ → Prop
  | kdnode.null => True
  | kdnode.mk pos dir _ left right =>
    (∀ e ∈ left.entries, e.1.getD dir 0 < pos.getD dir 0) ∧
    (∀ e ∈ right.entries, pos.getD dir 0 ≤ e.1.getD dir 0) ∧
    split_ordered left ∧ split_ordered right

/-- Every split axis of the subtree is a valid axis: `dir < dim`. -/
def dirs_in_range {α δ : Type} (dim : Nat) : kdnode α δ → Prop
  | kdnode.null => True
  | kdnode.mk _ dir _ left right =>
    dir < dim ∧ dirs_in_range dim left ∧ dirs_in_range dim right

/-- The point `p` lies inside the box `rect` on the first `dim` axes. -/
def in_rect {α : Type} [LinearOrder α] [Zero α] (rect : kdhyperrect α) (p : List α)
    (dim : Nat) : Prop :=
  ∀ i, i < dim → rect.min.getD i 0 ≤ p.getD i 0 ∧ p.getD i 0 ≤ rect.max.getD i 0

/-- The box `rect` is the tight bounding box of the points `ps` on the first
`dim` axes: it encloses them and each face touches one of them. -/
def tight_box {α : Type} [LinearOrder α] [Zero α] (rect : kdhyperrect α) (ps : List (List α))
    (dim : Nat) : Prop :=
  ∀ i, i < dim →
    (∀ p ∈ ps, rect.min.getD i 0 ≤ p.getD i 0 ∧ p.getD i 0 ≤ rect.max.getD i 0) ∧
    (∃ p ∈ ps, rect.min.getD i 0 = p.getD i 0) ∧
    (∃ p ∈ ps, rect.max.getD i 0 = p.getD i 0)

/-! ## The planner class (`bi_krrt.h`) -/

/-- The types `bi_krrt.h` takes from other headers. -/
structure ExternalTypes where
  Trajectory : Type
  RRTNodePtr : Type
  RRTNodePtrVector : Type
  Piece : Type
  Vector3d : Type
  BiasSampler : Type
  Time : Type
  VisualRvizPtr : Type
  PosCheckerPtr : Type
  IntegratorBVP : Type
  TrajOptimizerPtr : Type
  AstarPathFinderPtr : Type

/-- The data members of the class `BIKRRT` (lines 106, 149-193); `R` is the
type of a `double`. -/
structure BIKRRT (E : ExternalTypes) (R : Type) where
  sampler_ : E.BiasSampler
  t_start_ : E.Time
  t_end_ : E.Time
  debug_vis_ : Bool
  vis_ptr_ : E.VisualRvizPtr
  node_pool_ : E.RRTNodePtrVector
  traj_ : E.Trajectory
  first_traj_ : E.Trajectory
  start_node_ : E.RRTNodePtr
  goal_node_ : E.RRTNodePtr
  close_goal_node_ : E.RRTNodePtr
  valid_start_tree_node_nums_ : Int
  valid_sample_nums_ : Int
  final_traj_use_time_ : R
  first_traj_use_time_ : R
  test_convergency_ : Bool
  traj_list_ : List E.Trajectory
  solution_cost_list_ : List R
  solution_time_list_ : List R
  radius_cost_between_two_states_ : R
  rho_ : R
  v_mag_sample_ : R
  vel_limit_ : R
  acc_limit_ : R
  jerk_limit_ : R
  allow_close_goal_ : Bool
  stop_after_first_traj_found_ : Bool
  rewire_ : Bool
  use_regional_opt_ : Bool
  search_time_ : R
  tree_node_nums_ : Int
  pos_checker_ptr_ : E.PosCheckerPtr
  bvp_ : E.IntegratorBVP
  optimizer_ptr_ : E.TrajOptimizerPtr
  searcher_ : E.AstarPathFinderPtr

/-- The member `BIKRRT::getConvergenceInfo` (lines 95-100): the planner after
the call and the three reference arguments after the call, in parameter order
(`traj_list`, `solution_cost_list`, `solution_time_list`). The three
assignments are made in the order of the source. -/
def BIKRRT.getConvergenceInfo {E : ExternalTypes} {R : Type} (self : BIKRRT E R)
    (traj_list : List E.Trajectory) (solution_cost_list : List R)
    (solution_time_list : List R) :
    BIKRRT E R × List E.Trajectory × List R × List R :=
  let s0 := (traj_list, solution_cost_list, solution_time_list)
  let s1 := (self.traj_list_, s0.2.1, s0.2.2)
  let s2 := (s1.1, s1.2.1, self.solution_time_list_)
  let s3 := (s2.1, self.solution_cost_list_, s2.2.2)
  (self, s3)

/-- The struct `BIKRRT::regionalCandidate` (lines 131-146). -/
structure regionalCandidate (E : ExternalTypes) (R : Type) where
  parent : E.RRTNodePtr
  collide_pts : E.Vector3d × E.Vector3d
  collide_timestamp : R × R
  regional_seg : E.Piece
  heu : R

/-- The member `regionalCandidate::operator<`: `return heu > candidate.heu`. -/
def regionalCandidate.lt {E : ExternalTypes} {R : Type} [LinearOrder R]
    (self candidate : regionalCandidate E R) : Bool :=
  decide (self.heu > candidate.heu)

/-- A max-priority queue in the sense of `std::priority_queue` with the default
comparison: taking the top splits the queue into an element that is not below
any other element under `lt`, and the remaining elements. -/
def pq_extract {C : Type} (lt : C → C → Bool) : List C → Option (C × List C)
  | [] => none
  | x :: xs =>
    match pq_extract lt xs with
    | none => some (x, [])
    | some (y, rest) => if lt x y then some (y, x :: rest) else some (x, y :: rest)

/-- Taking the top at most `n` times: the elements in the order they are served. -/
def pq_serve {C : Type} (lt : C → C → Bool) : Nat → List C → List C
  | 0, _ => []
  | n + 1, q =>
    match pq_extract lt q with
    | none => []
    | some (t, rest) => t :: pq_serve lt n rest

/-- Emptying the queue by repeatedly removing the top. -/
def pq_drain {C : Type} (lt : C → C → Bool) (q : List C) : List C :=
  pq_serve lt q.length q

/-- The state of a tree all of whose insertions succeeded: valid split axes,
the axis-splitting order, and a bounding box that is absent exactly when the
tree is empty and otherwise tight around the stored positions. -/
def tree_inv {α δ : Type} [LinearOrder α] [Zero α] (t : kdtree α δ) : Prop :=
  0 < t.dim ∧ dirs_in_range t.dim t.root ∧ split_ordered t.root ∧
    match t.rect with
    | none => t.root = kdnode.null
    | some rect =>
      t.root ≠ kdnode.null ∧ rect.dim = t.dim ∧ rect.min.length = t.dim ∧
        rect.max.length = t.dim ∧ tight_box rect (t.root.entries.map Prod.fst) t.dim

/-- The nodes `find_nearest` reports with range `range`, in the order it
reaches them: the node itself when it is within range, then the nearer
subtree, then the farther subtree when the splitting plane is closer than
`range`. -/
def range_visit {α δ : Type} [LinearOrder α] [Zero α] [One α] [Neg α] [Add α] [Sub α] [Mul α]
    (node : kdnode α δ) (pos : List α)
    (range : α) (dim : Nat) : List (kdnode α δ) :=
  match node with
  | kdnode.null => []
  | kdnode.mk npos ndir ndata left right =>
    (if dist_sq npos pos dim ≤ SQ range then [kdnode.mk npos ndir ndata left right] else []) ++
    (if pos.getD ndir 0 - npos.getD ndir 0 ≤ 0 then range_visit left pos range dim
      else range_visit right pos range dim) ++
    (if fabs (pos.getD ndir 0 - npos.getD ndir 0) < range then
      (if pos.getD ndir 0 - npos.getD ndir 0 ≤ 0 then range_visit right pos range dim
        else range_visit left pos range dim)
      else [])

/-- The nodes on the descent from a node towards `pos`: at each node the left
child when `pos` is not greater than the node on the split axis, else the
right child. -/
def descent_path {α δ : Type} [LinearOrder α] [Zero α] [Sub α] (node : kdnode α δ)
    (pos : List α) : List (kdnode α δ) :=
  match node with
  | kdnode.null => []
  | kdnode.mk npos ndir ndata left right =>
    kdnode.mk npos ndir ndata left right ::
      (if pos.getD ndir 0 - npos.getD ndir 0 ≤ 0 then descent_path left pos
        else descent_path right pos)

/-- A sample index: the 3-dimensional tree holding `(0,0,0)` with payload 10 and
`(0,3,4)` with payload 11, inserted in that order with every allocation
succeeding. -/
def sample_tree : kdtree ℤ Nat :=
  kd_insert_all { dim := 3, root := kdnode.null, rect := none, destr := none }
    [([0, 0, 0], 10), ([0, 3, 4], 11)]

/-- The root node of `sample_tree`. -/
def sample_root : kdnode ℤ Nat :=
  kdnode.mk [0, 0, 0] 0 10 kdnode.null (kdnode.mk [0, 3, 4] 1 11 kdnode.null kdnode.null)

/-- The search step from the best candidate `(res, d)` to `(res1, d1)` over the
nodes `ns`, for the query `pos`: the best distance does not grow, it is a
lower bound of the distances of all of `ns`, and the candidate is either
unchanged or a node of `ns` at exactly the recorded distance. -/
def nearest_step {α δ : Type} [LinearOrder α] [Zero α] [Add α] [Sub α] [Mul α]
    (ns : List (kdnode α δ)) (pos : List α)
    (dim : Nat) (res : kdnode α δ) (d : α) (res1 : kdnode α δ) (d1 : α) : Prop :=
  d1 ≤ d ∧ (∀ n ∈ ns, d1 ≤ dist_sq n.pos pos dim) ∧
    ((res1 = res ∧ d1 = d) ∨ (res1 ∈ ns ∧ d1 = dist_sq res1.pos pos dim))

/-- External types without content, for concrete instances. -/
def unit_types : ExternalTypes :=
  { Trajectory := Unit, RRTNodePtr := Unit, RRTNodePtrVector := Unit, Piece := Unit,
    Vector3d := Unit, BiasSampler := Unit, Time := Unit, VisualRvizPtr := Unit,
    PosCheckerPtr := Unit, IntegratorBVP := Unit, TrajOptimizerPtr := Unit,
    AstarPathFinderPtr := Unit }

/-- A sample regional candidate with heuristic `heu`. -/
def sample_candidate (heu : ℤ) : regionalCandidate unit_types ℤ :=
  { parent := (), collide_pts := ((), ()), collide_timestamp := (0, 0), regional_seg := (),
    heu := heu }

/-- One call on the index in which every allocation succeeds: `kd_insert` or
`kd_clear`. -/
inductive kd_call (α δ : Type) where
  | insert (pos : List α) (data : δ) : kd_call α δ
  | clear : kd_call α δ

/-- A sequence of calls on a tree; the tree after the last call. -/
def kd_run {α δ : Type} [LinearOrder α] [Zero α] (tree : kdtree α δ) :
    List (kd_call α δ) → kdtree α δ
  | [] => tree
  | kd_call.insert pos data :: rest => kd_run (kd_insert [] tree pos data).2.1 rest
  | kd_call.clear :: rest => kd_run (kd_clear tree).1 rest

/-- The split axes cycle with the depth: a node at depth `depth` has split axis
`depth % dim`, and so on below it. -/
def dirs_cycle {α δ : Type} (dim : Nat) : Nat → kdnode α δ → Prop
  | _, kdnode.null => True
  | depth, kdnode.mk _ dir _ left right =>
    dir = depth % dim ∧ dirs_cycle dim (depth + 1) left ∧ dirs_cycle dim (depth + 1) right

/-- The iteration loop of a caller,
`while (!kd_res_end(rset)) { kd_res_item(rset, pos); kd_res_next(rset); }`,
run for at most `fuel` evaluations of the loop test: what `kd_res_item`
returned at each iteration, what `kd_res_next` returned at each iteration, and
the set when the loop is left; `none` when `fuel` tests do not suffice. -/
def kd_res_loop {α δ : Type} (fuel : Nat) (rset : kdres α δ) (pos : Option (List α)) :
    Option (List (Option δ × Option (List α)) × List Bool × kdres α δ) :=
  match fuel with
  | 0 => none
  | fuel + 1 =>
    if kd_res_end rset then some ([], [], rset)
    else
      match kd_res_loop fuel (kd_res_next rset).1 pos with
      | none => none
      | some (items, flags, final) =>
        some (kd_res_item rset pos :: items, (kd_res_next rset).2 :: flags, final)

/-! ## The queries over an explicit memory

A second translation of the two queries and of the functions they call, in
which memory is explicit. The memory holds the objects of each struct type; an
address is the index of an object among those of its type, the null pointer is
`none`, and a struct is held together with the arrays it owns (`pos` for a node,
`min` and `max` for a hyper-rectangle). `malloc` appends a new object. `free`
puts `none` in the place of the object; the functions translated here free
hyper-rectangles, result nodes and result sets only, so only these have a freed
state. Every store of the source is an update of the memory, every load reads
the memory as it is at that point, and a load or a store through a pointer that
designates no live object (undefined in C) ends the run without a result,
`none`. Recursion and loops follow pointers, so they take `fuel`; `none` is also
the result when the fuel runs out. -/

/-- A value of the C type `double` other than a NaN: an infinity, or the finite
value `k * 2^(-1074)` (every finite binary64 value is such a multiple; `+0.0`
and `-0.0`, which compare equal, are both `fin 0`). -/
inductive F64 where
  | ninf : F64
  | fin (k : ℤ) : F64
  | pinf : F64
deriving DecidableEq, Repr

/-- The position of a value in the order of the extended integers. -/
def F64.key : F64 → WithBot (WithTop ℤ)
  | F64.ninf => ⊥
  | F64.fin k => ((k : WithTop ℤ) : WithBot (WithTop ℤ))
  | F64.pinf => ((⊤ : WithTop ℤ) : WithBot (WithTop ℤ))

/-- The comparisons `<`, `<=` of `double` values. -/
instance F64.instLinearOrder : LinearOrder F64 :=
  LinearOrder.lift' F64.key (by
    intro x y h
    cases x <;> cases y <;> simp [F64.key] at h ⊢
    exact h)

/-- The position of the leading bit of `a` (`0` for `a = 0`), for `a < 2^8192`. -/
def F64.log2 (a : Nat) : Nat :=
  [4096, 2048, 1024, 512, 256, 128, 64, 32, 16, 8, 4, 2, 1].foldl
    (fun l b => if 2 ^ (l + b) ≤ a then l + b else l) 0

/-- The multiple of `p` nearest to `a`, ties to the even multiple, as a count
of `p`. -/
def F64.nearest (p a : Nat) : Nat :=
  let q := a / p
  let r := a % p
  if 2 * r < p then q else if p < 2 * r then q + 1 else q + q % 2

/-- Rounding of a magnitude to binary64: for `a` in units of `2^(-1074 - base)`,
the magnitude, in units of `2^(-1074)`, of the binary64 value nearest to it,
ties to the even significand: `a` is rounded to a multiple of `2^s`, where `s`
leaves 53 significant bits and is at least `base` (gradual underflow below
`2^(-1022)`). A result of `2^2098` or more (`2^1024` in value) stands for
overflow. -/
def F64.roundNat (base : Nat) (a : Nat) : Nat :=
  if 2 ^ (2098 + base) ≤ a then 2 ^ 2098
  else
    let s := max (F64.log2 a - 52) base
    F64.nearest (2 ^ s) a * 2 ^ (s - base)

/-- Rounding to binary64 (round to nearest, ties to even): the `double` nearest
to `n * 2^(-1074 - base)`, an infinity from `2^1024` on. -/
def F64.round (base : Nat) (n : ℤ) : F64 :=
  let m := F64.roundNat base n.natAbs
  if 2 ^ 2098 ≤ m then (if n < 0 then F64.ninf else F64.pinf)
  else F64.fin (if n < 0 then -(m : ℤ) else (m : ℤ))

/-- The `double` value `m * 2^e`, for `e ≥ -1074` (exact when `|m| < 2^53` and
the product is below `2^1024`). -/
def F64.ofScaled (m : ℤ) (e : ℤ) : F64 := F64.fin (m * Int.ofNat (2 ^ (e + 1074).toNat))

instance F64.instZero : Zero F64 := ⟨F64.fin 0⟩

instance F64.instOne : One F64 := ⟨F64.ofScaled 1 0⟩

/-- Unary minus: exact. -/
instance F64.instNeg : Neg F64 :=
  ⟨fun x => match x with
    | F64.ninf => F64.pinf
    | F64.fin k => F64.fin (-k)
    | F64.pinf => F64.ninf⟩

/-- Addition. The sum of opposite infinities, a NaN in IEEE 754, is given the
value zero; it is not reached from finite operands. -/
instance F64.instAdd : Add F64 :=
  ⟨fun x y => match x, y with
    | F64.fin a, F64.fin b => F64.round 0 (a + b)
    | F64.pinf, F64.ninf => F64.fin 0
    | F64.ninf, F64.pinf => F64.fin 0
    | F64.pinf, _ => F64.pinf
    | _, F64.pinf => F64.pinf
    | F64.ninf, _ => F64.ninf
    | _, F64.ninf => F64.ninf⟩

/-- Subtraction. The difference of equal infinities, a NaN in IEEE 754, is
given the value zero. -/
instance F64.instSub : Sub F64 :=
  ⟨fun x y => match x, y with
    | F64.fin a, F64.fin b => F64.round 0 (a - b)
    | F64.pinf, F64.pinf => F64.fin 0
    | F64.ninf, F64.ninf => F64.fin 0
    | F64.pinf, _ => F64.pinf
    | _, F64.ninf => F64.pinf
    | F64.ninf, _ => F64.ninf
    | _, F64.pinf => F64.ninf⟩

/-- Multiplication. Zero times an infinity, a NaN in IEEE 754, is given the
value zero. -/
instance F64.instMul : Mul F64 :=
  ⟨fun x y => match x, y with
    | F64.fin a, F64.fin b => F64.round 1074 (a * b)
    | F64.fin a, F64.pinf => if a = 0 then F64.fin 0 else if a < 0 then F64.ninf else F64.pinf
    | F64.fin a, F64.ninf => if a = 0 then F64.fin 0 else if a < 0 then F64.pinf else F64.ninf
    | F64.pinf, F64.fin b => if b = 0 then F64.fin 0 else if b < 0 then F64.ninf else F64.pinf
    | F64.ninf, F64.fin b => if b = 0 then F64.fin 0 else if b < 0 then F64.pinf else F64.ninf
    | F64.pinf, F64.pinf => F64.pinf
    | F64.ninf, F64.ninf => F64.pinf
    | F64.pinf, F64.ninf => F64.ninf
    | F64.ninf, F64.pinf => F64.ninf⟩

/-! ## The arithmetic the statements rest on -/

/-- The facts about the arithmetic of `double` that the statements below use.
Each holds for IEEE 754 binary64 values other than NaN under round to nearest
(every operation is the exact operation followed by a monotone, odd rounding
that leaves binary64 values unchanged), and each holds in exact arithmetic. -/
class DoubleLaws (α : Type) [LinearOrder α] [Zero α] [One α] [Neg α] [Add α] [Sub α] [Mul α] :
    Prop where
  neg_one_lt_zero : (-1 : α) < 0
  neg_nonneg : ∀ x : α, x < 0 → 0 ≤ -x
  neg_mul_neg : ∀ x : α, -x * -x = x * x
  sub_self : ∀ a : α, a - a = 0
  sub_le_sub_right : ∀ a b c : α, a ≤ b → a - c ≤ b - c
  sub_le_sub_left : ∀ a b c : α, a ≤ b → c - b ≤ c - a
  sub_mul_self : ∀ a b : α, (a - b) * (a - b) = (b - a) * (b - a)
  mul_self_nonneg : ∀ x : α, 0 ≤ x * x
  mul_self_le : ∀ a b : α, 0 ≤ a → a ≤ b → a * a ≤ b * b
  mul_self_le_neg : ∀ a b : α, b ≤ a → a ≤ 0 → a * a ≤ b * b
  zero_mul_zero : (0 : α) * 0 = 0
  add_le_add : ∀ a b c d : α, a ≤ b → c ≤ d → a + c ≤ b + d
  zero_add_zero : (0 : α) + 0 = 0
  add_add_zero : ∀ a b : α, a + b + 0 = a + b
  zero_add_mul : ∀ x : α, 0 + x * x = x * x

/-- Exact arithmetic (no rounding): every linearly ordered commutative ring,
such as `ℤ`, `ℚ` and `ℝ`. -/
instance exact_arithmetic {α : Type} [LinearOrderedCommRing α] : DoubleLaws α where
  neg_one_lt_zero := by simp
  neg_nonneg := fun x h => by linarith
  neg_mul_neg := fun x => by ring
  sub_self := fun a => by ring
  sub_le_sub_right := fun a b c h => by linarith
  sub_le_sub_left := fun a b c h => by linarith
  sub_mul_self := fun a b => by ring
  mul_self_nonneg := fun x => mul_self_nonneg x
  mul_self_le := fun a b h0 h => mul_self_le_mul_self h0 h
  mul_self_le_neg := fun a b h h0 => by nlinarith
  zero_mul_zero := by simp
  add_le_add := fun a b c d h1 h2 => by linarith
  zero_add_zero := by simp
  add_add_zero := fun a b => by simp
  zero_add_mul := fun x => by simp

/-! ## Sample inputs -/

/-- The exact value of a `double` in units of `2^(-1074)` (`0` for an infinity). -/
def F64.units : F64 → ℤ
  | F64.fin k => k
  | _ => 0

/-- A `double` index in which rounding shows: the 3-dimensional tree holding
the single point `(1, 2^(-30), 0)` with payload 7. -/
def rounding_tree : kdtree F64 Nat :=
  { dim := 3,
    root := kdnode.mk [1, F64.ofScaled 1 (-30), 0] 0 7 kdnode.null kdnode.null,
    rect := some { dim := 3, min := [1, F64.ofScaled 1 (-30), 0],
                   max := [1, F64.ofScaled 1 (-30), 0] },
    destr := none }

/-- An index whose bounding box misses two of its three points: the tree left
by inserting `(0,10,0)` and `(0,0,0)` with the allocation inside
`hyperrect_create` failing both times, and then `(-20,0,0)` with every
allocation succeeding. -/
def unboxed_tree : kdtree ℤ Nat :=
  { dim := 3,
    root := kdnode.mk [0, 10, 0] 0 1
      (kdnode.mk [-20, 0, 0] 1 3 kdnode.null kdnode.null)
      (kdnode.mk [0, 0, 0] 1 2 kdnode.null kdnode.null),
    rect := some { dim := 3, min := [-20, 0, 0], max := [-20, 0, 0] },
    destr := none }

theorem F64.log2_step (a l b B : Nat) (hB : B = b + b) (h : 2 ^ l ≤ a ∧ a < 2 ^ (l + B)) :
    2 ^ (if 2 ^ (l + b) ≤ a then l + b else l) ≤ a ∧
      a < 2 ^ ((if 2 ^ (l + b) ≤ a then l + b else l) + b) := by
  subst hB
  split
  · rename_i hc
    exact ⟨hc, by rw [Nat.add_assoc]; exact h.2⟩
  · rename_i hc
    exact ⟨h.1, not_le.mp hc⟩

theorem F64.log2_fold (a n l : Nat) (h : 2 ^ l ≤ a ∧ a < 2 ^ (l + 2 ^ n)) :
    2 ^ (((List.range n).reverse.map (fun i => 2 ^ i)).foldl
        (fun l b => if 2 ^ (l + b) ≤ a then l + b else l) l) ≤ a ∧
      a < 2 ^ (((List.range n).reverse.map (fun i => 2 ^ i)).foldl
        (fun l b => if 2 ^ (l + b) ≤ a then l + b else l) l + 1) := by
  induction n generalizing l with
  | zero => simpa using h
  | succ n ih =>
    rw [List.range_succ, List.reverse_append, List.reverse_singleton, List.singleton_append,
      List.map_cons, List.foldl_cons]
    exact ih _ (F64.log2_step a l (2 ^ n) (2 ^ (n + 1)) (by rw [Nat.pow_succ]; omega) h)

/-- The bisection finds the position of the leading bit. -/
theorem F64.log2_spec (a : Nat) (h1 : 1 ≤ a) (h2 : a < 2 ^ 8192) :
    2 ^ F64.log2 a ≤ a ∧ a < 2 ^ (F64.log2 a + 1) := by
  have hl : ([4096, 2048, 1024, 512, 256, 128, 64, 32, 16, 8, 4, 2, 1] : List Nat) =
      (List.range 13).reverse.map (fun i => 2 ^ i) := by decide
  unfold F64.log2
  rw [hl]
  apply F64.log2_fold a 13 0
  rw [Nat.pow_zero, Nat.zero_add]
  exact ⟨h1, h2⟩

theorem F64.log2_zero : F64.log2 0 = 0 := by decide

theorem F64.log2_mono (a b : Nat) (hab : a ≤ b) (hb : b < 2 ^ 8192) :
    F64.log2 a ≤ F64.log2 b := by
  rcases Nat.eq_zero_or_pos a with h0 | h0
  · rw [h0, F64.log2_zero]
    exact Nat.zero_le _
  · have ha := F64.log2_spec a h0 (lt_of_le_of_lt hab hb)
    have hb' := F64.log2_spec b (le_trans h0 hab) hb
    have h : 2 ^ F64.log2 a < 2 ^ (F64.log2 b + 1) :=
      lt_of_le_of_lt ha.1 (lt_of_le_of_lt hab hb'.2)
    have := (Nat.pow_lt_pow_iff_right (by norm_num : 1 < 2)).mp h
    omega

theorem F64.nearest_bounds (p a : Nat) :
    a / p ≤ F64.nearest p a ∧ F64.nearest p a ≤ a / p + 1 := by
  unfold F64.nearest
  simp only
  split
  · omega
  · split <;> omega

theorem F64.nearest_mono (p a b : Nat) (h : a ≤ b) : F64.nearest p a ≤ F64.nearest p b := by
  have hq : a / p ≤ b / p := Nat.div_le_div_right h
  rcases Nat.lt_or_ge (a / p) (b / p) with hlt | hge
  · have h1 := (F64.nearest_bounds p a).2
    have h2 := (F64.nearest_bounds p b).1
    omega
  · have heq : a / p = b / p := le_antisymm hq hge
    have ha := Nat.div_add_mod a p
    have hb := Nat.div_add_mod b p
    rw [heq] at ha
    unfold F64.nearest
    simp only
    rw [heq]
    generalize p * (b / p) = t at ha hb
    generalize a % p = ra at ha
    generalize b % p = rb at hb
    generalize b / p = q
    have hr : ra ≤ rb := by omega
    split <;> split <;> try omega
    all_goals (split <;> try omega)
    all_goals (split <;> omega)

theorem F64.nearest_mul (p m : Nat) (hp : 0 < p) : F64.nearest p (m * p) = m := by
  unfold F64.nearest
  simp only
  rw [Nat.mul_mod_left, Nat.mul_div_cancel _ hp]
  simp [hp]

/-- Rounding to a multiple of `p` never crosses a multiple of `p`. -/
theorem F64.nearest_le_of_le_mul (p a m : Nat) (hp : 0 < p) (h : a ≤ m * p) :
    F64.nearest p a ≤ m := by
  have := F64.nearest_mono p a (m * p) h
  rwa [F64.nearest_mul p m hp] at this

theorem F64.le_nearest_of_mul_le (p a m : Nat) (hp : 0 < p) (h : m * p ≤ a) :
    m ≤ F64.nearest p a := by
  have := F64.nearest_mono p (m * p) a h
  rwa [F64.nearest_mul p m hp] at this

theorem F64.log2_lt (a n : Nat) (h : a < 2 ^ n) (hn : n ≤ 8192) : F64.log2 a < n ∨ a = 0 := by
  rcases Nat.eq_zero_or_pos a with h0 | h0
  · exact Or.inr h0
  · left
    have hs := F64.log2_spec a h0
      (lt_of_lt_of_le h (Nat.pow_le_pow_right (by norm_num) hn))
    exact (Nat.pow_lt_pow_iff_right (by norm_num : 1 < 2)).mp (lt_of_le_of_lt hs.1 h)

/-- Below the overflow threshold the magnitude `a` fits in 53 bits after the
shift. -/
theorem F64.lt_pow_shift (base a : Nat) (h : a < 2 ^ (2098 + base)) (hb : base ≤ 1074) :
    a < 2 ^ (53 + max (F64.log2 a - 52) base) := by
  rcases Nat.eq_zero_or_pos a with h0 | h0
  · rw [h0]
    exact Nat.two_pow_pos _
  · have hs := F64.log2_spec a h0
      (lt_of_lt_of_le h (Nat.pow_le_pow_right (by norm_num) (by omega)))
    exact lt_of_lt_of_le hs.2 (Nat.pow_le_pow_right (by norm_num) (by omega))

theorem F64.roundNat_fine (base a : Nat) (h : a < 2 ^ (2098 + base)) :
    F64.roundNat base a * 2 ^ base =
      F64.nearest (2 ^ max (F64.log2 a - 52) base) a * 2 ^ max (F64.log2 a - 52) base := by
  unfold F64.roundNat
  rw [if_neg (not_le.mpr h)]
  simp only
  rw [Nat.mul_assoc, ← Nat.pow_add, Nat.sub_add_cancel (le_max_right _ _)]

theorem F64.roundNat_zero (base : Nat) : F64.roundNat base 0 = 0 := by
  unfold F64.roundNat
  rw [if_neg (not_le.mpr (Nat.two_pow_pos _))]
  simp [F64.nearest]

theorem F64.roundNat_le (base a : Nat) (hb : base ≤ 1074) : F64.roundNat base a ≤ 2 ^ 2098 := by
  by_cases h : 2 ^ (2098 + base) ≤ a
  · unfold F64.roundNat
    rw [if_pos h]
  · have h := not_le.mp h
    refine Nat.le_of_mul_le_mul_right ?_ (Nat.two_pow_pos base)
    rw [F64.roundNat_fine base a h, ← Nat.pow_add]
    have hs : max (F64.log2 a - 52) base ≤ 2098 + base := by
      rcases F64.log2_lt a (2098 + base) h (by omega) with h1 | h1
      · omega
      · rw [h1, F64.log2_zero]
        omega
    have hm := F64.nearest_le_of_le_mul (2 ^ max (F64.log2 a - 52) base) a
      (2 ^ (2098 + base - max (F64.log2 a - 52) base)) (Nat.two_pow_pos _) (by
        rw [← Nat.pow_add, Nat.sub_add_cancel hs]
        exact le_of_lt h)
    calc F64.nearest (2 ^ max (F64.log2 a - 52) base) a * 2 ^ max (F64.log2 a - 52) base
        ≤ 2 ^ (2098 + base - max (F64.log2 a - 52) base) * 2 ^ max (F64.log2 a - 52) base :=
          Nat.mul_le_mul_right _ hm
      _ = 2 ^ (2098 + base) := by rw [← Nat.pow_add, Nat.sub_add_cancel hs]

theorem F64.roundNat_mono (base a b : Nat) (hb : base ≤ 1074) (h : a ≤ b) :
    F64.roundNat base a ≤ F64.roundNat base b := by
  by_cases hbT : 2 ^ (2098 + base) ≤ b
  · have : F64.roundNat base b = 2 ^ 2098 := by
      unfold F64.roundNat
      rw [if_pos hbT]
    rw [this]
    exact F64.roundNat_le base a hb
  · have hbT := not_le.mp hbT
    have haT : a < 2 ^ (2098 + base) := lt_of_le_of_lt h hbT
    refine Nat.le_of_mul_le_mul_right ?_ (Nat.two_pow_pos base)
    rw [F64.roundNat_fine base a haT, F64.roundNat_fine base b hbT]
    have hb8 : b < 2 ^ 8192 := lt_of_lt_of_le hbT (Nat.pow_le_pow_right (by norm_num) (by omega))
    have hl := F64.log2_mono a b h hb8
    rcases Nat.lt_or_ge (max (F64.log2 a - 52) base) (max (F64.log2 b - 52) base) with hlt | hge
    · -- different binades: the power of two between them separates the results
      have hL : F64.log2 a < F64.log2 b := by omega
      have hsb : max (F64.log2 b - 52) base ≤ F64.log2 b := by omega
      have hsa : max (F64.log2 a - 52) base ≤ F64.log2 b := by omega
      have hbpos : 1 ≤ b := by
        by_contra hc
        have : b = 0 := by omega
        rw [this, F64.log2_zero] at hL
        omega
      have hbs := F64.log2_spec b hbpos hb8
      have haP : a ≤ 2 ^ F64.log2 b := by
        rcases Nat.eq_zero_or_pos a with h0 | h0
        · rw [h0]
          exact Nat.zero_le _
        · have has := F64.log2_spec a h0 (lt_of_le_of_lt h hb8)
          exact le_of_lt (lt_of_lt_of_le has.2 (Nat.pow_le_pow_right (by norm_num) hL))
      have h1 := F64.nearest_le_of_le_mul (2 ^ max (F64.log2 a - 52) base) a
        (2 ^ (F64.log2 b - max (F64.log2 a - 52) base)) (Nat.two_pow_pos _) (by
          rw [← Nat.pow_add, Nat.sub_add_cancel hsa]
          exact haP)
      have h2 := F64.le_nearest_of_mul_le (2 ^ max (F64.log2 b - 52) base) b
        (2 ^ (F64.log2 b - max (F64.log2 b - 52) base)) (Nat.two_pow_pos _) (by
          rw [← Nat.pow_add, Nat.sub_add_cancel hsb]
          exact hbs.1)
      calc F64.nearest (2 ^ max (F64.log2 a - 52) base) a * 2 ^ max (F64.log2 a - 52) base
          ≤ 2 ^ (F64.log2 b - max (F64.log2 a - 52) base) * 2 ^ max (F64.log2 a - 52) base :=
            Nat.mul_le_mul_right _ h1
        _ = 2 ^ F64.log2 b := by rw [← Nat.pow_add, Nat.sub_add_cancel hsa]
        _ = 2 ^ (F64.log2 b - max (F64.log2 b - 52) base) * 2 ^ max (F64.log2 b - 52) base := by
            rw [← Nat.pow_add, Nat.sub_add_cancel hsb]
        _ ≤ F64.nearest (2 ^ max (F64.log2 b - 52) base) b * 2 ^ max (F64.log2 b - 52) base :=
            Nat.mul_le_mul_right _ h2
    · have heq : max (F64.log2 a - 52) base = max (F64.log2 b - 52) base := by omega
      rw [heq]
      exact Nat.mul_le_mul_right _ (F64.nearest_mono _ a b h)

/-- A rounded magnitude is a binary64 magnitude: rounding it again changes
nothing. -/
theorem F64.roundNat_idem (base a : Nat) (hb : base ≤ 1074)
    (h : F64.roundNat base a < 2 ^ 2098) :
    F64.roundNat 0 (F64.roundNat base a) = F64.roundNat base a := by
  have haT : a < 2 ^ (2098 + base) := by
    by_contra hc
    unfold F64.roundNat at h
    rw [if_pos (not_lt.mp hc)] at h
    exact lt_irrefl _ h
  have hq : F64.nearest (2 ^ max (F64.log2 a - 52) base) a ≤ 2 ^ 53 :=
    F64.nearest_le_of_le_mul _ a (2 ^ 53) (Nat.two_pow_pos _) (by
      rw [← Nat.pow_add]
      exact le_of_lt (F64.lt_pow_shift base a haT hb))
  have hy : F64.roundNat base a =
      F64.nearest (2 ^ max (F64.log2 a - 52) base) a * 2 ^ (max (F64.log2 a - 52) base - base) := by
    unfold F64.roundNat
    rw [if_neg (not_le.mpr haT)]
  generalize F64.nearest (2 ^ max (F64.log2 a - 52) base) a = q at hq hy
  generalize max (F64.log2 a - 52) base - base = t at hy
  generalize F64.roundNat base a = y at h hy
  -- `y = q * 2^t` with `q ≤ 2^53`
  have hdvd : 2 ^ max (F64.log2 y - 52) 0 ∣ y := by
    rw [Nat.max_zero]
    rcases Nat.eq_zero_or_pos y with h0 | h0
    · rw [h0]
      exact Nat.dvd_zero _
    · have hs := F64.log2_spec y h0 (lt_of_lt_of_le h (Nat.pow_le_pow_right (by norm_num)
        (by omega)))
      have hyle : y ≤ 2 ^ (53 + t) := by
        rw [hy, Nat.pow_add]
        exact Nat.mul_le_mul_right _ hq
      have hL : F64.log2 y ≤ 53 + t :=
        (Nat.pow_le_pow_iff_right (by norm_num : 1 < 2)).mp (le_trans hs.1 hyle)
      rcases Nat.lt_or_ge (F64.log2 y) (53 + t) with hlt | hge
      · have hd : 2 ^ (F64.log2 y - 52) ∣ q * 2 ^ t :=
          Dvd.dvd.mul_left (Nat.pow_dvd_pow 2 (by omega)) q
        rwa [← hy] at hd
      · have hLe : F64.log2 y = 53 + t := le_antisymm hL hge
        have hyeq : y = 2 ^ (53 + t) := le_antisymm hyle (by rw [← hLe]; exact hs.1)
        have hd : 2 ^ (F64.log2 y - 52) ∣ 2 ^ (53 + t) := Nat.pow_dvd_pow 2 (by omega)
        rwa [← hyeq] at hd
  have hP : 0 < 2 ^ max (F64.log2 y - 52) 0 := Nat.two_pow_pos _
  unfold F64.roundNat
  rw [if_neg (not_le.mpr (by rw [Nat.add_zero]; exact h))]
  simp only [Nat.sub_zero]
  generalize 2 ^ max (F64.log2 y - 52) 0 = P at hdvd hP ⊢
  obtain ⟨m, hm⟩ := hdvd
  rw [hm, Nat.mul_comm P m, F64.nearest_mul P m hP]

theorem F64.le_iff (x y : F64) : x ≤ y ↔ F64.key x ≤ F64.key y := Iff.rfl

theorem F64.lt_iff (x y : F64) : x < y ↔ F64.key x < F64.key y := Iff.rfl

theorem F64.fin_le_fin (a b : ℤ) : F64.fin a ≤ F64.fin b ↔ a ≤ b := by
  rw [F64.le_iff]
  simp [F64.key]

theorem F64.fin_lt_fin (a b : ℤ) : F64.fin a < F64.fin b ↔ a < b := by
  rw [F64.lt_iff]
  simp [F64.key]

theorem F64.ninf_le (x : F64) : F64.ninf ≤ x := by
  rw [F64.le_iff]
  simp [F64.key]

theorem F64.le_pinf (x : F64) : x ≤ F64.pinf := by
  rw [F64.le_iff]
  cases x <;> simp [F64.key]

theorem F64.le_ninf_iff (x : F64) : x ≤ F64.ninf ↔ x = F64.ninf := by
  rw [F64.le_iff]
  cases x <;> simp [F64.key]

theorem F64.pinf_le_iff (x : F64) : F64.pinf ≤ x ↔ x = F64.pinf := by
  rw [F64.le_iff]
  cases x <;> simp [F64.key]

theorem F64.zero_def : (0 : F64) = F64.fin 0 := rfl

theorem F64.neg_fin (a : ℤ) : -F64.fin a = F64.fin (-a) := rfl

theorem F64.neg_pinf : -F64.pinf = F64.ninf := rfl

theorem F64.neg_ninf : -F64.ninf = F64.pinf := rfl

theorem F64.round_zero (base : Nat) : F64.round base 0 = 0 := by
  unfold F64.round
  simp [F64.roundNat_zero, F64.zero_def]

theorem F64.round_neg (base : Nat) (n : ℤ) : F64.round base (-n) = -F64.round base n := by
  unfold F64.round
  simp only [Int.natAbs_neg]
  rcases lt_trichotomy n 0 with h | h | h
  · have h1 : ¬ (-n < 0) := by omega
    rw [if_pos h, if_pos h, if_neg h1, if_neg h1]
    split
    · rfl
    · rw [F64.neg_fin, neg_neg]
  · subst h
    simp [F64.roundNat_zero, F64.neg_fin]
  · have h1 : ¬ (n < 0) := by omega
    have h2 : -n < 0 := by omega
    rw [if_pos h2, if_pos h2, if_neg h1, if_neg h1]
    split
    · rfl
    · rfl

theorem F64.round_nonneg (base : Nat) (n : ℤ) (h : 0 ≤ n) : 0 ≤ F64.round base n := by
  unfold F64.round
  have h1 : ¬ (n < 0) := by omega
  simp only [if_neg h1]
  split
  · exact F64.le_pinf _
  · rw [F64.zero_def, F64.fin_le_fin]
    exact Int.natCast_nonneg _

theorem F64.round_mono_nonneg (base : Nat) (n m : ℤ) (hb : base ≤ 1074) (h0 : 0 ≤ n)
    (h : n ≤ m) : F64.round base n ≤ F64.round base m := by
  have hnat := F64.roundNat_mono base n.natAbs m.natAbs hb (by omega)
  unfold F64.round
  have h1 : ¬ (n < 0) := by omega
  have h2 : ¬ (m < 0) := by omega
  simp only [if_neg h1, if_neg h2]
  split
  · rename_i hc
    rw [if_pos (le_trans hc hnat)]
  · split
    · exact F64.le_pinf _
    · rw [F64.fin_le_fin]
      exact Int.ofNat_le.mpr hnat

/-- Rounding is monotone. -/
theorem F64.round_mono (base : Nat) (n m : ℤ) (hb : base ≤ 1074) (h : n ≤ m) :
    F64.round base n ≤ F64.round base m := by
  rcases le_or_lt 0 n with h0 | h0
  · exact F64.round_mono_nonneg base n m hb h0 h
  · rcases le_or_lt 0 m with h1 | h1
    · refine le_trans ?_ (F64.round_nonneg base m h1)
      have := F64.round_nonneg base (-n) (by omega)
      rw [F64.round_neg] at this
      revert this
      generalize F64.round base n = x
      cases x with
      | ninf => intro _; exact F64.ninf_le _
      | fin k =>
        rw [F64.neg_fin, F64.zero_def, F64.fin_le_fin, F64.fin_le_fin]
        omega
      | pinf =>
        rw [F64.neg_pinf, F64.le_ninf_iff]
        intro hc
        exact absurd hc (by decide)
    · have := F64.round_mono_nonneg base (-m) (-n) hb (by omega) (by omega)
      rw [F64.round_neg, F64.round_neg] at this
      revert this
      generalize F64.round base n = x
      generalize F64.round base m = y
      cases x <;> cases y <;>
        simp [F64.neg_fin, F64.neg_pinf, F64.neg_ninf, F64.fin_le_fin, F64.le_pinf, F64.ninf_le,
          F64.le_ninf_iff, F64.pinf_le_iff]

/-- A rounded value is a binary64 value: rounding it again changes nothing. -/
theorem F64.round_idem (base : Nat) (n k : ℤ) (hb : base ≤ 1074)
    (h : F64.round base n = F64.fin k) : F64.round 0 k = F64.fin k := by
  unfold F64.round at h
  simp only at h
  split at h
  · split at h <;> exact F64.noConfusion h
  · rename_i hc
    have hi := F64.roundNat_idem base n.natAbs hb (not_le.mp hc)
    have hk := F64.fin.inj h
    unfold F64.round
    simp only
    by_cases hn : n < 0
    · rw [if_pos hn] at hk
      have habs : k.natAbs = F64.roundNat base n.natAbs := by omega
      rw [habs, hi, if_neg hc]
      by_cases hk0 : k < 0
      · rw [if_pos hk0, hk]
      · rw [if_neg hk0]
        congr 1
        omega
    · rw [if_neg hn] at hk
      have habs : k.natAbs = F64.roundNat base n.natAbs := by omega
      rw [habs, hi, if_neg hc]
      have hk0 : ¬ (k < 0) := by omega
      rw [if_neg hk0]
      rw [hk]

theorem F64.fin_add_fin (a b : ℤ) : F64.fin a + F64.fin b = F64.round 0 (a + b) := rfl

theorem F64.fin_sub_fin (a b : ℤ) : F64.fin a - F64.fin b = F64.round 0 (a - b) := rfl

theorem F64.fin_mul_fin (a b : ℤ) : F64.fin a * F64.fin b = F64.round 1074 (a * b) := rfl

theorem F64.law_sub_le_sub_right (a b c : F64) (h : a ≤ b) : a - c ≤ b - c := by
  cases a <;> cases b <;> cases c <;>
    first
    | exact F64.round_mono 0 _ _ (by omega) (by first | (rw [F64.fin_le_fin] at h; omega) | fail)
    | exact F64.le_pinf _
    | exact F64.ninf_le _
    | exact le_refl _
    | simp [F64.fin_le_fin, F64.le_ninf_iff, F64.pinf_le_iff] at h

theorem F64.law_sub_le_sub_left (a b c : F64) (h : a ≤ b) : c - b ≤ c - a := by
  cases a <;> cases b <;> cases c <;>
    first
    | exact F64.round_mono 0 _ _ (by omega) (by first | (rw [F64.fin_le_fin] at h; omega) | fail)
    | exact F64.le_pinf _
    | exact F64.ninf_le _
    | exact le_refl _
    | simp [F64.fin_le_fin, F64.le_ninf_iff, F64.pinf_le_iff] at h

theorem F64.law_add_le_add (a b c d : F64) (h1 : a ≤ b) (h2 : c ≤ d) : a + c ≤ b + d := by
  cases a <;> cases b <;> cases c <;> cases d <;>
    first
    | exact F64.round_mono 0 _ _ (by omega)
        (by rw [F64.fin_le_fin] at h1 h2; omega)
    | exact F64.le_pinf _
    | exact F64.ninf_le _
    | exact le_refl _
    | simp [F64.fin_le_fin, F64.le_ninf_iff, F64.pinf_le_iff] at h1 h2

theorem F64.law_neg_nonneg (x : F64) (h : x < 0) : 0 ≤ -x := by
  cases x with
  | ninf => exact F64.le_pinf _
  | fin k =>
    rw [F64.zero_def, F64.fin_lt_fin] at h
    rw [F64.neg_fin, F64.zero_def, F64.fin_le_fin]
    omega
  | pinf => exact absurd (F64.le_pinf 0) (not_le.mpr h)

theorem F64.law_neg_mul_neg (x : F64) : -x * -x = x * x := by
  cases x with
  | ninf => rfl
  | fin k => rw [F64.neg_fin, F64.fin_mul_fin, F64.fin_mul_fin, neg_mul_neg]
  | pinf => rfl

theorem F64.law_sub_self (a : F64) : a - a = 0 := by
  cases a with
  | ninf => rfl
  | fin k => rw [F64.fin_sub_fin, sub_self, F64.round_zero]
  | pinf => rfl

theorem F64.law_sub_mul_self (a b : F64) : (a - b) * (a - b) = (b - a) * (b - a) := by
  cases a <;> cases b <;> try rfl
  rename_i x y
  rw [F64.fin_sub_fin, F64.fin_sub_fin, ← F64.law_neg_mul_neg (F64.round 0 (x - y)),
    ← F64.round_neg, neg_sub]

theorem F64.law_mul_self_nonneg (x : F64) : 0 ≤ x * x := by
  cases x with
  | ninf => exact F64.le_pinf _
  | fin k => rw [F64.fin_mul_fin]; exact F64.round_nonneg 1074 _ (mul_self_nonneg k)
  | pinf => exact F64.le_pinf _

theorem F64.law_mul_self_le (a b : F64) (h0 : 0 ≤ a) (h : a ≤ b) : a * a ≤ b * b := by
  cases a <;> cases b <;>
    first
    | exact F64.le_pinf _
    | (rw [F64.zero_def, F64.fin_le_fin] at h0
       rw [F64.fin_le_fin] at h
       rw [F64.fin_mul_fin, F64.fin_mul_fin]
       exact F64.round_mono 1074 _ _ (le_refl _) (mul_self_le_mul_self h0 h))
    | simp [F64.zero_def, F64.fin_le_fin, F64.le_ninf_iff, F64.pinf_le_iff] at h0 h

theorem F64.law_mul_self_le_neg (a b : F64) (h : b ≤ a) (h0 : a ≤ 0) : a * a ≤ b * b := by
  cases a <;> cases b <;>
    first
    | exact F64.le_pinf _
    | (rw [F64.zero_def, F64.fin_le_fin] at h0
       rw [F64.fin_le_fin] at h
       rw [F64.fin_mul_fin, F64.fin_mul_fin]
       exact F64.round_mono 1074 _ _ (le_refl _) (by nlinarith))
    | simp [F64.zero_def, F64.fin_le_fin, F64.le_ninf_iff, F64.pinf_le_iff] at h0 h

theorem F64.law_add_add_zero (a b : F64) : a + b + 0 = a + b := by
  cases a <;> cases b <;> try rfl
  rename_i x y
  rw [F64.fin_add_fin]
  cases hr : F64.round 0 (x + y) with
  | ninf => rfl
  | fin k => rw [F64.zero_def, F64.fin_add_fin, add_zero]; exact F64.round_idem 0 _ k (by omega) hr
  | pinf => rfl

theorem F64.law_zero_add_mul (x : F64) : 0 + x * x = x * x := by
  cases x with
  | ninf => rfl
  | pinf => rfl
  | fin a =>
    rw [F64.fin_mul_fin]
    cases hr : F64.round 1074 (a * a) with
    | ninf => rfl
    | fin k =>
      rw [F64.zero_def, F64.fin_add_fin, zero_add]
      exact F64.round_idem 1074 _ k (le_refl _) hr
    | pinf => rfl

/-- The arithmetic of binary64 satisfies the laws the statements rest on. -/
theorem F64.double_laws : DoubleLaws F64 where
  neg_one_lt_zero := by decide
  neg_nonneg := F64.law_neg_nonneg
  neg_mul_neg := F64.law_neg_mul_neg
  sub_self := F64.law_sub_self
  sub_le_sub_right := F64.law_sub_le_sub_right
  sub_le_sub_left := F64.law_sub_le_sub_left
  sub_mul_self := F64.law_sub_mul_self
  mul_self_nonneg := F64.law_mul_self_nonneg
  mul_self_le := F64.law_mul_self_le
  mul_self_le_neg := F64.law_mul_self_le_neg
  zero_mul_zero := by decide
  add_le_add := F64.law_add_le_add
  zero_add_zero := by decide
  add_add_zero := F64.law_add_add_zero
  zero_add_mul := F64.law_zero_add_mul

/-! ## Arrays and distances -/

section
variable {α δ : Type} [Zero α]

theorem getD_take_lt (l : List α) (n i : Nat) (h : i < n) : (l.take n).getD i 0 = l.getD i 0 := by
  simp [List.getD_eq_getElem?_getD, List.getElem?_take, h]

theorem getD_set_eq (l : List α) (i : Nat) (v : α) (h : i < l.length) :
    (l.set i v).getD i 0 = v := by
  simp [List.getD_eq_getElem?_getD, List.getElem?_set, h]

theorem getD_set_ne (l : List α) (i j : Nat) (v : α) (h : i ≠ j) :
    (l.set i v).getD j 0 = l.getD j 0 := by
  simp [List.getD_eq_getElem?_getD, List.getElem?_set, h]

theorem set_set_getD (l : List α) (i : Nat) (v : α) : (l.set i v).set i (l.getD i 0) = l := by
  apply List.ext_getElem?
  intro j
  by_cases hj : i = j
  · subst hj
    by_cases hi : i < l.length
    · simp [List.getElem?_set, hi, List.getD_eq_getElem?_getD]
    · simp [List.getElem?_set, hi]
      simp at hi
      simp [hi]
  · simp [List.getElem?_set, hj]

end

section
variable {α δ : Type} [Zero α] [Add α] [Sub α] [Mul α]

theorem dist_sq_succ (p q : List α) (n : Nat) :
    dist_sq p q (n + 1) = dist_sq p q n + SQ (p.getD n 0 - q.getD n 0) := by
  simp [dist_sq, List.range_succ]

end

section
variable {α δ : Type} [LinearOrder α] [Zero α] [One α] [Neg α] [Add α] [Sub α] [Mul α]
  [DoubleLaws α]

theorem SQ_nonneg (x : α) : 0 ≤ SQ x := DoubleLaws.mul_self_nonneg x

theorem sub_nonneg_of_le (a b : α) (h : b ≤ a) : 0 ≤ a - b := by
  have h1 := DoubleLaws.sub_le_sub_right b a b h
  rwa [DoubleLaws.sub_self] at h1

theorem sub_nonpos_of_le (a b : α) (h : a ≤ b) : a - b ≤ 0 := by
  have h1 := DoubleLaws.sub_le_sub_right a b b h
  rwa [DoubleLaws.sub_self] at h1

theorem fabs_nonneg (x : α) : 0 ≤ fabs x := by
  unfold fabs
  split
  · rename_i h
    exact DoubleLaws.neg_nonneg x h
  · rename_i h
    exact not_lt.mp h

end

section
variable {α δ : Type} [LinearOrder α] [Zero α] [Neg α]

end

section
variable {α δ : Type} [LinearOrder α] [Zero α] [One α] [Neg α] [Add α] [Sub α] [Mul α]
  [DoubleLaws α]

/-- A partial sum of `dist_sq` is unchanged by adding zero. -/
theorem dist_sq_add_zero (p q : List α) (n : Nat) : dist_sq p q n + 0 = dist_sq p q n := by
  cases n with
  | zero => simp only [dist_sq, List.range_zero, List.foldl_nil]; exact DoubleLaws.zero_add_zero
  | succ n => rw [dist_sq_succ]; exact DoubleLaws.add_add_zero _ _

theorem dist_sq_le_succ (p q : List α) (n : Nat) : dist_sq p q n ≤ dist_sq p q (n + 1) := by
  rw [dist_sq_succ]
  have h := DoubleLaws.add_le_add (dist_sq p q n) (dist_sq p q n) 0
    (SQ (p.getD n 0 - q.getD n 0)) (le_refl _) (SQ_nonneg _)
  rwa [dist_sq_add_zero] at h

end

/-! ## Insertion -/

theorem malloc_nil : malloc [] = (true, []) := rfl

section
variable {α δ : Type} [LinearOrder α] [Zero α]

theorem insert_rec_status (a : List Bool) (nptr : kdnode α δ) (pos : List α) (data : δ)
    (dir dim : Nat) :
    (insert_rec a nptr pos data dir dim).1 = 0 ∨ (insert_rec a nptr pos data dir dim).1 = -1 := by
  induction nptr generalizing a dir with
  | null =>
    simp only [insert_rec]
    split
    · simp
    · split <;> simp
  | mk npos ndir ndata left right ihl ihr =>
    simp only [insert_rec]
    split
    · exact ihl a _
    · exact ihr a _

theorem insert_rec_fail (a : List Bool) (nptr : kdnode α δ) (pos : List α) (data : δ)
    (dir dim : Nat) (h : (insert_rec a nptr pos data dir dim).1 ≠ 0) :
    (insert_rec a nptr pos data dir dim).2.1 = nptr := by
  induction nptr generalizing a dir with
  | null =>
    simp only [insert_rec] at h ⊢
    split
    · rfl
    · split
      · rfl
      · rename_i h1 _ _ h2
        simp [h1, h2] at h
  | mk npos ndir ndata left right ihl ihr =>
    simp only [insert_rec] at h ⊢
    split
    · rename_i hlt
      simp only [hlt, if_true] at h
      simp [ihl a _ h]
    · rename_i hlt
      simp only [hlt, if_false] at h
      simp [ihr a _ h]

theorem insert_rec_ok (a : List Bool) (nptr : kdnode α δ) (pos : List α) (data : δ)
    (dir dim : Nat) (h : (insert_rec a nptr pos data dir dim).1 = 0) :
    ∃ d, leaf_added (kdnode.mk (pos.take dim) d data kdnode.null kdnode.null) nptr
      (insert_rec a nptr pos data dir dim).2.1 := by
  induction nptr generalizing a dir with
  | null =>
    simp only [insert_rec] at h ⊢
    split
    · rename_i h1
      simp [h1] at h
    · split
      · rename_i h1 _ _ h2
        simp [h1, h2] at h
      · exact ⟨dir, leaf_added.slot⟩
  | mk npos ndir ndata left right ihl ihr =>
    simp only [insert_rec] at h ⊢
    split
    · rename_i hlt
      simp only [hlt, if_true] at h
      obtain ⟨d, hd⟩ := ihl a _ h
      exact ⟨d, leaf_added.left _ _ _ _ _ _ hd⟩
    · rename_i hlt
      simp only [hlt, if_false] at h
      obtain ⟨d, hd⟩ := ihr a _ h
      exact ⟨d, leaf_added.right _ _ _ _ _ _ hd⟩

theorem insert_rec_nil (nptr : kdnode α δ) (pos : List α) (data : δ) (dir dim : Nat) :
    (insert_rec [] nptr pos data dir dim).1 = 0 ∧
      (insert_rec [] nptr pos data dir dim).2.2 = [] := by
  induction nptr generalizing dir with
  | null => simp [insert_rec, malloc]
  | mk npos ndir ndata left right ihl ihr =>
    simp only [insert_rec]
    split
    · exact ihl _
    · exact ihr _

end

theorem leaf_added_entries {α δ : Type} (lp : List α) (ld : Nat) (ldata : δ) (old new : kdnode α δ)
    (h : leaf_added (kdnode.mk lp ld ldata kdnode.null kdnode.null) old new) :
    List.Perm new.entries ((lp, ldata) :: old.entries) := by
  induction h with
  | slot => simp [kdnode.entries]
  | left pos dir data l l1 r _ ih =>
    simp only [kdnode.entries]
    refine (List.Perm.cons _ (List.Perm.append_right _ ih)).trans ?_
    simp only [List.cons_append]
    exact List.Perm.swap _ _ _
  | right pos dir data l r r1 _ ih =>
    simp only [kdnode.entries]
    refine (List.Perm.cons _ (List.Perm.append_left _ ih)).trans ?_
    refine (List.Perm.cons _ List.perm_middle).trans ?_
    exact List.Perm.swap _ _ _

section
variable {α δ : Type} [LinearOrder α] [Zero α]

theorem insert_rec_entries (a : List Bool) (nptr : kdnode α δ) (pos : List α) (data : δ)
    (dir dim : Nat) (e : List α × δ)
    (he : e ∈ (insert_rec a nptr pos data dir dim).2.1.entries) :
    e ∈ nptr.entries ∨ e = (pos.take dim, data) := by
  rcases insert_rec_status a nptr pos data dir dim with h | h
  · obtain ⟨d, hd⟩ := insert_rec_ok a nptr pos data dir dim h
    have := (leaf_added_entries _ _ _ _ _ hd).mem_iff.mp he
    simp only [List.mem_cons] at this
    tauto
  · rw [insert_rec_fail a nptr pos data dir dim (by rw [h]; decide)] at he
    exact Or.inl he

theorem insert_rec_dirs (a : List Bool) (nptr : kdnode α δ) (pos : List α) (data : δ)
    (dir dim : Nat) (hdim : 0 < dim) (hdir : dir < dim) (h : dirs_in_range dim nptr) :
    dirs_in_range dim (insert_rec a nptr pos data dir dim).2.1 := by
  induction nptr generalizing a dir with
  | null =>
    simp only [insert_rec]
    split
    · trivial
    · split
      · trivial
      · exact ⟨hdir, trivial, trivial⟩
  | mk npos ndir ndata left right ihl ihr =>
    simp only [insert_rec]
    obtain ⟨h1, h2, h3⟩ := h
    split
    · exact ⟨h1, ihl a _ (Nat.mod_lt _ hdim) h2, h3⟩
    · exact ⟨h1, h2, ihr a _ (Nat.mod_lt _ hdim) h3⟩

theorem insert_rec_ordered (a : List Bool) (nptr : kdnode α δ) (pos : List α) (data : δ)
    (dir dim : Nat) (hd : dirs_in_range dim nptr) (h : split_ordered nptr) :
    split_ordered (insert_rec a nptr pos data dir dim).2.1 := by
  induction nptr generalizing a dir with
  | null =>
    simp only [insert_rec]
    split
    · trivial
    · split
      · trivial
      · simp [split_ordered, kdnode.entries]
  | mk npos ndir ndata left right ihl ihr =>
    simp only [insert_rec]
    obtain ⟨hd1, hd2, hd3⟩ := hd
    obtain ⟨h1, h2, h3, h4⟩ := h
    split
    · rename_i hlt
      refine ⟨?_, h2, ihl a _ hd2 h3, h4⟩
      intro e he
      rcases insert_rec_entries a left pos data _ dim e he with h | h
      · exact h1 e h
      · subst h
        show (pos.take dim).getD ndir 0 < npos.getD ndir 0
        rw [getD_take_lt _ _ _ hd1]
        exact hlt
    · rename_i hlt
      refine ⟨h1, ?_, h3, ihr a _ hd3 h4⟩
      intro e he
      rcases insert_rec_entries a right pos data _ dim e he with h | h
      · exact h2 e h
      · subst h
        show npos.getD ndir 0 ≤ (pos.take dim).getD ndir 0
        rw [getD_take_lt _ _ _ hd1]
        exact not_lt.mp hlt

end

/-! ## The bounding box -/

section
variable {α δ : Type} [LinearOrder α] [Zero α]

theorem hyperrect_extend_step_spec (pos : List α) (r : kdhyperrect α) (i : Nat)
    (h1 : i < r.min.length) (h2 : i < r.max.length) :
    (hyperrect_extend_step pos r i).dim = r.dim ∧
    (hyperrect_extend_step pos r i).min.length = r.min.length ∧
    (hyperrect_extend_step pos r i).max.length = r.max.length ∧
    (∀ j, (hyperrect_extend_step pos r i).min.getD j 0 =
      if j = i then min (r.min.getD i 0) (pos.getD i 0) else r.min.getD j 0) ∧
    (∀ j, (hyperrect_extend_step pos r i).max.getD j 0 =
      if j = i then max (r.max.getD i 0) (pos.getD i 0) else r.max.getD j 0) := by
  unfold hyperrect_extend_step
  by_cases c1 : pos.getD i 0 < r.min.getD i 0 <;> by_cases c2 : pos.getD i 0 > r.max.getD i 0
  all_goals
    simp only [c1, c2, if_true, if_false, List.length_set, true_and]
    refine ⟨?_, ?_⟩ <;> intro j <;> by_cases hj : j = i
  all_goals first
    | (subst hj; rw [getD_set_eq _ _ _ (by assumption)]; simp only [if_true])
    | (rw [getD_set_ne _ _ _ _ (Ne.symm hj)]; simp only [hj, if_false])
    | (subst hj; simp only [if_true])
    | simp only [hj, if_false]
  all_goals first
    | exact (min_eq_right (le_of_lt c1)).symm
    | exact (max_eq_right (le_of_lt c2)).symm
    | exact (min_eq_left (not_lt.mp c1)).symm
    | exact (max_eq_left (not_lt.mp c2)).symm

theorem hyperrect_extend_fold (pos : List α) (r : kdhyperrect α) (n : Nat)
    (h1 : n ≤ r.min.length) (h2 : n ≤ r.max.length) :
    ((List.range n).foldl (hyperrect_extend_step pos) r).dim = r.dim ∧
    ((List.range n).foldl (hyperrect_extend_step pos) r).min.length = r.min.length ∧
    ((List.range n).foldl (hyperrect_extend_step pos) r).max.length = r.max.length ∧
    (∀ j, ((List.range n).foldl (hyperrect_extend_step pos) r).min.getD j 0 =
      if j < n then min (r.min.getD j 0) (pos.getD j 0) else r.min.getD j 0) ∧
    (∀ j, ((List.range n).foldl (hyperrect_extend_step pos) r).max.getD j 0 =
      if j < n then max (r.max.getD j 0) (pos.getD j 0) else r.max.getD j 0) := by
  induction n with
  | zero => simp
  | succ n ih =>
    obtain ⟨i1, i2, i3, i4, i5⟩ := ih (by omega) (by omega)
    rw [List.range_succ, List.foldl_append]
    simp only [List.foldl_cons, List.foldl_nil]
    obtain ⟨s1, s2, s3, s4, s5⟩ := hyperrect_extend_step_spec pos
      ((List.range n).foldl (hyperrect_extend_step pos) r) n (by omega) (by omega)
    refine ⟨by omega, by omega, by omega, ?_, ?_⟩
    · intro j
      rw [s4 j]
      by_cases hj : j = n
      · subst hj
        rw [i4 j]
        simp
      · rw [i4 j]
        have : (j < n + 1) = (j < n) := by
          apply propext
          omega
        simp only [hj, if_false, this]
    · intro j
      rw [s5 j]
      by_cases hj : j = n
      · subst hj
        rw [i5 j]
        simp
      · rw [i5 j]
        have : (j < n + 1) = (j < n) := by
          apply propext
          omega
        simp only [hj, if_false, this]

theorem hyperrect_extend_spec (r : kdhyperrect α) (pos : List α)
    (h1 : r.min.length = r.dim) (h2 : r.max.length = r.dim) :
    (hyperrect_extend r pos).dim = r.dim ∧
    (hyperrect_extend r pos).min.length = r.dim ∧
    (hyperrect_extend r pos).max.length = r.dim ∧
    (∀ j, j < r.dim → (hyperrect_extend r pos).min.getD j 0 = min (r.min.getD j 0) (pos.getD j 0)) ∧
    (∀ j, j < r.dim → (hyperrect_extend r pos).max.getD j 0 = max (r.max.getD j 0) (pos.getD j 0)) := by
  obtain ⟨i1, i2, i3, i4, i5⟩ := hyperrect_extend_fold pos r r.dim (by omega) (by omega)
  unfold hyperrect_extend
  refine ⟨i1, by omega, by omega, ?_, ?_⟩
  · intro j hj
    rw [i4 j]
    simp [hj]
  · intro j hj
    rw [i5 j]
    simp [hj]

end

theorem leaf_added_ne_null {α δ : Type} (leaf old new : kdnode α δ) (h : leaf_added leaf old new)
    (hl : leaf ≠ kdnode.null) : new ≠ kdnode.null := by
  cases h with
  | slot => exact hl
  | left => simp
  | right => simp

section
variable {α δ : Type} [LinearOrder α] [Zero α]

theorem kd_insert_nil_eq (t : kdtree α δ) (pos : List α) (data : δ) :
    kd_insert [] t pos data =
      (0, { t with
              root := (insert_rec [] t.root pos data 0 t.dim).2.1,
              rect := match t.rect with
                | none => some { dim := t.dim, min := pos.take t.dim, max := pos.take t.dim }
                | some rect => some (hyperrect_extend rect pos) }, []) := by
  obtain ⟨h1, h2⟩ := insert_rec_nil t.root pos data 0 t.dim
  unfold kd_insert
  generalize insert_rec [] t.root pos data 0 t.dim = x at h1 h2
  obtain ⟨ret, root1, a1⟩ := x
  simp only at h1 h2
  subst h1 h2
  cases hr : t.rect <;> simp [hr, hyperrect_create, malloc]

theorem kd_insert_inv (t : kdtree α δ) (pos : List α) (data : δ) (h : tree_inv t)
    (hpos : t.dim ≤ pos.length) : tree_inv (kd_insert [] t pos data).2.1 := by
  rw [kd_insert_nil_eq]
  dsimp only
  obtain ⟨h0, hd, ho, hr⟩ := h
  obtain ⟨hs, _⟩ := insert_rec_nil t.root pos data 0 t.dim
  obtain ⟨d, hleaf⟩ := insert_rec_ok [] t.root pos data 0 t.dim hs
  have hperm := leaf_added_entries _ _ _ _ _ hleaf
  refine ⟨h0, insert_rec_dirs _ _ _ _ _ _ h0 h0 hd, insert_rec_ordered _ _ _ _ _ _ hd ho, ?_⟩
  have hne : (insert_rec [] t.root pos data 0 t.dim).2.1 ≠ kdnode.null :=
    leaf_added_ne_null _ _ _ hleaf (by simp)
  cases hrect : t.rect with
  | none =>
    rw [hrect] at hr
    simp only at hr
    have hent : t.root.entries = [] := by rw [hr]; rfl
    rw [hent] at hperm
    refine ⟨hne, rfl, by simp [hpos], by simp [hpos], ?_⟩
    intro i (hi : i < t.dim)
    have hmem : ∀ p, p ∈ List.map Prod.fst (insert_rec [] t.root pos data 0 t.dim).2.1.entries ↔
        p = pos.take t.dim := by
      intro p
      rw [List.mem_map]
      constructor
      · rintro ⟨e, he, rfl⟩
        have := hperm.mem_iff.mp he
        simp only [List.mem_singleton] at this
        rw [this]
      · intro hp
        exact ⟨(pos.take t.dim, data), hperm.mem_iff.mpr (by simp), hp.symm⟩
    refine ⟨?_, ⟨pos.take t.dim, (hmem _).mpr rfl, rfl⟩, ⟨pos.take t.dim, (hmem _).mpr rfl, rfl⟩⟩
    intro p hp
    rw [(hmem p).mp hp]
    exact ⟨le_refl _, le_refl _⟩
  | some rect =>
    rw [hrect] at hr
    obtain ⟨_, r1, r2, r3, r4⟩ := hr
    obtain ⟨e1, e2, e3, e4, e5⟩ := hyperrect_extend_spec rect pos (by omega) (by omega)
    refine ⟨hne, by simpa [r1] using e1, by simpa [r1] using e2, by simpa [r1] using e3, ?_⟩
    intro i (hi : i < t.dim)
    have hi2 : i < rect.dim := by omega
    obtain ⟨t1, ⟨pmin, hpmin, hpmin2⟩, ⟨pmax, hpmax, hpmax2⟩⟩ := r4 i hi
    have hmem : ∀ p, p ∈ List.map Prod.fst (insert_rec [] t.root pos data 0 t.dim).2.1.entries ↔
        p = pos.take t.dim ∨ p ∈ List.map Prod.fst t.root.entries := by
      intro p
      simp only [List.mem_map]
      constructor
      · rintro ⟨e, he, rfl⟩
        have := hperm.mem_iff.mp he
        rcases List.mem_cons.mp this with h | h
        · left; rw [h]
        · right; exact ⟨e, h, rfl⟩
      · rintro (hp | ⟨e, he, rfl⟩)
        · exact ⟨(pos.take t.dim, data), hperm.mem_iff.mpr (by simp), hp.symm⟩
        · exact ⟨e, hperm.mem_iff.mpr (List.mem_cons_of_mem _ he), rfl⟩
    have hnew : (pos.take t.dim).getD i 0 = pos.getD i 0 := getD_take_lt _ _ _ hi
    dsimp only
    rw [e4 i hi2, e5 i hi2]
    refine ⟨?_, ?_, ?_⟩
    · intro p hp
      rcases (hmem p).mp hp with h | h
      · rw [h, hnew]
        exact ⟨min_le_right _ _, le_max_right _ _⟩
      · obtain ⟨b1, b2⟩ := t1 p h
        exact ⟨le_trans (min_le_left _ _) b1, le_trans b2 (le_max_left _ _)⟩
    · rcases le_total (rect.min.getD i 0) (pos.getD i 0) with h | h
      · exact ⟨pmin, (hmem _).mpr (Or.inr hpmin), by rw [min_eq_left h]; exact hpmin2⟩
      · exact ⟨pos.take t.dim, (hmem _).mpr (Or.inl rfl), by rw [min_eq_right h, hnew]⟩
    · rcases le_total (rect.max.getD i 0) (pos.getD i 0) with h | h
      · exact ⟨pos.take t.dim, (hmem _).mpr (Or.inl rfl), by rw [max_eq_right h, hnew]⟩
      · exact ⟨pmax, (hmem _).mpr (Or.inr hpmax), by rw [max_eq_left h]; exact hpmax2⟩

theorem kd_insert_rect_some (t : kdtree α δ) (pos : List α) (data : δ) :
    (kd_insert [] t pos data).2.1.rect ≠ none := by
  rw [kd_insert_nil_eq]
  cases t.rect <;> simp

theorem kd_insert_dim (a : List Bool) (t : kdtree α δ) (pos : List α) (data : δ) :
    (kd_insert a t pos data).2.1.dim = t.dim := by
  unfold kd_insert
  simp only
  split
  · rfl
  · split <;> rfl

end

theorem kd_create_spec {α δ : Type} (a : List Bool) (k : Nat) (t : kdtree α δ)
    (h : (kd_create a k).1 = some t) : t.dim = k ∧ t.root = kdnode.null ∧ t.rect = none := by
  unfold kd_create at h
  split at h
  · simp at h
  · simp only [Option.some.injEq] at h
    subst h
    exact ⟨rfl, rfl, rfl⟩

theorem kd_clear_spec {α δ : Type} (t : kdtree α δ) :
    (kd_clear t).1.dim = t.dim ∧ (kd_clear t).1.root = kdnode.null ∧
      (kd_clear t).1.rect = none ∧ (kd_clear t).1.destr = t.destr := by
  unfold kd_clear
  cases h : t.rect <;> simp [h]

section
variable {α δ : Type} [LinearOrder α] [Zero α]

theorem kd_insert_all_cons (t : kdtree α δ) (e : List α × δ) (ins : List (List α × δ)) :
    kd_insert_all t (e :: ins) = kd_insert_all (kd_insert [] t e.1 e.2).2.1 ins := rfl

theorem kd_insert_all_append (t : kdtree α δ) (ins : List (List α × δ)) (e : List α × δ) :
    kd_insert_all t (ins ++ [e]) = (kd_insert [] (kd_insert_all t ins) e.1 e.2).2.1 := by
  induction ins generalizing t with
  | nil => rfl
  | cons x xs ih =>
    rw [List.cons_append, kd_insert_all_cons, kd_insert_all_cons, ih]

theorem kd_insert_all_dim (t : kdtree α δ) (ins : List (List α × δ)) :
    (kd_insert_all t ins).dim = t.dim := by
  induction ins generalizing t with
  | nil => rfl
  | cons x xs ih => rw [kd_insert_all_cons, ih, kd_insert_dim]

theorem kd_insert_all_inv (t : kdtree α δ) (ins : List (List α × δ)) (h : tree_inv t)
    (hlen : ∀ e ∈ ins, t.dim ≤ e.1.length) : tree_inv (kd_insert_all t ins) := by
  induction ins generalizing t with
  | nil => exact h
  | cons x xs ih =>
    rw [kd_insert_all_cons]
    apply ih
    · exact kd_insert_inv t x.1 x.2 h (hlen x (List.mem_cons_self _ _))
    · intro e he
      rw [kd_insert_dim]
      exact hlen e (List.mem_cons_of_mem _ he)

theorem kd_insert_all_rect (t : kdtree α δ) (ins : List (List α × δ)) (hne : ins ≠ []) :
    (kd_insert_all t ins).rect ≠ none := by
  rcases List.eq_nil_or_concat ins with h | ⟨xs, x, h⟩
  · exact absurd h hne
  · rw [h, List.concat_eq_append, kd_insert_all_append]
    exact kd_insert_rect_some _ _ _

theorem kd_insert_all_entries (t : kdtree α δ) (ins : List (List α × δ)) :
    List.Perm (kd_insert_all t ins).root.entries
      (t.root.entries ++ ins.map (fun e => (e.1.take t.dim, e.2))) := by
  induction ins generalizing t with
  | nil => simp [kd_insert_all, kd_insert_calls]
  | cons x xs ih =>
    rw [kd_insert_all_cons]
    refine (ih _).trans ?_
    rw [kd_insert_dim, kd_insert_nil_eq]
    dsimp only
    obtain ⟨hs, _⟩ := insert_rec_nil t.root x.1 x.2 0 t.dim
    obtain ⟨d, hleaf⟩ := insert_rec_ok [] t.root x.1 x.2 0 t.dim hs
    have hperm := leaf_added_entries _ _ _ _ _ hleaf
    refine (List.Perm.append_right _ hperm).trans ?_
    simp only [List.map_cons, List.cons_append]
    exact List.perm_middle.symm

theorem empty_tree_inv (t : kdtree α δ) (hd : 0 < t.dim) (hroot : t.root = kdnode.null)
    (hrect : t.rect = none) : tree_inv t := by
  refine ⟨hd, ?_, ?_, ?_⟩
  · rw [hroot]; trivial
  · rw [hroot]; trivial
  · rw [hrect]; exact hroot

theorem kd_insert_root (a : List Bool) (tree : kdtree α δ) (pos : List α) (data : δ) :
    (kd_insert a tree pos data).2.1.root = (insert_rec a tree.root pos data 0 tree.dim).2.1 := by
  unfold kd_insert
  simp only
  split
  · rfl
  · split <;> rfl

theorem kd_insert_destr (a : List Bool) (tree : kdtree α δ) (pos : List α) (data : δ) :
    (kd_insert a tree pos data).2.1.destr = tree.destr := by
  unfold kd_insert
  simp only
  split
  · rfl
  · split <;> rfl

theorem kd_insert_calls_dim (t : kdtree α δ) (calls : List (List Bool × List α × δ)) :
    (kd_insert_calls t calls).dim = t.dim := by
  induction calls generalizing t with
  | nil => rfl
  | cons c cs ih =>
    obtain ⟨a, pos, data⟩ := c
    simp only [kd_insert_calls]
    rw [ih, kd_insert_dim]

theorem kd_insert_calls_ordered (t : kdtree α δ) (calls : List (List Bool × List α × δ))
    (h0 : 0 < t.dim) (hd : dirs_in_range t.dim t.root) (ho : split_ordered t.root) :
    dirs_in_range t.dim (kd_insert_calls t calls).root ∧
      split_ordered (kd_insert_calls t calls).root := by
  induction calls generalizing t with
  | nil => exact ⟨hd, ho⟩
  | cons c cs ih =>
    obtain ⟨a, pos, data⟩ := c
    simp only [kd_insert_calls]
    have := ih (kd_insert a t pos data).2.1 (by rw [kd_insert_dim]; exact h0)
      (by rw [kd_insert_dim, kd_insert_root]; exact insert_rec_dirs _ _ _ _ _ _ h0 h0 hd)
      (by rw [kd_insert_root]; exact insert_rec_ordered _ _ _ _ _ _ hd ho)
    rwa [kd_insert_dim] at this

end

/-! ## Claims about insertion -/

/-- C1 (radius query completeness) fails on the code at the boundary. In the
3-dimensional tree built from the empty tree by the successful insertions of
`(0,0,0)` with payload `10` and `(0,3,4)` with payload `11`, the stored point
`(0,3,4)` is at squared distance `25 = 5 * 5` from `(-5,3,4)`, yet
`kd_nearest_range(tree, (-5,3,4), 5)` returns a result set that is empty: at
the root the test `fabs(dx) < range` is `5 < 5`, so the right subtree, which
holds the point, is never visited. -/
theorem range_query_misses_boundary_point :
    ∃ t0 t1 t2 : kdtree ℤ Nat, ∃ rset : kdres ℤ Nat,
      (kd_create [] 3).1 = some t0 ∧
      kd_insert [] t0 [0, 0, 0] 10 = (0, t1, []) ∧
      kd_insert [] t1 [0, 3, 4] 11 = (0, t2, []) ∧
      ([0, 3, 4], 11) ∈ t2.root.entries ∧
      dist_sq [0, 3, 4] [-5, 3, 4] 3 ≤ 5 * 5 ∧
      (kd_nearest_range [] t2 [-5, 3, 4] 5).1 = some rset ∧
      rset.rlist = [] ∧ kd_res_size rset = 0 :=
  ⟨_, _, _, _, rfl, rfl, rfl, by decide, by decide, rfl, rfl, rfl⟩

/-- C4 (insert is atomic under allocation failure) fails on the code when the
allocation of the bounding hyper-rectangle fails. On a freshly created
3-dimensional tree, with the node and its position array allocated and the
first allocation of `hyperrect_create` failing, `kd_insert` returns `0`, the
point is stored, and `tree->rect` is still null; `kd_nearest` on that tree then
returns the null result although the tree holds a point. -/
theorem kd_insert_ignores_rect_allocation_failure :
    ∃ t0 t1 : kdtree ℤ Nat,
      (kd_create [] 3).1 = some t0 ∧
      kd_insert [true, true, false] t0 [1, 2, 3] 7 = (0, t1, []) ∧
      t1.root = kdnode.mk [1, 2, 3] 0 7 kdnode.null kdnode.null ∧
      t1.rect = none ∧ t1 ≠ t0 ∧
      (kd_nearest [] (some t1) [1, 2, 3]).1 = none :=
  ⟨_, _, rfl, rfl, rfl, rfl, by decide, rfl⟩

section
variable {α δ : Type} [LinearOrder α] [Zero α]

/-- C5: after a non-empty sequence of `kd_insert` calls in which every
allocation succeeds, starting from a freshly created or a cleared tree, the
stored entries are the inserted ones (positions cut to `dim` coordinates), and
`tree->rect` exists and is the tight bounding box of the stored positions: on
every axis `i < dim` it encloses every stored point, `min[i]` is the
coordinate of a stored point and so is `max[i]`. -/
theorem rect_is_tight_bounding_box (t0 : kdtree α δ) (ins : List (List α × δ))
    (hfresh : (∃ k, (kd_create [] k).1 = some t0) ∨ (∃ t : kdtree α δ, (kd_clear t).1 = t0))
    (hne : ins ≠ []) (hlen : ∀ e ∈ ins, t0.dim ≤ e.1.length) :
    List.Perm (kd_insert_all t0 ins).root.entries (ins.map (fun e => (e.1.take t0.dim, e.2))) ∧
    ∃ rect, (kd_insert_all t0 ins).rect = some rect ∧
      tight_box rect ((kd_insert_all t0 ins).root.entries.map Prod.fst) t0.dim ∧
      ∀ p ∈ (kd_insert_all t0 ins).root.entries.map Prod.fst, in_rect rect p t0.dim := by
  have hempty : t0.root = kdnode.null ∧ t0.rect = none := by
    rcases hfresh with ⟨k, hk⟩ | ⟨t, ht⟩
    · exact (kd_create_spec [] k t0 hk).2
    · subst ht
      exact ⟨(kd_clear_spec t).2.1, (kd_clear_spec t).2.2.1⟩
  have hperm := kd_insert_all_entries t0 ins
  rw [hempty.1] at hperm
  refine ⟨by simpa [kdnode.entries] using hperm, ?_⟩
  have hsome := kd_insert_all_rect t0 ins hne
  cases hrect : (kd_insert_all t0 ins).rect with
  | none => exact absurd hrect hsome
  | some rect =>
    have htight : tight_box rect ((kd_insert_all t0 ins).root.entries.map Prod.fst) t0.dim := by
      rcases Nat.eq_zero_or_pos t0.dim with hz | hpos
      · intro i hi
        omega
      · have hinv := kd_insert_all_inv t0 ins (empty_tree_inv t0 hpos hempty.1 hempty.2) hlen
        obtain ⟨_, _, _, hr⟩ := hinv
        rw [hrect] at hr
        have := hr.2.2.2.2
        rwa [kd_insert_all_dim] at this
    exact ⟨rect, rfl, htight, fun p hp i hi => (htight i hi).1 p hp⟩

/-- C6: `kd_insert` succeeds when its allocations succeed, and a successful
`kd_insert(tree, pos, data)` never re-balances: the new tree is the old tree
with exactly one empty child slot (or the empty root) replaced by a new leaf
that holds the first `dim` coordinates of `pos` and the payload `data`, every
other node keeping its position, split axis, payload and subtrees; the
multiset of stored entries is the old one plus `(pos, data)`, and `dim` and
the destructor are unchanged. -/
theorem kd_insert_adds_one_leaf (a : List Bool) (tree : kdtree α δ) (pos : List α) (data : δ) :
    (kd_insert [] tree pos data).1 = 0 ∧
    ((kd_insert a tree pos data).1 = 0 →
      (∃ dir, leaf_added (kdnode.mk (pos.take tree.dim) dir data kdnode.null kdnode.null)
        tree.root (kd_insert a tree pos data).2.1.root) ∧
      ((kd_insert a tree pos data).2.1.root.entries : Multiset (List α × δ)) =
        (pos.take tree.dim, data) ::ₘ (tree.root.entries : Multiset (List α × δ)) ∧
      (kd_insert a tree pos data).2.1.dim = tree.dim ∧
      (kd_insert a tree pos data).2.1.destr = tree.destr) := by
  refine ⟨by rw [kd_insert_nil_eq], ?_⟩
  intro h
  have hret : (insert_rec a tree.root pos data 0 tree.dim).1 = 0 := by
    by_contra hc
    unfold kd_insert at h
    simp only [ne_eq] at h
    rw [if_pos hc] at h
    simp at h
  obtain ⟨d, hleaf⟩ := insert_rec_ok a tree.root pos data 0 tree.dim hret
  rw [kd_insert_root]
  refine ⟨⟨d, hleaf⟩, ?_, kd_insert_dim _ _ _ _, kd_insert_destr _ _ _ _⟩
  rw [Multiset.cons_coe]
  exact Multiset.coe_eq_coe.mpr (leaf_added_entries _ _ _ _ _ hleaf)

/-- C10: the axis-splitting order holds in every tree reached from a freshly
created tree of dimension `k ≥ 1` by `kd_insert` calls, whatever their
allocation outcomes: below a node with split axis `d`, every position of the
left subtree is strictly smaller on axis `d` and every position of the right
subtree is greater or equal (an equal coordinate goes right). Every
`kd_insert` call preserves the order, together with the validity of the split
axes. -/
theorem split_order_invariant :
    (∀ (k : Nat) (a0 : List Bool) (t0 : kdtree α δ) (calls : List (List Bool × List α × δ)),
      0 < k → (kd_create a0 k).1 = some t0 →
      split_ordered (kd_insert_calls t0 calls).root ∧
        dirs_in_range k (kd_insert_calls t0 calls).root) ∧
    (∀ (a : List Bool) (tree : kdtree α δ) (pos : List α) (data : δ),
      0 < tree.dim → dirs_in_range tree.dim tree.root → split_ordered tree.root →
      split_ordered (kd_insert a tree pos data).2.1.root ∧
        dirs_in_range tree.dim (kd_insert a tree pos data).2.1.root) := by
  refine ⟨?_, ?_⟩
  · intro k a0 t0 calls hk hc
    obtain ⟨h1, h2, _⟩ := kd_create_spec a0 k t0 hc
    have := kd_insert_calls_ordered t0 calls (by omega) (by rw [h2]; trivial)
      (by rw [h2]; trivial)
    rw [h1] at this
    exact ⟨this.2, this.1⟩
  · intro a tree pos data h0 hd ho
    rw [kd_insert_root]
    exact ⟨insert_rec_ordered _ _ _ _ _ _ hd ho, insert_rec_dirs _ _ _ _ _ _ h0 h0 hd⟩

end

/-- A concrete instance of C5: two insertions into a fresh 3-dimensional tree. -/
theorem rect_is_tight_bounding_box_witness :
    ((∃ k, (kd_create [] k).1 = some (⟨3, kdnode.null, none, none⟩ : kdtree ℤ Nat)) ∨
      (∃ t : kdtree ℤ Nat, (kd_clear t).1 = ⟨3, kdnode.null, none, none⟩)) ∧
    ([([1, 2, 3], 10), ([0, 5, 1], 11)] : List (List ℤ × Nat)) ≠ [] ∧
    (∀ e ∈ ([([1, 2, 3], 10), ([0, 5, 1], 11)] : List (List ℤ × Nat)), 3 ≤ e.1.length) ∧
    ∃ rect, (kd_insert_all (⟨3, kdnode.null, none, none⟩ : kdtree ℤ Nat)
        [([1, 2, 3], 10), ([0, 5, 1], 11)]).rect = some rect ∧
      tight_box rect ((kd_insert_all (⟨3, kdnode.null, none, none⟩ : kdtree ℤ Nat)
        [([1, 2, 3], 10), ([0, 5, 1], 11)]).root.entries.map Prod.fst) 3 :=
  ⟨Or.inl ⟨3, rfl⟩, by decide, by decide,
    let ⟨rect, h1, h2, _⟩ := (rect_is_tight_bounding_box (⟨3, kdnode.null, none, none⟩ : kdtree ℤ Nat)
      [([1, 2, 3], 10), ([0, 5, 1], 11)] (Or.inl ⟨3, rfl⟩) (by decide) (by decide)).2
    ⟨rect, h1, h2⟩⟩

/-- A concrete instance of C6: an insertion below an existing root. -/
theorem kd_insert_adds_one_leaf_witness :
    (kd_insert [] (⟨3, kdnode.mk [1, 2, 3] 0 10 kdnode.null kdnode.null, none, none⟩ : kdtree ℤ Nat)
      [0, 5, 1] 11).1 = 0 ∧
    ∃ dir, leaf_added (kdnode.mk [0, 5, 1] dir 11 kdnode.null kdnode.null)
      (kdnode.mk [1, 2, 3] 0 10 kdnode.null kdnode.null)
      (kd_insert [] (⟨3, kdnode.mk [1, 2, 3] 0 10 kdnode.null kdnode.null, none, none⟩ : kdtree ℤ Nat)
        [0, 5, 1] 11).2.1.root :=
  ⟨by decide, ((kd_insert_adds_one_leaf [] (⟨3, kdnode.mk [1, 2, 3] 0 10 kdnode.null kdnode.null,
      none, none⟩ : kdtree ℤ Nat) [0, 5, 1] 11).2 (by decide)).1⟩

/-- A concrete instance of C10: three calls, the second failing to allocate. -/
theorem split_order_invariant_witness :
    0 < 3 ∧ (kd_create [] 3).1 = some (⟨3, kdnode.null, none, none⟩ : kdtree ℤ Nat) ∧
    split_ordered (kd_insert_calls (⟨3, kdnode.null, none, none⟩ : kdtree ℤ Nat)
      [([], [1, 2, 3], 10), ([false], [0, 0, 0], 11), ([], [0, 5, 1], 12)]).root :=
  ⟨by decide, rfl, ((@split_order_invariant ℤ Nat _).1 3 [] _
    [([], [1, 2, 3], 10), ([false], [0, 0, 0], 11), ([], [0, 5, 1], 12)] (by decide) rfl).1⟩

/-! ## Range search -/

theorem takeWhile_append_dropWhile_mem {α δ : Type} (p : res_node α δ → Bool) (l : List (res_node α δ))
    (x y : res_node α δ) : x ∈ l.takeWhile p ++ y :: l.dropWhile p ↔ x = y ∨ x ∈ l := by
  have h := List.takeWhile_append_dropWhile p l
  constructor
  · intro hx
    rcases List.mem_append.mp hx with h1 | h1
    · right
      rw [← h]
      exact List.mem_append_left _ h1
    · rcases List.mem_cons.mp h1 with h2 | h2
      · exact Or.inl h2
      · right
        rw [← h]
        exact List.mem_append_right _ h2
  · intro hx
    rcases hx with h1 | h1
    · rw [h1]
      exact List.mem_append_right _ (List.mem_cons_self _ _)
    · rw [← h] at h1
      rcases List.mem_append.mp h1 with h2 | h2
      · exact List.mem_append_left _ h2
      · exact List.mem_append_right _ (List.mem_cons_of_mem _ h2)

section
variable {α δ : Type} [LinearOrder α] [Zero α]

theorem rlist_insert_member (a : List Bool) (list : List (res_node α δ)) (item : kdnode α δ)
    (d : α) (x : res_node α δ) (hx : x ∈ (rlist_insert a list item d).2.1) :
    x ∈ list ∨ x = { item := item, dist_sq := d } := by
  unfold rlist_insert at hx
  split at hx
  · exact Or.inl hx
  · simp only at hx
    split at hx
    · exact ((takeWhile_append_dropWhile_mem _ _ _ _).mp hx).symm
    · simp only [List.mem_cons] at hx
      tauto

end

section
variable {α δ : Type} [LinearOrder α] [Zero α] [One α] [Neg α] [Add α] [Sub α] [Mul α]

/-- The body of `find_nearest` at a node, with the nearer and the farther
subtree named. -/
theorem find_nearest_mk (a : List Bool) (npos : List α) (ndir : Nat) (ndata : δ)
    (left right : kdnode α δ) (pos : List α) (range : α) (list : List (res_node α δ))
    (ordered : Bool) (dim : Nat) (ins first second : Int × List (res_node α δ) × List Bool)
    (hins : ins = if dist_sq npos pos dim ≤ SQ range then
        rlist_insert a list (kdnode.mk npos ndir ndata left right)
          (if ordered then dist_sq npos pos dim else -1)
      else (0, list, a))
    (hfirst : first = find_nearest ins.2.2
      (if pos.getD ndir 0 - npos.getD ndir 0 ≤ 0 then left else right) pos range ins.2.1
      ordered dim)
    (hsecond : second = find_nearest first.2.2
      (if pos.getD ndir 0 - npos.getD ndir 0 ≤ 0 then right else left) pos range first.2.1
      ordered dim) :
    find_nearest a (kdnode.mk npos ndir ndata left right) pos range list ordered dim =
      if ins.1 = -1 then (-1, ins.2.1, ins.2.2)
      else if first.1 ≥ 0 ∧ fabs (pos.getD ndir 0 - npos.getD ndir 0) < range then
        if second.1 = -1 then (-1, second.2.1, second.2.2)
        else ((if dist_sq npos pos dim ≤ SQ range then 1 else 0) + first.1 + second.1,
          second.2.1, second.2.2)
      else if first.1 = -1 then (-1, first.2.1, first.2.2)
      else ((if dist_sq npos pos dim ≤ SQ range then 1 else 0) + first.1, first.2.1, first.2.2) := by
  subst hsecond hfirst hins
  simp only [find_nearest]
  by_cases hdx : pos.getD ndir 0 - npos.getD ndir 0 ≤ 0 <;> simp only [hdx, if_true, if_false]

theorem find_nearest_sound (a : List Bool) (node : kdnode α δ) (pos : List α) (range : α)
    (list : List (res_node α δ)) (ordered : Bool) (dim : Nat) (x : res_node α δ)
    (hx : x ∈ (find_nearest a node pos range list ordered dim).2.1) :
    x ∈ list ∨ (x.item ∈ node.nodes ∧ dist_sq x.item.pos pos dim ≤ SQ range) := by
  induction node generalizing a list x with
  | null => exact Or.inl hx
  | mk npos ndir ndata left right ihl ihr =>
    rw [find_nearest_mk a npos ndir ndata left right pos range list ordered dim _ _ _ rfl rfl rfl]
      at hx
    have hl : ∀ y, y ∈ left.nodes → y ∈ (kdnode.mk npos ndir ndata left right).nodes := by
      intro y hy
      simp [kdnode.nodes, hy]
    have hr : ∀ y, y ∈ right.nodes → y ∈ (kdnode.mk npos ndir ndata left right).nodes := by
      intro y hy
      simp [kdnode.nodes, hy]
    have hsub : ∀ (c : Prop) [Decidable c] (a1 : List Bool) (l1 : List (res_node α δ))
        (y : res_node α δ),
        y ∈ (find_nearest a1 (if c then left else right) pos range l1 ordered dim).2.1 →
        y ∈ l1 ∨ (y.item ∈ (kdnode.mk npos ndir ndata left right).nodes ∧
          dist_sq y.item.pos pos dim ≤ SQ range) := by
      intro c _ a1 l1 y hy
      by_cases hc : c
      · rw [if_pos hc] at hy
        rcases ihl a1 l1 y hy with h | h
        · exact Or.inl h
        · exact Or.inr ⟨hl _ h.1, h.2⟩
      · rw [if_neg hc] at hy
        rcases ihr a1 l1 y hy with h | h
        · exact Or.inl h
        · exact Or.inr ⟨hr _ h.1, h.2⟩
    have hsub2 : ∀ (c : Prop) [Decidable c] (a1 : List Bool) (l1 : List (res_node α δ))
        (y : res_node α δ),
        y ∈ (find_nearest a1 (if c then right else left) pos range l1 ordered dim).2.1 →
        y ∈ l1 ∨ (y.item ∈ (kdnode.mk npos ndir ndata left right).nodes ∧
          dist_sq y.item.pos pos dim ≤ SQ range) := by
      intro c _ a1 l1 y hy
      by_cases hc : c
      · rw [if_pos hc] at hy
        rcases ihr a1 l1 y hy with h | h
        · exact Or.inl h
        · exact Or.inr ⟨hr _ h.1, h.2⟩
      · rw [if_neg hc] at hy
        rcases ihl a1 l1 y hy with h | h
        · exact Or.inl h
        · exact Or.inr ⟨hl _ h.1, h.2⟩
    have hins : ∀ y, y ∈ (if dist_sq npos pos dim ≤ SQ range then
          rlist_insert a list (kdnode.mk npos ndir ndata left right)
            (if ordered = true then dist_sq npos pos dim else -1)
        else (0, list, a)).2.1 →
        y ∈ list ∨ (y.item ∈ (kdnode.mk npos ndir ndata left right).nodes ∧
          dist_sq y.item.pos pos dim ≤ SQ range) := by
      intro y hy
      split at hy
      · rename_i hle
        rcases rlist_insert_member _ _ _ _ _ hy with h | h
        · exact Or.inl h
        · right
          rw [h]
          exact ⟨by simp [kdnode.nodes], hle⟩
      · exact Or.inl hy
    generalize (if dist_sq npos pos dim ≤ SQ range then
          rlist_insert a list (kdnode.mk npos ndir ndata left right)
            (if ordered = true then dist_sq npos pos dim else -1)
        else (0, list, a)) = ins at hx hins
    have hfirst := hsub (pos.getD ndir 0 - npos.getD ndir 0 ≤ 0) ins.2.2 ins.2.1
    generalize find_nearest ins.2.2
      (if pos.getD ndir 0 - npos.getD ndir 0 ≤ 0 then left else right) pos range ins.2.1
      ordered dim = first at hx hfirst
    have hsecond := hsub2 (pos.getD ndir 0 - npos.getD ndir 0 ≤ 0) first.2.2 first.2.1
    generalize find_nearest first.2.2
      (if pos.getD ndir 0 - npos.getD ndir 0 ≤ 0 then right else left) pos range first.2.1
      ordered dim = second at hx hsecond
    have h1 : ∀ y, y ∈ first.2.1 → y ∈ list ∨ (y.item ∈ (kdnode.mk npos ndir ndata left right).nodes ∧
          dist_sq y.item.pos pos dim ≤ SQ range) := by
      intro y hy
      rcases hfirst y hy with h | h
      · exact hins y h
      · exact Or.inr h
    have h2 : ∀ y, y ∈ second.2.1 → y ∈ list ∨ (y.item ∈ (kdnode.mk npos ndir ndata left right).nodes ∧
          dist_sq y.item.pos pos dim ≤ SQ range) := by
      intro y hy
      rcases hsecond y hy with h | h
      · exact h1 y h
      · exact Or.inr h
    split at hx
    · exact hins x hx
    · split at hx
      · split at hx <;> exact h2 x hx
      · split at hx <;> exact h1 x hx

end

section
variable {α δ : Type} [LinearOrder α] [Zero α] [One α] [Neg α] [Add α] [Sub α] [Mul α]
  [DoubleLaws α]

theorem rlist_insert_nil_unordered (list : List (res_node α δ)) (item : kdnode α δ) :
    rlist_insert [] list item (-1) = (0, { item := item, dist_sq := -1 } :: list, []) := by
  have h : ¬ ((-1 : α) ≥ 0) := by
    simp only [ge_iff_le, not_le]
    exact DoubleLaws.neg_one_lt_zero
  simp only [rlist_insert, malloc, h, if_false]

theorem find_nearest_nil (node : kdnode α δ) (pos : List α) (range : α)
    (list : List (res_node α δ)) (dim : Nat) :
    find_nearest [] node pos range list false dim =
      (((range_visit node pos range dim).length : Int),
        (range_visit node pos range dim).reverse.map (fun n => { item := n, dist_sq := -1 }) ++ list,
        []) := by
  induction node generalizing list with
  | null => simp [find_nearest, range_visit]
  | mk npos ndir ndata left right ihl ihr =>
    have hnear : ∀ l1 : List (res_node α δ),
        find_nearest [] (if pos.getD ndir 0 - npos.getD ndir 0 ≤ 0 then left else right) pos range
          l1 false dim =
        (((if pos.getD ndir 0 - npos.getD ndir 0 ≤ 0 then range_visit left pos range dim
            else range_visit right pos range dim).length : Int),
          (if pos.getD ndir 0 - npos.getD ndir 0 ≤ 0 then range_visit left pos range dim
            else range_visit right pos range dim).reverse.map
              (fun n => { item := n, dist_sq := -1 }) ++ l1, []) := by
      intro l1
      split
      · exact ihl l1
      · exact ihr l1
    have hfar : ∀ l1 : List (res_node α δ),
        find_nearest [] (if pos.getD ndir 0 - npos.getD ndir 0 ≤ 0 then right else left) pos range
          l1 false dim =
        (((if pos.getD ndir 0 - npos.getD ndir 0 ≤ 0 then range_visit right pos range dim
            else range_visit left pos range dim).length : Int),
          (if pos.getD ndir 0 - npos.getD ndir 0 ≤ 0 then range_visit right pos range dim
            else range_visit left pos range dim).reverse.map
              (fun n => { item := n, dist_sq := -1 }) ++ l1, []) := by
      intro l1
      split
      · exact ihr l1
      · exact ihl l1
    rw [find_nearest_mk [] npos ndir ndata left right pos range list false dim _ _ _ rfl rfl rfl]
    simp only [range_visit]
    generalize (if pos.getD ndir 0 - npos.getD ndir 0 ≤ 0 then range_visit left pos range dim
            else range_visit right pos range dim) = vnear at hnear
    generalize (if pos.getD ndir 0 - npos.getD ndir 0 ≤ 0 then range_visit right pos range dim
            else range_visit left pos range dim) = vfar at hfar
    by_cases hd : dist_sq npos pos dim ≤ SQ range
    · simp only [hd, if_true, Bool.false_eq_true, if_false, rlist_insert_nil_unordered, hnear,
        hfar]
      by_cases hp : fabs (pos.getD ndir 0 - npos.getD ndir 0) < range
      · simp only [hp, if_true]
        simp
        omega
      · simp only [hp, if_false]
        simp
        omega
    · simp only [hd, if_false, hnear, hfar]
      by_cases hp : fabs (pos.getD ndir 0 - npos.getD ndir 0) < range
      · simp only [hp, if_true]
        simp
      · simp only [hp, if_false]
        simp

theorem kd_nearest_range_nil (tree : kdtree α δ) (pos : List α) (range : α) :
    kd_nearest_range [] tree pos range =
      (some { tree := tree,
              rlist := (range_visit tree.root pos range tree.dim).reverse.map
                (fun n => { item := n, dist_sq := -1 }),
              riter := (range_visit tree.root pos range tree.dim).reverse.map
                (fun n => { item := n, dist_sq := -1 }),
              size := ((range_visit tree.root pos range tree.dim).length : Int) }, []) := by
  simp only [kd_nearest_range, malloc, find_nearest_nil, kd_res_rewind, List.append_nil]
  have : ¬ (((range_visit tree.root pos range tree.dim).length : Int) = -1) := by omega
  simp only [this, if_false]

end

theorem kdnode_pos_mk {α δ : Type} (p : List α) (d : Nat) (x : δ) (l r : kdnode α δ) :
    (kdnode.mk p d x l r).pos = p := rfl

theorem nodes_entries {α δ : Type} (node n : kdnode α δ) (h : n ∈ node.nodes) :
    ∃ x, n.data = some x ∧ (n.pos, x) ∈ node.entries := by
  induction node with
  | null => simp [kdnode.nodes] at h
  | mk npos ndir ndata left right ihl ihr =>
    simp only [kdnode.nodes, List.mem_cons, List.mem_append] at h
    rcases h with h | h | h
    · subst h
      exact ⟨ndata, rfl, by simp [kdnode.entries, kdnode.pos]⟩
    · obtain ⟨x, h1, h2⟩ := ihl h
      exact ⟨x, h1, by simp [kdnode.entries, h2]⟩
    · obtain ⟨x, h1, h2⟩ := ihr h
      exact ⟨x, h1, by simp [kdnode.entries, h2]⟩

section
variable {α δ : Type} [LinearOrder α] [Zero α]

theorem kd_insert_calls_entries (t : kdtree α δ) (calls : List (List Bool × List α × δ))
    (e : List α × δ) (he : e ∈ (kd_insert_calls t calls).root.entries) :
    e ∈ t.root.entries ∨ ∃ c ∈ calls, e = (c.2.1.take t.dim, c.2.2) := by
  induction calls generalizing t with
  | nil => exact Or.inl he
  | cons c cs ih =>
    obtain ⟨a, pos, data⟩ := c
    simp only [kd_insert_calls] at he
    rcases ih _ he with h | ⟨c, hc, h⟩
    · rw [kd_insert_root] at h
      rcases insert_rec_entries _ _ _ _ _ _ _ h with h1 | h1
      · exact Or.inl h1
      · exact Or.inr ⟨(a, pos, data), List.mem_cons_self _ _, h1⟩
    · rw [kd_insert_dim] at h
      exact Or.inr ⟨c, List.mem_cons_of_mem _ hc, h⟩

end

section
variable {α δ : Type} [LinearOrder α] [Zero α] [One α] [Neg α] [Add α] [Sub α] [Mul α]

theorem kd_nearest_range_some (a : List Bool) (tree : kdtree α δ) (pos : List α) (range : α)
    (rset : kdres α δ) (h : (kd_nearest_range a tree pos range).1 = some rset) :
    rset.tree = tree ∧ rset.riter = rset.rlist ∧
      ∃ a1, rset.rlist = (find_nearest a1 tree.root pos range [] false tree.dim).2.1 ∧
        rset.size = (find_nearest a1 tree.root pos range [] false tree.dim).1 := by
  unfold kd_nearest_range at h
  split at h
  · simp at h
  · split at h
    · simp at h
    · rename_i a2 _
      split at h
      rename_i ret list a3 hf
      split at h
      · simp at h
      · simp only [Option.some.injEq] at h
        subst h
        refine ⟨rfl, rfl, a2, ?_, ?_⟩
        · simp [kd_res_rewind, hf]
        · simp [kd_res_rewind, hf]

end

section
variable {α δ : Type} [LinearOrder α] [Zero α] [One α] [Neg α] [Add α] [Sub α] [Mul α]
  [DoubleLaws α]

/-- C2, amended: the radius query is sound for the distance the code computes.
In the arithmetic of the code, whenever `kd_nearest_range(tree, pos, r)`
returns a result set (it does when its allocations succeed), every item of the
set is a node stored in the tree for which `dist_sq(node.pos, pos)`, as the
code computes it (each difference, square and partial sum rounded), is at most
the computed `r * r`; and in a tree built by `kd_insert` calls from a freshly
created tree, the payload and the position `kd_res_item` reports for an item
are those given to one of the `kd_insert` calls (the first `dim` coordinates
of its `pos`). -/
theorem range_query_sound :
    (∀ (tree : kdtree α δ) (pos : List α) (range : α),
      ∃ rset, kd_nearest_range [] tree pos range = (some rset, [])) ∧
    (∀ (a : List Bool) (tree : kdtree α δ) (pos : List α) (range : α) (rset : kdres α δ),
      (kd_nearest_range a tree pos range).1 = some rset →
      ∀ r ∈ rset.rlist, r.item ∈ tree.root.nodes ∧
        dist_sq r.item.pos pos tree.dim ≤ range * range) ∧
    (∀ (k : Nat) (a0 a : List Bool) (t0 : kdtree α δ) (calls : List (List Bool × List α × δ))
      (pos : List α) (range : α) (rset : kdres α δ),
      (kd_create a0 k).1 = some t0 →
      (kd_nearest_range a (kd_insert_calls t0 calls) pos range).1 = some rset →
      ∀ r ∈ rset.rlist, ∀ (rest : List (res_node α δ)) (buf : List α),
        ∃ c ∈ calls, kd_res_item { rset with riter := r :: rest } (some buf) =
          (some c.2.2, some (c.2.1.take k ++ buf.drop k))) := by
  have hA : ∀ (a : List Bool) (tree : kdtree α δ) (pos : List α) (range : α) (rset : kdres α δ),
      (kd_nearest_range a tree pos range).1 = some rset →
      ∀ r ∈ rset.rlist, r.item ∈ tree.root.nodes ∧
        dist_sq r.item.pos pos tree.dim ≤ range * range := by
    intro a tree pos range rset h r hr
    obtain ⟨_, _, a1, h1, _⟩ := kd_nearest_range_some a tree pos range rset h
    rw [h1] at hr
    rcases find_nearest_sound _ _ _ _ _ _ _ _ hr with h | h
    · simp at h
    · exact h
  refine ⟨fun tree pos range => ⟨_, kd_nearest_range_nil tree pos range⟩, hA, ?_⟩
  intro k a0 a t0 calls pos range rset hc h r hr rest buf
  obtain ⟨hk, hroot, _⟩ := kd_create_spec a0 k t0 hc
  obtain ⟨htree, _, _⟩ := kd_nearest_range_some a _ pos range rset h
  obtain ⟨hn, _⟩ := hA a _ pos range rset h r hr
  obtain ⟨x, hx1, hx2⟩ := nodes_entries _ _ hn
  rcases kd_insert_calls_entries t0 calls _ hx2 with h1 | ⟨c, hc1, hc2⟩
  · rw [hroot] at h1
    simp [kdnode.entries] at h1
  · refine ⟨c, hc1, ?_⟩
    simp only [Prod.mk.injEq] at hc2
    simp only [kd_res_item, htree, kd_insert_calls_dim, hk, hx1, hc2.1, hc2.2, List.take_take,
      min_self]

/-- C9 as stated fails: in the 3-dimensional tree holding the single point
`(0,0,0)`, the query at `(0,0,0)` with the negative range `-1` returns a
result set of size 1 holding that point, since the inclusion test compares
the squared distance `0` with `SQ(-1) = 1`. -/
theorem negative_range_matches_root :
    ∃ t0 t1 : kdtree ℤ Nat, ∃ rset : kdres ℤ Nat,
      (kd_create [] 3).1 = some t0 ∧
      kd_insert [] t0 [0, 0, 0] 10 = (0, t1, []) ∧
      (-1 : ℤ) < 0 ∧
      (kd_nearest_range [] t1 [0, 0, 0] (-1)).1 = some rset ∧
      kd_res_size rset = 1 ∧ rset.rlist.map (fun r => r.item.data) = [some 10] :=
  ⟨_, _, _, rfl, rfl, by decide, rfl, rfl, rfl⟩

end

section
variable {α δ : Type} [LinearOrder α] [Zero α] [Sub α]

theorem descent_path_subset (node : kdnode α δ) (pos : List α) (n : kdnode α δ)
    (h : n ∈ descent_path node pos) : n ∈ node.nodes := by
  induction node with
  | null => simp [descent_path] at h
  | mk npos ndir ndata left right ihl ihr =>
    simp only [descent_path, List.mem_cons] at h
    simp only [kdnode.nodes, List.mem_cons, List.mem_append]
    rcases h with h | h
    · exact Or.inl h
    · split at h
      · exact Or.inr (Or.inl (ihl h))
      · exact Or.inr (Or.inr (ihr h))

end

section
variable {α δ : Type} [LinearOrder α] [Zero α] [One α] [Neg α] [Add α] [Sub α] [Mul α]
  [DoubleLaws α]

theorem range_visit_negative (node : kdnode α δ) (pos : List α) (range : α) (dim : Nat)
    (hr : range < 0) :
    range_visit node pos range dim =
      (descent_path node pos).filter (fun n => decide (dist_sq n.pos pos dim ≤ range * range)) := by
  induction node with
  | null => rfl
  | mk npos ndir ndata left right ihl ihr =>
    have hp : ¬ (fabs (pos.getD ndir 0 - npos.getD ndir 0) < range) := by
      intro hc
      exact absurd (lt_of_le_of_lt (fabs_nonneg _) hc) (not_lt.mpr (le_of_lt hr))
    simp only [range_visit, descent_path, hp, if_false, List.append_nil, List.filter_cons,
      kdnode_pos_mk, SQ, decide_eq_true_eq]
    by_cases hd : dist_sq npos pos dim ≤ range * range <;>
      by_cases hx : pos.getD ndir 0 - npos.getD ndir 0 ≤ 0 <;>
      simp only [hd, hx, if_true, if_false, List.cons_append, List.nil_append, ihl, ihr, SQ]

/-- C9, amended: with a negative range `r` the farther subtrees are never
searched (`fabs(dx) < r` is false) while the inclusion test compares with
`SQ(r)`, so `kd_nearest_range(tree, pos, r)` returns exactly the nodes on the
descent path from the root towards `pos` for which `dist_sq(node.pos, pos)`, as
the code computes it, is at most the computed `r * r`; the result set is empty
if and only if no node on that path passes this test, in particular when no
stored node does. -/
theorem negative_range_result (tree : kdtree α δ) (pos : List α) (r : α) (hr : r < 0) :
    ∃ rset, kd_nearest_range [] tree pos r = (some rset, []) ∧
      rset.rlist = (((descent_path tree.root pos).filter
        (fun n => decide (dist_sq n.pos pos tree.dim ≤ r * r))).reverse.map
          (fun n => { item := n, dist_sq := -1 })) ∧
      rset.riter = rset.rlist ∧
      kd_res_size rset = (rset.rlist.length : Int) ∧
      (kd_res_size rset = 0 ↔
        ∀ n ∈ descent_path tree.root pos, r * r < dist_sq n.pos pos tree.dim) ∧
      ((∀ n ∈ tree.root.nodes, r * r < dist_sq n.pos pos tree.dim) → kd_res_size rset = 0) := by
  have hiff : ((range_visit tree.root pos r tree.dim).length : Int) = 0 ↔
      ∀ n ∈ descent_path tree.root pos, r * r < dist_sq n.pos pos tree.dim := by
    simp only [range_visit_negative _ _ _ _ hr]
    rw [Int.natCast_eq_zero, List.length_eq_zero, List.filter_eq_nil_iff]
    simp only [decide_eq_true_eq, not_le]
  refine ⟨_, kd_nearest_range_nil tree pos r, ?_, rfl, ?_, hiff, ?_⟩
  · simp only [range_visit_negative _ _ _ _ hr]
  · simp [kd_res_size]
  · intro hall
    exact hiff.mpr (fun n hn => hall n (descent_path_subset _ _ _ hn))

end

/-- C2 as stated fails in `double` arithmetic: in the 3-dimensional tree
holding the single point `(1, 2^(-30), 0)` with payload 7, the query at the
origin with radius `1` returns that point (and `kd_res_item` reports payload 7
and that position), although its squared Euclidean distance `1 + 2^(-60)` is
greater than `1 * 1` (compared exactly, in units of `2^(-2148)`): the sum
computed by `dist_sq` rounds to `1`. -/
theorem range_query_returns_point_outside_radius :
    ∃ t0 : kdtree F64 Nat, ∃ rset : kdres F64 Nat,
      (kd_create [] 3).1 = some t0 ∧
      kd_insert [] t0 [1, F64.ofScaled 1 (-30), 0] 7 = (0, rounding_tree, []) ∧
      (0 : F64) ≤ 1 ∧
      (kd_nearest_range [] rounding_tree [0, 0, 0] 1).1 = some rset ∧
      rset.rlist.map (fun r => r.item.pos) = [[1, F64.ofScaled 1 (-30), 0]] ∧
      kd_res_item rset (some [0, 0, 0]) = (some 7, some [1, F64.ofScaled 1 (-30), 0]) ∧
      F64.units 1 * F64.units 1 <
        dist_sq (([1, F64.ofScaled 1 (-30), 0] : List F64).map F64.units)
          (([0, 0, 0] : List F64).map F64.units) 3 ∧
      dist_sq ([1, F64.ofScaled 1 (-30), 0] : List F64) [0, 0, 0] 3 = 1 :=
  ⟨⟨3, kdnode.null, none, none⟩,
    ⟨rounding_tree, [⟨rounding_tree.root, -1⟩], [⟨rounding_tree.root, -1⟩], 1⟩,
    rfl, by decide, by decide, by decide, by decide, by decide, by decide, by decide⟩

/-- A concrete instance of C2 (amended), in binary64: the query at the origin
with radius 1 on the tree holding `(1, 2^(-30), 0)` returns that point, and the
squared distance `dist_sq` computes for it, `1`, is at most the computed
`1 * 1`. -/
theorem range_query_sound_witness :
    (kd_nearest_range [] rounding_tree [0, 0, 0] 1).1 =
      some { tree := rounding_tree, rlist := [{ item := rounding_tree.root, dist_sq := -1 }],
             riter := [{ item := rounding_tree.root, dist_sq := -1 }], size := 1 } ∧
    rounding_tree.root ∈ rounding_tree.root.nodes ∧
    dist_sq rounding_tree.root.pos [0, 0, 0] 3 ≤ (1 : F64) * 1 :=
  ⟨by decide, (@range_query_sound F64 Nat _ _ _ _ _ _ _ F64.double_laws).2.1 [] rounding_tree
    [0, 0, 0] 1
    { tree := rounding_tree, rlist := [{ item := rounding_tree.root, dist_sq := -1 }],
      riter := [{ item := rounding_tree.root, dist_sq := -1 }], size := 1 }
    (by decide) { item := rounding_tree.root, dist_sq := -1 } (List.mem_singleton.mpr rfl)⟩

/-- A concrete instance of C9 (amended), in binary64: the range `-1` at the
origin on the tree holding `(1, 2^(-30), 0)` returns one item, the root, whose
computed squared distance `1` passes the test against `SQ(-1) = 1`. -/
theorem negative_range_result_witness :
    (-1 : F64) < 0 ∧
    (kd_nearest_range [] rounding_tree [0, 0, 0] (-1)).1.map kd_res_size = some 1 ∧
    ∃ rset, kd_nearest_range [] rounding_tree [0, 0, 0] (-1) = (some rset, []) ∧
      rset.rlist = (((descent_path rounding_tree.root [0, 0, 0]).filter
        (fun n => decide (dist_sq n.pos [0, 0, 0] 3 ≤ (-1 : F64) * -1))).reverse.map
          (fun n => { item := n, dist_sq := -1 })) ∧
      kd_res_size rset = (rset.rlist.length : Int) :=
  ⟨by decide, by decide,
    let ⟨rset, h1, h2, _, h4, _⟩ :=
      @negative_range_result F64 Nat _ _ _ _ _ _ _ F64.double_laws rounding_tree [0, 0, 0] (-1)
        (by decide)
    ⟨rset, h1, h2, h4⟩⟩

/-! ## Single nearest neighbour -/

section
variable {α δ : Type} [Zero α]

theorem set_getD_self (l : List α) (i : Nat) : l.set i (l.getD i 0) = l := by
  apply List.ext_getElem?
  intro j
  by_cases hj : i = j
  · subst hj
    by_cases hi : i < l.length
    · simp [List.getElem?_set, hi, List.getD_eq_getElem?_getD]
    · simp [List.getElem?_set, hi]
      simp at hi
      simp [hi]
  · simp [List.getElem?_set, hj]

end

section
variable {α δ : Type} [LinearOrder α] [Zero α] [One α] [Neg α] [Add α] [Sub α] [Mul α]
  [DoubleLaws α]

theorem hyperrect_dist_sq_fold_le (rect : kdhyperrect α) (pos q : List α) (n : Nat)
    (h : ∀ i, i < n → rect.min.getD i 0 ≤ q.getD i 0 ∧ q.getD i 0 ≤ rect.max.getD i 0) :
    (List.range n).foldl
      (fun result i =>
        if pos.getD i 0 < rect.min.getD i 0 then result + SQ (rect.min.getD i 0 - pos.getD i 0)
        else if pos.getD i 0 > rect.max.getD i 0 then
          result + SQ (rect.max.getD i 0 - pos.getD i 0)
        else result) 0 ≤ dist_sq q pos n := by
  induction n with
  | zero => simp [dist_sq]
  | succ n ih =>
    have ih := ih (fun i hi => h i (by omega))
    obtain ⟨h1, h2⟩ := h n (by omega)
    rw [dist_sq_succ, List.range_succ, List.foldl_append]
    simp only [List.foldl_cons, List.foldl_nil]
    have hsq := SQ_nonneg (q.getD n 0 - pos.getD n 0)
    split
    · rename_i hlt
      have : SQ (rect.min.getD n 0 - pos.getD n 0) ≤ SQ (q.getD n 0 - pos.getD n 0) := by
        unfold SQ
        exact DoubleLaws.mul_self_le _ _ (sub_nonneg_of_le _ _ (le_of_lt hlt))
          (DoubleLaws.sub_le_sub_right _ _ _ h1)
      exact DoubleLaws.add_le_add _ _ _ _ ih this
    · split
      · rename_i hgt
        have : SQ (rect.max.getD n 0 - pos.getD n 0) ≤ SQ (q.getD n 0 - pos.getD n 0) := by
          unfold SQ
          exact DoubleLaws.mul_self_le_neg _ _ (DoubleLaws.sub_le_sub_right _ _ _ h2)
            (sub_nonpos_of_le _ _ (le_of_lt hgt))
        exact DoubleLaws.add_le_add _ _ _ _ ih this
      · have h3 := dist_sq_le_succ q pos n
        rw [dist_sq_succ] at h3
        exact le_trans ih h3

theorem hyperrect_dist_sq_le (rect : kdhyperrect α) (pos q : List α)
    (h : in_rect rect q rect.dim) : hyperrect_dist_sq rect pos ≤ dist_sq q pos rect.dim :=
  hyperrect_dist_sq_fold_le rect pos q rect.dim h

end

section
variable {α δ : Type} [LinearOrder α] [Zero α] [Add α] [Sub α] [Mul α]

/-- The body of `kd_nearest_i` at a node on the side `pos[dir] <= node->pos[dir]`,
with the intermediate states named; the null tests on the subtrees are absorbed
since a slice that is undone at once changes nothing. -/
theorem kd_nearest_i_mk_le (npos : List α) (dir : Nat) (ndata : δ) (left right : kdnode α δ)
    (pos : List α) (res : kdnode α δ) (d : α) (rect : kdhyperrect α)
    (hle : pos.getD dir 0 - npos.getD dir 0 ≤ 0)
    (r1 s1 s2 r3 : kdnode α δ × α × kdhyperrect α)
    (hr1 : r1 = kd_nearest_i left pos res d { rect with max := rect.max.set dir (npos.getD dir 0) })
    (hs1 : s1 = (r1.1, r1.2.1, { r1.2.2 with max := r1.2.2.max.set dir (rect.max.getD dir 0) }))
    (hs2 : s2 = if dist_sq npos pos s1.2.2.dim < s1.2.1 then
      (kdnode.mk npos dir ndata left right, dist_sq npos pos s1.2.2.dim, s1.2.2) else s1)
    (hr3 : r3 = if hyperrect_dist_sq
          { s2.2.2 with min := s2.2.2.min.set dir (npos.getD dir 0) } pos < s2.2.1 then
        kd_nearest_i right pos s2.1 s2.2.1 { s2.2.2 with min := s2.2.2.min.set dir (npos.getD dir 0) }
      else (s2.1, s2.2.1, { s2.2.2 with min := s2.2.2.min.set dir (npos.getD dir 0) })) :
    kd_nearest_i (kdnode.mk npos dir ndata left right) pos res d rect =
      (r3.1, r3.2.1, { r3.2.2 with min := r3.2.2.min.set dir (s2.2.2.min.getD dir 0) }) := by
  subst hr3 hs2 hs1 hr1
  conv_lhs => unfold kd_nearest_i
  simp only [hle, if_true]
  cases left <;> cases right
  · simp only [kd_nearest_i.eq_1, set_set_getD]
    split <;> simp only [ite_self, set_set_getD, set_getD_self]
  · simp only [kd_nearest_i.eq_1, set_set_getD]
  · simp only [kd_nearest_i.eq_1, set_set_getD]
    split <;> simp only [ite_self, set_set_getD, set_getD_self]
  · rfl

/-- The body of `kd_nearest_i` at a node on the side `pos[dir] > node->pos[dir]`,
with the intermediate states named; the null tests on the subtrees are absorbed
since a slice that is undone at once changes nothing. -/
theorem kd_nearest_i_mk_gt (npos : List α) (dir : Nat) (ndata : δ) (left right : kdnode α δ)
    (pos : List α) (res : kdnode α δ) (d : α) (rect : kdhyperrect α)
    (hle : ¬ (pos.getD dir 0 - npos.getD dir 0 ≤ 0))
    (r1 s1 s2 r3 : kdnode α δ × α × kdhyperrect α)
    (hr1 : r1 = kd_nearest_i right pos res d { rect with min := rect.min.set dir (npos.getD dir 0) })
    (hs1 : s1 = (r1.1, r1.2.1, { r1.2.2 with min := r1.2.2.min.set dir (rect.min.getD dir 0) }))
    (hs2 : s2 = if dist_sq npos pos s1.2.2.dim < s1.2.1 then
      (kdnode.mk npos dir ndata left right, dist_sq npos pos s1.2.2.dim, s1.2.2) else s1)
    (hr3 : r3 = if hyperrect_dist_sq
          { s2.2.2 with max := s2.2.2.max.set dir (npos.getD dir 0) } pos < s2.2.1 then
        kd_nearest_i left pos s2.1 s2.2.1 { s2.2.2 with max := s2.2.2.max.set dir (npos.getD dir 0) }
      else (s2.1, s2.2.1, { s2.2.2 with max := s2.2.2.max.set dir (npos.getD dir 0) })) :
    kd_nearest_i (kdnode.mk npos dir ndata left right) pos res d rect =
      (r3.1, r3.2.1, { r3.2.2 with max := r3.2.2.max.set dir (s2.2.2.max.getD dir 0) }) := by
  subst hr3 hs2 hs1 hr1
  conv_lhs => unfold kd_nearest_i
  simp only [hle, if_false]
  cases left <;> cases right
  · simp only [kd_nearest_i.eq_1, set_set_getD]
    split <;> simp only [ite_self, set_set_getD, set_getD_self]
  · simp only [kd_nearest_i.eq_1, set_set_getD]
    split <;> simp only [ite_self, set_set_getD, set_getD_self]
  · simp only [kd_nearest_i.eq_1, set_set_getD]
  · rfl

theorem nearest_step_trans (A B : List (kdnode α δ)) (pos : List α) (dim : Nat)
    (res res1 res2 : kdnode α δ) (d d1 d2 : α)
    (h1 : nearest_step A pos dim res d res1 d1) (h2 : nearest_step B pos dim res1 d1 res2 d2) :
    nearest_step (A ++ B) pos dim res d res2 d2 := by
  obtain ⟨a1, a2, a3⟩ := h1
  obtain ⟨b1, b2, b3⟩ := h2
  refine ⟨le_trans b1 a1, ?_, ?_⟩
  · intro n hn
    rcases List.mem_append.mp hn with h | h
    · exact le_trans b1 (a2 n h)
    · exact b2 n h
  · rcases b3 with ⟨e1, e2⟩ | ⟨e1, e2⟩
    · rcases a3 with ⟨f1, f2⟩ | ⟨f1, f2⟩
      · exact Or.inl ⟨e1.trans f1, e2.trans f2⟩
      · right
        rw [e1, e2]
        exact ⟨List.mem_append_left _ f1, f2⟩
    · exact Or.inr ⟨List.mem_append_right _ e1, e2⟩

theorem nearest_step_congr (A B : List (kdnode α δ)) (pos : List α) (dim : Nat)
    (res res1 : kdnode α δ) (d d1 : α) (hAB : ∀ n, n ∈ A → n ∈ B) (hBA : ∀ n, n ∈ B → n ∈ A)
    (h : nearest_step A pos dim res d res1 d1) : nearest_step B pos dim res d res1 d1 := by
  obtain ⟨a1, a2, a3⟩ := h
  refine ⟨a1, fun n hn => a2 n (hBA n hn), ?_⟩
  rcases a3 with h | ⟨h1, h2⟩
  · exact Or.inl h
  · exact Or.inr ⟨hAB _ h1, h2⟩

theorem nearest_step_node (node res : kdnode α δ) (pos : List α) (dim : Nat) (d : α) :
    nearest_step [node] pos dim res d
      (if dist_sq node.pos pos dim < d then node else res)
      (if dist_sq node.pos pos dim < d then dist_sq node.pos pos dim else d) := by
  by_cases h : dist_sq node.pos pos dim < d
  · simp only [h, if_true]
    exact ⟨le_of_lt h, by simp, Or.inr ⟨by simp, rfl⟩⟩
  · simp only [h, if_false]
    exact ⟨le_refl _, by simpa using h, Or.inl ⟨rfl, rfl⟩⟩

theorem nearest_step_pruned (B : List (kdnode α δ)) (res : kdnode α δ) (pos : List α) (dim : Nat)
    (d : α) (h : ∀ n ∈ B, d ≤ dist_sq n.pos pos dim) : nearest_step B pos dim res d res d :=
  ⟨le_refl _, h, Or.inl ⟨rfl, rfl⟩⟩

end

section
variable {α δ : Type} [LinearOrder α] [Zero α]

theorem in_rect_slice_max (rect : kdhyperrect α) (p : List α) (dim dir : Nat) (v : α)
    (h : in_rect rect p dim) (hv : p.getD dir 0 ≤ v) (hd : dir < rect.max.length) :
    in_rect { rect with max := rect.max.set dir v } p dim := by
  intro i hi
  refine ⟨(h i hi).1, ?_⟩
  show p.getD i 0 ≤ (rect.max.set dir v).getD i 0
  by_cases hid : dir = i
  · subst hid
    rw [getD_set_eq _ _ _ hd]
    exact hv
  · rw [getD_set_ne _ _ _ _ hid]
    exact (h i hi).2

theorem in_rect_slice_min (rect : kdhyperrect α) (p : List α) (dim dir : Nat) (v : α)
    (h : in_rect rect p dim) (hv : v ≤ p.getD dir 0) (hd : dir < rect.min.length) :
    in_rect { rect with min := rect.min.set dir v } p dim := by
  intro i hi
  refine ⟨?_, (h i hi).2⟩
  show (rect.min.set dir v).getD i 0 ≤ p.getD i 0
  by_cases hid : dir = i
  · subst hid
    rw [getD_set_eq _ _ _ hd]
    exact hv
  · rw [getD_set_ne _ _ _ _ hid]
    exact (h i hi).1

end

section
variable {α δ : Type} [LinearOrder α] [Zero α] [Add α] [Sub α] [Mul α]

theorem kd_nearest_i_step_le (npos : List α) (dir : Nat) (ndata : δ) (left right : kdnode α δ)
    (pos : List α) (dim : Nat) (res : kdnode α δ) (d : α) (rect : kdhyperrect α)
    (hle : pos.getD dir 0 - npos.getD dir 0 ≤ 0) (hdim : rect.dim = dim)
    (hnear : ∀ (res0 : kdnode α δ) (d0 : α),
      (kd_nearest_i left pos res0 d0 { rect with max := rect.max.set dir (npos.getD dir 0) }).2.2 =
        { rect with max := rect.max.set dir (npos.getD dir 0) } ∧
      nearest_step left.nodes pos dim res0 d0
        (kd_nearest_i left pos res0 d0 { rect with max := rect.max.set dir (npos.getD dir 0) }).1
        (kd_nearest_i left pos res0 d0 { rect with max := rect.max.set dir (npos.getD dir 0) }).2.1)
    (hfar : ∀ (res0 : kdnode α δ) (d0 : α),
      (kd_nearest_i right pos res0 d0 { rect with min := rect.min.set dir (npos.getD dir 0) }).2.2 =
        { rect with min := rect.min.set dir (npos.getD dir 0) } ∧
      nearest_step right.nodes pos dim res0 d0
        (kd_nearest_i right pos res0 d0 { rect with min := rect.min.set dir (npos.getD dir 0) }).1
        (kd_nearest_i right pos res0 d0 { rect with min := rect.min.set dir (npos.getD dir 0) }).2.1)
    (hprune : ∀ n ∈ right.nodes,
      hyperrect_dist_sq { rect with min := rect.min.set dir (npos.getD dir 0) } pos ≤
        dist_sq n.pos pos dim) :
    (kd_nearest_i (kdnode.mk npos dir ndata left right) pos res d rect).2.2 = rect ∧
      nearest_step (left.nodes ++ [kdnode.mk npos dir ndata left right] ++ right.nodes) pos dim
        res d (kd_nearest_i (kdnode.mk npos dir ndata left right) pos res d rect).1
        (kd_nearest_i (kdnode.mk npos dir ndata left right) pos res d rect).2.1 := by
  obtain ⟨i1, i2⟩ := hnear res d
  generalize hr1 : kd_nearest_i left pos res d
    { rect with max := rect.max.set dir (npos.getD dir 0) } = r1 at i1 i2
  obtain ⟨res1, d1, rect1⟩ := r1
  simp only at i1 i2
  have hs2 := nearest_step_node (kdnode.mk npos dir ndata left right) res1 pos dim d1
  rw [kdnode_pos_mk] at hs2
  generalize hres2 : (if dist_sq npos pos dim < d1 then kdnode.mk npos dir ndata left right
    else res1) = res2 at hs2
  generalize hd2 : (if dist_sq npos pos dim < d1 then dist_sq npos pos dim else d1) = d2 at hs2
  have hs3 : ∀ r3 : kdnode α δ × α × kdhyperrect α,
      r3 = (if hyperrect_dist_sq { rect with min := rect.min.set dir (npos.getD dir 0) } pos < d2
        then kd_nearest_i right pos res2 d2 { rect with min := rect.min.set dir (npos.getD dir 0) }
        else (res2, d2, { rect with min := rect.min.set dir (npos.getD dir 0) })) →
      r3.2.2 = { rect with min := rect.min.set dir (npos.getD dir 0) } ∧
        nearest_step right.nodes pos dim res2 d2 r3.1 r3.2.1 := by
    intro r3 h3
    subst h3
    split
    · exact hfar res2 d2
    · rename_i hp
      exact ⟨rfl, nearest_step_pruned _ _ _ _ _
        (fun n hn => le_trans (not_lt.mp hp) (hprune n hn))⟩
  generalize hr3 : (if hyperrect_dist_sq { rect with min := rect.min.set dir (npos.getD dir 0) }
      pos < d2
    then kd_nearest_i right pos res2 d2 { rect with min := rect.min.set dir (npos.getD dir 0) }
    else (res2, d2, { rect with min := rect.min.set dir (npos.getD dir 0) })) = r3 at hs3
  obtain ⟨k1, k2⟩ := hs3 r3 rfl
  have key := kd_nearest_i_mk_le npos dir ndata left right pos res d rect hle
    (res1, d1, rect1) (res1, d1, rect) (res2, d2, rect) r3 hr1.symm
    (by
      simp only [i1, set_set_getD])
    (by
      subst hres2 hd2
      simp only [hdim]
      split <;> rfl)
    hr3.symm
  rw [key]
  obtain ⟨res3, d3, rect3⟩ := r3
  simp only at k1 k2 ⊢
  subst k1
  exact ⟨by simp only [set_set_getD],
    nearest_step_trans _ _ pos dim _ _ _ _ _ _
      (nearest_step_trans _ _ pos dim _ _ _ _ _ _ i2 hs2) k2⟩

theorem kd_nearest_i_step_gt (npos : List α) (dir : Nat) (ndata : δ) (left right : kdnode α δ)
    (pos : List α) (dim : Nat) (res : kdnode α δ) (d : α) (rect : kdhyperrect α)
    (hle : ¬ (pos.getD dir 0 - npos.getD dir 0 ≤ 0)) (hdim : rect.dim = dim)
    (hnear : ∀ (res0 : kdnode α δ) (d0 : α),
      (kd_nearest_i right pos res0 d0 { rect with min := rect.min.set dir (npos.getD dir 0) }).2.2 =
        { rect with min := rect.min.set dir (npos.getD dir 0) } ∧
      nearest_step right.nodes pos dim res0 d0
        (kd_nearest_i right pos res0 d0 { rect with min := rect.min.set dir (npos.getD dir 0) }).1
        (kd_nearest_i right pos res0 d0 { rect with min := rect.min.set dir (npos.getD dir 0) }).2.1)
    (hfar : ∀ (res0 : kdnode α δ) (d0 : α),
      (kd_nearest_i left pos res0 d0 { rect with max := rect.max.set dir (npos.getD dir 0) }).2.2 =
        { rect with max := rect.max.set dir (npos.getD dir 0) } ∧
      nearest_step left.nodes pos dim res0 d0
        (kd_nearest_i left pos res0 d0 { rect with max := rect.max.set dir (npos.getD dir 0) }).1
        (kd_nearest_i left pos res0 d0 { rect with max := rect.max.set dir (npos.getD dir 0) }).2.1)
    (hprune : ∀ n ∈ left.nodes,
      hyperrect_dist_sq { rect with max := rect.max.set dir (npos.getD dir 0) } pos ≤
        dist_sq n.pos pos dim) :
    (kd_nearest_i (kdnode.mk npos dir ndata left right) pos res d rect).2.2 = rect ∧
      nearest_step (right.nodes ++ [kdnode.mk npos dir ndata left right] ++ left.nodes) pos dim
        res d (kd_nearest_i (kdnode.mk npos dir ndata left right) pos res d rect).1
        (kd_nearest_i (kdnode.mk npos dir ndata left right) pos res d rect).2.1 := by
  obtain ⟨i1, i2⟩ := hnear res d
  generalize hr1 : kd_nearest_i right pos res d
    { rect with min := rect.min.set dir (npos.getD dir 0) } = r1 at i1 i2
  obtain ⟨res1, d1, rect1⟩ := r1
  simp only at i1 i2
  have hs2 := nearest_step_node (kdnode.mk npos dir ndata left right) res1 pos dim d1
  rw [kdnode_pos_mk] at hs2
  generalize hres2 : (if dist_sq npos pos dim < d1 then kdnode.mk npos dir ndata left right
    else res1) = res2 at hs2
  generalize hd2 : (if dist_sq npos pos dim < d1 then dist_sq npos pos dim else d1) = d2 at hs2
  have hs3 : ∀ r3 : kdnode α δ × α × kdhyperrect α,
      r3 = (if hyperrect_dist_sq { rect with max := rect.max.set dir (npos.getD dir 0) } pos < d2
        then kd_nearest_i left pos res2 d2 { rect with max := rect.max.set dir (npos.getD dir 0) }
        else (res2, d2, { rect with max := rect.max.set dir (npos.getD dir 0) })) →
      r3.2.2 = { rect with max := rect.max.set dir (npos.getD dir 0) } ∧
        nearest_step left.nodes pos dim res2 d2 r3.1 r3.2.1 := by
    intro r3 h3
    subst h3
    split
    · exact hfar res2 d2
    · rename_i hp
      exact ⟨rfl, nearest_step_pruned _ _ _ _ _
        (fun n hn => le_trans (not_lt.mp hp) (hprune n hn))⟩
  generalize hr3 : (if hyperrect_dist_sq { rect with max := rect.max.set dir (npos.getD dir 0) }
      pos < d2
    then kd_nearest_i left pos res2 d2 { rect with max := rect.max.set dir (npos.getD dir 0) }
    else (res2, d2, { rect with max := rect.max.set dir (npos.getD dir 0) })) = r3 at hs3
  obtain ⟨k1, k2⟩ := hs3 r3 rfl
  have key := kd_nearest_i_mk_gt npos dir ndata left right pos res d rect hle
    (res1, d1, rect1) (res1, d1, rect) (res2, d2, rect) r3 hr1.symm
    (by
      simp only [i1, set_set_getD])
    (by
      subst hres2 hd2
      simp only [hdim]
      split <;> rfl)
    hr3.symm
  rw [key]
  obtain ⟨res3, d3, rect3⟩ := r3
  simp only at k1 k2 ⊢
  subst k1
  exact ⟨by simp only [set_set_getD],
    nearest_step_trans _ _ pos dim _ _ _ _ _ _
      (nearest_step_trans _ _ pos dim _ _ _ _ _ _ i2 hs2) k2⟩

end

section
variable {α δ : Type} [LinearOrder α] [Zero α]

theorem nodes_in_rect (node n : kdnode α δ) (rect : kdhyperrect α) (dim : Nat)
    (h : ∀ e ∈ node.entries, in_rect rect e.1 dim) (hn : n ∈ node.nodes) :
    in_rect rect n.pos dim := by
  obtain ⟨x, _, hx⟩ := nodes_entries node n hn
  exact h _ hx

end

section
variable {α δ : Type} [LinearOrder α] [Zero α] [One α] [Neg α] [Add α] [Sub α] [Mul α]
  [DoubleLaws α]

theorem prune_bound (sub : kdnode α δ) (rect : kdhyperrect α) (pos : List α) (dim : Nat)
    (hdim : rect.dim = dim) (hin : ∀ e ∈ sub.entries, in_rect rect e.1 dim) :
    ∀ n ∈ sub.nodes, hyperrect_dist_sq rect pos ≤ dist_sq n.pos pos dim := by
  intro n hn
  have h1 := nodes_in_rect sub n rect dim hin hn
  rw [← hdim] at h1 ⊢
  exact hyperrect_dist_sq_le rect pos n.pos h1

theorem kd_nearest_i_spec (node : kdnode α δ) (pos : List α) (dim : Nat) (res : kdnode α δ)
    (d : α) (rect : kdhyperrect α) (hdirs : dirs_in_range dim node) (hord : split_ordered node)
    (hdim : rect.dim = dim) (hmin : rect.min.length = dim) (hmax : rect.max.length = dim)
    (hin : ∀ e ∈ node.entries, in_rect rect e.1 dim) :
    (kd_nearest_i node pos res d rect).2.2 = rect ∧
      nearest_step node.nodes pos dim res d (kd_nearest_i node pos res d rect).1
        (kd_nearest_i node pos res d rect).2.1 := by
  induction node generalizing res d rect with
  | null => exact ⟨rfl, le_refl _, by simp [kdnode.nodes], Or.inl ⟨rfl, rfl⟩⟩
  | mk npos dir ndata left right ihl ihr =>
    obtain ⟨hd0, hdl, hdr⟩ := hdirs
    obtain ⟨hol, hor, hol2, hor2⟩ := hord
    have hinl : ∀ e ∈ left.entries,
        in_rect { rect with max := rect.max.set dir (npos.getD dir 0) } e.1 dim := fun e he =>
      in_rect_slice_max rect e.1 dim dir _ (hin e (by simp [kdnode.entries, he]))
        (le_of_lt (hol e he)) (by omega)
    have hinr : ∀ e ∈ right.entries,
        in_rect { rect with min := rect.min.set dir (npos.getD dir 0) } e.1 dim := fun e he =>
      in_rect_slice_min rect e.1 dim dir _ (hin e (by simp [kdnode.entries, he]))
        (hor e he) (by omega)
    have hL := fun (res0 : kdnode α δ) (d0 : α) =>
      ihl res0 d0 { rect with max := rect.max.set dir (npos.getD dir 0) } hdl hol2 hdim hmin
        (by simpa using hmax) hinl
    have hR := fun (res0 : kdnode α δ) (d0 : α) =>
      ihr res0 d0 { rect with min := rect.min.set dir (npos.getD dir 0) } hdr hor2 hdim
        (by simpa using hmin) hmax hinr
    by_cases hle : pos.getD dir 0 - npos.getD dir 0 ≤ 0
    · obtain ⟨h1, h2⟩ := kd_nearest_i_step_le npos dir ndata left right pos dim res d rect hle hdim
        hL hR (prune_bound right _ pos dim hdim hinr)
      refine ⟨h1, nearest_step_congr _ _ pos dim _ _ _ _ ?_ ?_ h2⟩
      · intro n hn
        simp only [List.mem_append, List.mem_singleton, kdnode.nodes, List.mem_cons] at hn ⊢
        tauto
      · intro n hn
        simp only [List.mem_append, List.mem_singleton, kdnode.nodes, List.mem_cons] at hn ⊢
        tauto
    · obtain ⟨h1, h2⟩ := kd_nearest_i_step_gt npos dir ndata left right pos dim res d rect hle hdim
        hR hL (prune_bound left _ pos dim hdim hinl)
      refine ⟨h1, nearest_step_congr _ _ pos dim _ _ _ _ ?_ ?_ h2⟩
      · intro n hn
        simp only [List.mem_append, List.mem_singleton, kdnode.nodes, List.mem_cons] at hn ⊢
        tauto
      · intro n hn
        simp only [List.mem_append, List.mem_singleton, kdnode.nodes, List.mem_cons] at hn ⊢
        tauto

end

theorem nodes_ne_null {α δ : Type} (node n : kdnode α δ) (h : n ∈ node.nodes) : n ≠ kdnode.null := by
  obtain ⟨x, hx, _⟩ := nodes_entries node n h
  intro hc
  rw [hc] at hx
  simp [kdnode.data] at hx

theorem root_mem_nodes {α δ : Type} (node : kdnode α δ) (h : node ≠ kdnode.null) : node ∈ node.nodes := by
  cases node with
  | null => exact absurd rfl h
  | mk _ _ _ _ _ => simp [kdnode.nodes]

section
variable {α δ : Type} [LinearOrder α] [Zero α] [One α] [Neg α] [Add α] [Sub α] [Mul α]
  [DoubleLaws α]

theorem kd_nearest_of_inv (t : kdtree α δ) (rect : kdhyperrect α) (pos : List α)
    (hinv : tree_inv t) (hrect : t.rect = some rect) :
    ∃ n, kd_nearest [] (some t) pos =
        (some { tree := t, rlist := [{ item := n, dist_sq := -1 }],
                riter := [{ item := n, dist_sq := -1 }], size := 1 }, []) ∧
      n ∈ t.root.nodes ∧ ∀ m ∈ t.root.nodes, dist_sq n.pos pos t.dim ≤ dist_sq m.pos pos t.dim := by
  obtain ⟨h0, hd, ho, hr⟩ := hinv
  rw [hrect] at hr
  obtain ⟨hne, r1, r2, r3, r4⟩ := hr
  have hin : ∀ e ∈ t.root.entries, in_rect rect e.1 t.dim := by
    intro e he i hi
    exact (r4 i hi).1 e.1 (List.mem_map.mpr ⟨e, he, rfl⟩)
  obtain ⟨s1, s2, s3, s4⟩ := kd_nearest_i_spec t.root pos t.dim t.root
    (dist_sq t.root.pos pos t.dim) rect hd ho r1 r2 r3 hin
  have hdup : hyperrect_duplicate [] rect = (some rect, []) := by
    simp only [hyperrect_duplicate, hyperrect_create, malloc]
    have e1 : rect.min.take rect.dim = rect.min := List.take_of_length_le (by omega)
    have e2 : rect.max.take rect.dim = rect.max := List.take_of_length_le (by omega)
    rw [e1, e2]
  have hroot := root_mem_nodes t.root hne
  have hres : (kd_nearest_i t.root pos t.root (dist_sq t.root.pos pos t.dim) rect).1 ∈ t.root.nodes ∧
      (kd_nearest_i t.root pos t.root (dist_sq t.root.pos pos t.dim) rect).2.1 =
        dist_sq (kd_nearest_i t.root pos t.root (dist_sq t.root.pos pos t.dim) rect).1.pos pos
          t.dim := by
    rcases s4 with ⟨e1, e2⟩ | h
    · rw [e1, e2]
      exact ⟨hroot, rfl⟩
    · exact h
  generalize hout : kd_nearest_i t.root pos t.root (dist_sq t.root.pos pos t.dim) rect = out
    at s3 hres
  obtain ⟨n, d1, rect1⟩ := out
  simp only at s3 hres
  refine ⟨n, ?_, hres.1, ?_⟩
  · have hnn := nodes_ne_null _ _ hres.1
    simp only [kd_nearest, hrect, malloc, hdup, hout]
    cases n with
    | null => exact absurd rfl hnn
    | mk _ _ _ _ _ =>
      simp only [rlist_insert_nil_unordered, kd_res_rewind]
      simp
  · intro m hm
    rw [← hres.2]
    exact s3 m hm

/-- The nearest-neighbour query when no allocation fails: in a tree of
dimension `k ≥ 1` built from a freshly created tree by a non-empty sequence of
`kd_insert` calls whose allocations all succeed, `kd_nearest(tree, pos)` (its
own allocations succeeding) returns a result set of size exactly 1, rewound to
its single item, and that item is a stored node `n` with
`dist_sq(n.pos, pos) ≤ dist_sq(m.pos, pos)` for every stored node `m`. -/
theorem nearest_query_correct (k : Nat) (t0 : kdtree α δ) (ins : List (List α × δ))
    (pos : List α) (hk : 0 < k) (hcreate : (kd_create [] k).1 = some t0) (hne : ins ≠ [])
    (hlen : ∀ e ∈ ins, k ≤ e.1.length) :
    ∃ n, kd_nearest [] (some (kd_insert_all t0 ins)) pos =
        (some { tree := kd_insert_all t0 ins, rlist := [{ item := n, dist_sq := -1 }],
                riter := [{ item := n, dist_sq := -1 }], size := 1 }, []) ∧
      n ∈ (kd_insert_all t0 ins).root.nodes ∧
      ∀ m ∈ (kd_insert_all t0 ins).root.nodes, dist_sq n.pos pos k ≤ dist_sq m.pos pos k := by
  obtain ⟨h1, h2, h3⟩ := kd_create_spec [] k t0 hcreate
  have hinv := kd_insert_all_inv t0 ins (empty_tree_inv t0 (by omega) h2 h3)
    (by rw [h1]; exact hlen)
  have hsome := kd_insert_all_rect t0 ins hne
  cases hrect : (kd_insert_all t0 ins).rect with
  | none => exact absurd hrect hsome
  | some rect =>
    have := kd_nearest_of_inv (kd_insert_all t0 ins) rect pos hinv hrect
    rwa [kd_insert_all_dim, h1] at this

end

/-- The nearest neighbour of `(0,3,3)` in the sample tree, all of whose
insertions succeeded, is the point `(0,3,4)`. -/
theorem nearest_query_correct_witness :
    0 < 3 ∧ (kd_create [] 3).1 = some (⟨3, kdnode.null, none, none⟩ : kdtree ℤ Nat) ∧
    ([([0, 0, 0], 10), ([0, 3, 4], 11)] : List (List ℤ × Nat)) ≠ [] ∧
    (∀ e ∈ ([([0, 0, 0], 10), ([0, 3, 4], 11)] : List (List ℤ × Nat)), 3 ≤ e.1.length) ∧
    (kd_nearest [] (some sample_tree) [0, 3, 3]).1.map (fun rset => rset.rlist.map
      (fun r => r.item.data)) = some [some 11] ∧
    ∃ n, n ∈ sample_tree.root.nodes ∧
      ∀ m ∈ sample_tree.root.nodes, dist_sq n.pos [0, 3, 3] 3 ≤ dist_sq m.pos [0, 3, 3] 3 :=
  ⟨by decide, rfl, by decide, by decide, by decide,
    let ⟨n, _, h2, h3⟩ := nearest_query_correct 3 (⟨3, kdnode.null, none, none⟩ : kdtree ℤ Nat)
      [([0, 0, 0], 10), ([0, 3, 4], 11)] [0, 3, 3] (by decide) rfl (by decide) (by decide)
    ⟨n, h2, h3⟩⟩

/-- C3 fails on the code when an allocation inside `kd_insert` fails: insert
`(0,10,0)` and `(0,0,0)` with the allocation inside `hyperrect_create` failing
both times, then `(-20,0,0)` with every allocation succeeding. All three calls
return `0`, the tree stores the three points, and its hyper-rectangle covers
`(-20,0,0)` only. `kd_nearest` at `(0,0,0)` then returns the point `(0,10,0)`
at squared distance 100, although `(0,0,0)` is stored at squared distance 0:
the subtree holding it is pruned by the distance to the wrong box. -/
theorem kd_nearest_misses_nearest_after_failed_rect :
    ∃ t0 t1 t2 : kdtree ℤ Nat, ∃ rset : kdres ℤ Nat,
      (kd_create [] 3).1 = some t0 ∧
      kd_insert [true, true, false] t0 [0, 10, 0] 1 = (0, t1, []) ∧
      kd_insert [true, true, false] t1 [0, 0, 0] 2 = (0, t2, []) ∧
      kd_insert [] t2 [-20, 0, 0] 3 = (0, unboxed_tree, []) ∧
      ([0, 0, 0], 2) ∈ unboxed_tree.root.entries ∧
      (kd_nearest [] (some unboxed_tree) [0, 0, 0]).1 = some rset ∧
      kd_res_size rset = 1 ∧
      rset.rlist.map (fun r => (r.item.pos, r.item.data)) = [([0, 10, 0], some 1)] ∧
      dist_sq ([0, 0, 0] : List ℤ) [0, 0, 0] 3 < dist_sq ([0, 10, 0] : List ℤ) [0, 0, 0] 3 :=
  ⟨⟨3, kdnode.null, none, none⟩,
    ⟨3, kdnode.mk [0, 10, 0] 0 1 kdnode.null kdnode.null, none, none⟩,
    ⟨3, kdnode.mk [0, 10, 0] 0 1 kdnode.null (kdnode.mk [0, 0, 0] 1 2 kdnode.null kdnode.null),
      none, none⟩,
    ⟨unboxed_tree, [⟨unboxed_tree.root, -1⟩], [⟨unboxed_tree.root, -1⟩], 1⟩,
    rfl, by decide, by decide, by decide, by decide, by decide, by decide, by decide, by decide⟩

/-! ## The planner class -/

/-- C8: `getConvergenceInfo(traj_list, solution_cost_list, solution_time_list)`
sets its first argument to `traj_list_`, its second to `solution_cost_list_`
and its third to `solution_time_list_`, whatever the arguments held before,
and leaves the planner unchanged. -/
theorem getConvergenceInfo_returns_series {E : ExternalTypes} {R : Type} (self : BIKRRT E R)
    (traj_list : List E.Trajectory) (solution_cost_list solution_time_list : List R) :
    (self.getConvergenceInfo traj_list solution_cost_list solution_time_list).1 = self ∧
    (self.getConvergenceInfo traj_list solution_cost_list solution_time_list).2.1 =
      self.traj_list_ ∧
    (self.getConvergenceInfo traj_list solution_cost_list solution_time_list).2.2.1 =
      self.solution_cost_list_ ∧
    (self.getConvergenceInfo traj_list solution_cost_list solution_time_list).2.2.2 =
      self.solution_time_list_ :=
  ⟨rfl, rfl, rfl, rfl⟩

section
variable {E : ExternalTypes} {R : Type} [LinearOrder R]

theorem regionalCandidate_lt_iff (a b : regionalCandidate E R) :
    a.lt b = true ↔ a.heu > b.heu := by
  simp [regionalCandidate.lt]

theorem pq_extract_none {C : Type} (lt : C → C → Bool) (q : List C)
    (h : pq_extract lt q = none) : q = [] := by
  cases q with
  | nil => rfl
  | cons x xs =>
    simp only [pq_extract] at h
    split at h
    · simp at h
    · split at h <;> simp at h

theorem pq_extract_spec (q : List (regionalCandidate E R)) (t : regionalCandidate E R)
    (rest : List (regionalCandidate E R))
    (h : pq_extract regionalCandidate.lt q = some (t, rest)) :
    List.Perm q (t :: rest) ∧ ∀ y ∈ q, t.heu ≤ y.heu := by
  induction q generalizing t rest with
  | nil => simp [pq_extract] at h
  | cons x xs ih =>
    simp only [pq_extract] at h
    split at h
    · rename_i hnone
      have hxs := pq_extract_none _ _ hnone
      simp only [Option.some.injEq, Prod.mk.injEq] at h
      obtain ⟨h1, h2⟩ := h
      subst h1 h2 hxs
      exact ⟨List.Perm.refl _, by simp⟩
    · rename_i y rest1 hsome
      obtain ⟨p1, p2⟩ := ih y rest1 hsome
      split at h
      · rename_i hlt
        simp only [Option.some.injEq, Prod.mk.injEq] at h
        obtain ⟨h1, h2⟩ := h
        subst h1 h2
        have hxy : y.heu < x.heu := (regionalCandidate_lt_iff x y).mp hlt
        refine ⟨(List.Perm.cons x p1).trans (List.Perm.swap _ _ _), ?_⟩
        intro z hz
        rcases List.mem_cons.mp hz with hz | hz
        · rw [hz]
          exact le_of_lt hxy
        · exact p2 z hz
      · rename_i hlt
        simp only [Option.some.injEq, Prod.mk.injEq] at h
        obtain ⟨h1, h2⟩ := h
        subst h1 h2
        have hxy : x.heu ≤ y.heu := by
          have := (regionalCandidate_lt_iff x y).not.mp hlt
          exact not_lt.mp this
        refine ⟨List.Perm.cons x p1, ?_⟩
        intro z hz
        rcases List.mem_cons.mp hz with hz | hz
        · rw [hz]
        · exact le_trans hxy (p2 z hz)

theorem pq_serve_spec (n : Nat) (q : List (regionalCandidate E R)) (h : q.length ≤ n) :
    List.Perm (pq_serve regionalCandidate.lt n q) q ∧
      List.Pairwise (fun x y => x.heu ≤ y.heu) (pq_serve regionalCandidate.lt n q) := by
  induction n generalizing q with
  | zero =>
    have : q = [] := List.length_eq_zero.mp (by omega)
    subst this
    simp [pq_serve]
  | succ n ih =>
    simp only [pq_serve]
    split
    · rename_i hnone
      rw [pq_extract_none _ _ hnone]
      simp
    · rename_i t rest hsome
      obtain ⟨p1, p2⟩ := pq_extract_spec q t rest hsome
      have hlen : rest.length ≤ n := by
        have := p1.length_eq
        simp only [List.length_cons] at this
        omega
      obtain ⟨i1, i2⟩ := ih rest hlen
      refine ⟨(List.Perm.cons t i1).trans p1.symm, ?_⟩
      rw [List.pairwise_cons]
      refine ⟨?_, i2⟩
      intro y hy
      exact p2 y (p1.symm.subset (List.mem_cons_of_mem _ (i1.subset hy)))

/-- C7: `regionalCandidate::operator<` is `a < b` iff `a.heu > b.heu`; hence
in a non-empty collection an element that is greatest under `operator<` (no
element is above it) has the minimum `heu`, the top of a max-priority queue
ordered by `operator<` is such an element, and removing the top repeatedly
serves all the candidates in non-decreasing order of `heu`. -/
theorem regional_candidates_smallest_heu_first :
    (∀ a b : regionalCandidate E R, a.lt b = true ↔ a.heu > b.heu) ∧
    (∀ (q : List (regionalCandidate E R)) (t : regionalCandidate E R),
      t ∈ q → (∀ y ∈ q, t.lt y = false) → ∀ y ∈ q, t.heu ≤ y.heu) ∧
    (∀ q : List (regionalCandidate E R), q ≠ [] →
      ∃ t rest, pq_extract regionalCandidate.lt q = some (t, rest) ∧ List.Perm q (t :: rest) ∧
        (∀ y ∈ q, t.lt y = false) ∧ ∀ y ∈ q, t.heu ≤ y.heu) ∧
    (∀ q : List (regionalCandidate E R),
      List.Perm (pq_drain regionalCandidate.lt q) q ∧
        List.Pairwise (fun x y => x.heu ≤ y.heu) (pq_drain regionalCandidate.lt q)) := by
  refine ⟨regionalCandidate_lt_iff, ?_, ?_, ?_⟩
  · intro q t _ hmax y hy
    have := hmax y hy
    have h2 : ¬ (t.heu > y.heu) := by
      intro hc
      rw [(regionalCandidate_lt_iff t y).mpr hc] at this
      exact Bool.noConfusion this
    exact not_lt.mp h2
  · intro q hq
    cases hx : pq_extract regionalCandidate.lt q with
    | none => exact absurd (pq_extract_none _ _ hx) hq
    | some p =>
      obtain ⟨t, rest⟩ := p
      obtain ⟨p1, p2⟩ := pq_extract_spec q t rest hx
      refine ⟨t, rest, rfl, p1, ?_, p2⟩
      intro y hy
      have := p2 y hy
      cases hlt : t.lt y with
      | false => rfl
      | true =>
        have := (regionalCandidate_lt_iff t y).mp hlt
        exact absurd this (not_lt.mpr (p2 y hy))
  · intro q
    exact pq_serve_spec q.length q (le_refl _)

end

/-- A concrete instance of C7: candidates with heuristics 3, 1, 2 are served
in the order 1, 2, 3. -/
theorem regional_candidates_smallest_heu_first_witness :
    [sample_candidate 3, sample_candidate 1, sample_candidate 2] ≠ [] ∧
    (pq_drain regionalCandidate.lt
      [sample_candidate 3, sample_candidate 1, sample_candidate 2]).map (fun c => c.heu) =
        [1, 2, 3] ∧
    ∃ t rest, pq_extract regionalCandidate.lt
        [sample_candidate 3, sample_candidate 1, sample_candidate 2] = some (t, rest) ∧
      ∀ y ∈ [sample_candidate 3, sample_candidate 1, sample_candidate 2], t.heu ≤ y.heu :=
  ⟨List.cons_ne_nil _ _, by decide,
    let ⟨t, rest, h1, _, _, h4⟩ := (@regional_candidates_smallest_heu_first unit_types ℤ _).2.2.1
      [sample_candidate 3, sample_candidate 1, sample_candidate 2] (List.cons_ne_nil _ _)
    ⟨t, rest, h1, h4⟩⟩

/-! ## Range search under arbitrary allocation outcomes -/

section
variable {α δ : Type} [LinearOrder α] [Zero α] [One α] [Neg α] [Add α] [Sub α] [Mul α]
  [DoubleLaws α]

theorem rlist_insert_unordered_cases (a : List Bool) (list : List (res_node α δ))
    (item : kdnode α δ) :
    (rlist_insert a list item (-1)).1 = -1 ∨
      ((rlist_insert a list item (-1)).1 = 0 ∧
        (rlist_insert a list item (-1)).2.1 = { item := item, dist_sq := -1 } :: list) := by
  have h : ¬ ((-1 : α) ≥ 0) := by
    simp only [ge_iff_le, not_le]
    exact DoubleLaws.neg_one_lt_zero
  unfold rlist_insert
  split
  · exact Or.inl rfl
  · simp [h]

/-- The value of `find_nearest` (unordered) whenever it does not report an
allocation failure: the count and the list are those of `range_visit`. -/
theorem find_nearest_ok (a : List Bool) (node : kdnode α δ) (pos : List α) (range : α)
    (list : List (res_node α δ)) (dim : Nat)
    (h : (find_nearest a node pos range list false dim).1 ≠ -1) :
    (find_nearest a node pos range list false dim).1 =
        ((range_visit node pos range dim).length : Int) ∧
      (find_nearest a node pos range list false dim).2.1 =
        (range_visit node pos range dim).reverse.map (fun n => { item := n, dist_sq := -1 }) ++
          list := by
  induction node generalizing a list with
  | null => simp [find_nearest, range_visit]
  | mk npos ndir ndata left right ihl ihr =>
    rw [find_nearest_mk a npos ndir ndata left right pos range list false dim _ _ _ rfl rfl rfl]
      at h ⊢
    have hnear : ∀ (a1 : List Bool) (l1 : List (res_node α δ)),
        (find_nearest a1 (if pos.getD ndir 0 - npos.getD ndir 0 ≤ 0 then left else right) pos
          range l1 false dim).1 ≠ -1 →
        (find_nearest a1 (if pos.getD ndir 0 - npos.getD ndir 0 ≤ 0 then left else right) pos
          range l1 false dim).1 =
          ((if pos.getD ndir 0 - npos.getD ndir 0 ≤ 0 then range_visit left pos range dim
            else range_visit right pos range dim).length : Int) ∧
        (find_nearest a1 (if pos.getD ndir 0 - npos.getD ndir 0 ≤ 0 then left else right) pos
          range l1 false dim).2.1 =
          (if pos.getD ndir 0 - npos.getD ndir 0 ≤ 0 then range_visit left pos range dim
            else range_visit right pos range dim).reverse.map
              (fun n => { item := n, dist_sq := -1 }) ++ l1 := by
      intro a1 l1
      split
      · exact ihl a1 l1
      · exact ihr a1 l1
    have hfar : ∀ (a1 : List Bool) (l1 : List (res_node α δ)),
        (find_nearest a1 (if pos.getD ndir 0 - npos.getD ndir 0 ≤ 0 then right else left) pos
          range l1 false dim).1 ≠ -1 →
        (find_nearest a1 (if pos.getD ndir 0 - npos.getD ndir 0 ≤ 0 then right else left) pos
          range l1 false dim).1 =
          ((if pos.getD ndir 0 - npos.getD ndir 0 ≤ 0 then range_visit right pos range dim
            else range_visit left pos range dim).length : Int) ∧
        (find_nearest a1 (if pos.getD ndir 0 - npos.getD ndir 0 ≤ 0 then right else left) pos
          range l1 false dim).2.1 =
          (if pos.getD ndir 0 - npos.getD ndir 0 ≤ 0 then range_visit right pos range dim
            else range_visit left pos range dim).reverse.map
              (fun n => { item := n, dist_sq := -1 }) ++ l1 := by
      intro a1 l1
      split
      · exact ihr a1 l1
      · exact ihl a1 l1
    simp only [range_visit]
    generalize (if pos.getD ndir 0 - npos.getD ndir 0 ≤ 0 then range_visit left pos range dim
            else range_visit right pos range dim) = vnear at hnear
    generalize (if pos.getD ndir 0 - npos.getD ndir 0 ≤ 0 then range_visit right pos range dim
            else range_visit left pos range dim) = vfar at hfar
    have hins : (if dist_sq npos pos dim ≤ SQ range then
          rlist_insert a list (kdnode.mk npos ndir ndata left right)
            (if false = true then dist_sq npos pos dim else -1)
        else (0, list, a)).1 = -1 ∨
        ((if dist_sq npos pos dim ≤ SQ range then
          rlist_insert a list (kdnode.mk npos ndir ndata left right)
            (if false = true then dist_sq npos pos dim else -1)
        else (0, list, a)).2.1 =
          (if dist_sq npos pos dim ≤ SQ range then [kdnode.mk npos ndir ndata left right]
            else []).reverse.map (fun n => { item := n, dist_sq := -1 }) ++ list) := by
      simp only [Bool.false_eq_true, if_false]
      split
      · rcases rlist_insert_unordered_cases a list (kdnode.mk npos ndir ndata left right) with
          h1 | h1
        · exact Or.inl h1
        · right
          rw [h1.2]
          rfl
      · exact Or.inr rfl
    generalize (if dist_sq npos pos dim ≤ SQ range then
          rlist_insert a list (kdnode.mk npos ndir ndata left right)
            (if false = true then dist_sq npos pos dim else -1)
        else (0, list, a)) = ins at h hins ⊢
    have hfirst := hnear ins.2.2 ins.2.1
    generalize find_nearest ins.2.2
      (if pos.getD ndir 0 - npos.getD ndir 0 ≤ 0 then left else right) pos range ins.2.1
      false dim = first at h hfirst ⊢
    have hsecond := hfar first.2.2 first.2.1
    generalize find_nearest first.2.2
      (if pos.getD ndir 0 - npos.getD ndir 0 ≤ 0 then right else left) pos range first.2.1
      false dim = second at h hsecond ⊢
    generalize hv0 : (if dist_sq npos pos dim ≤ SQ range then [kdnode.mk npos ndir ndata left right]
            else []) = v0 at hins
    have hadd : (if dist_sq npos pos dim ≤ SQ range then (1 : Int) else 0) = (v0.length : Int) := by
      rw [← hv0]
      split <;> rfl
    rw [hadd] at h ⊢
    by_cases c1 : ins.1 = -1
    · rw [if_pos c1] at h
      exact absurd rfl h
    · rw [if_neg c1] at h ⊢
      rcases hins with hi | hi
      · exact absurd hi c1
      · by_cases c2 : first.1 ≥ 0 ∧ fabs (pos.getD ndir 0 - npos.getD ndir 0) < range
        · rw [if_pos c2] at h ⊢
          have hf := hfirst (by omega)
          by_cases c3 : second.1 = -1
          · rw [if_pos c3] at h
            exact absurd rfl h
          · rw [if_neg c3]
            have hs := hsecond c3
            simp only [c2.2, if_true]
            refine ⟨?_, ?_⟩
            · rw [hf.1, hs.1]
              simp only [List.length_append]
              push_cast
              ring
            · rw [hs.2, hf.2, hi]
              simp only [List.reverse_append, List.map_append, List.append_assoc]
        · rw [if_neg c2] at h ⊢
          by_cases c3 : first.1 = -1
          · rw [if_pos c3] at h
            exact absurd rfl h
          · rw [if_neg c3]
            have hf := hfirst c3
            have hnot : ¬ (fabs (pos.getD ndir 0 - npos.getD ndir 0) < range) := by
              intro hc
              apply c2
              refine ⟨?_, hc⟩
              rw [hf.1]
              exact Int.natCast_nonneg _
            simp only [hnot, if_false, List.append_nil]
            refine ⟨?_, ?_⟩
            · rw [hf.1]
              simp only [List.length_append]
              push_cast
              ring
            · rw [hf.2, hi]
              simp only [List.reverse_append, List.map_append, List.append_assoc]

theorem kd_nearest_range_ok (a : List Bool) (tree : kdtree α δ) (pos : List α) (range : α)
    (rset : kdres α δ) (h : (kd_nearest_range a tree pos range).1 = some rset) :
    rset = { tree := tree,
             rlist := (range_visit tree.root pos range tree.dim).reverse.map
               (fun n => { item := n, dist_sq := -1 }),
             riter := (range_visit tree.root pos range tree.dim).reverse.map
               (fun n => { item := n, dist_sq := -1 }),
             size := ((range_visit tree.root pos range tree.dim).length : Int) } := by
  unfold kd_nearest_range at h
  split at h
  · simp at h
  · split at h
    · simp at h
    · rename_i a2 _
      split at h
      rename_i ret list a3 hf
      split at h
      · simp at h
      · rename_i hret
        simp only [Option.some.injEq] at h
        subst h
        have hne : (find_nearest a2 tree.root pos range [] false tree.dim).1 ≠ -1 := by
          rw [hf]
          exact hret
        obtain ⟨h1, h2⟩ := find_nearest_ok a2 tree.root pos range [] tree.dim hne
        rw [hf] at h1 h2
        simp only at h1 h2
        simp only [kd_res_rewind, h1, h2, List.append_nil]

end

section
variable {α δ : Type} [LinearOrder α] [Zero α] [One α] [Neg α] [Add α] [Sub α] [Mul α]
  [DoubleLaws α]

theorem plane_within_range (a b D r : α) (hb : 0 ≤ b) (hab : b ≤ a) (hD : a * a ≤ D)
    (hr : D < r * r) (hr0 : 0 ≤ r) : b < r := by
  by_contra hc
  have h1 : r ≤ b := not_lt.mp hc
  have h2 := DoubleLaws.mul_self_le r b hr0 h1
  have h3 := DoubleLaws.mul_self_le b a hb hab
  exact absurd (lt_of_le_of_lt (le_trans h2 (le_trans h3 hD)) hr) (lt_irrefl _)

end

section
variable {α δ : Type} [LinearOrder α] [Zero α] [One α] [Neg α] [Add α] [Sub α] [Mul α]

end

section
variable {α δ : Type} [LinearOrder α] [Zero α] [One α] [Neg α] [Add α] [Sub α] [Mul α]
  [DoubleLaws α]

end

section
variable {α δ : Type} [LinearOrder α] [Zero α]

end

section
variable {α δ : Type} [LinearOrder α] [Zero α] [One α] [Neg α] [Add α] [Sub α] [Mul α]
  [DoubleLaws α]

end

theorem subperm_append_both {β : Type} {A A1 B B1 : List β} (hA : A.Subperm A1)
    (hB : B.Subperm B1) : (A ++ B).Subperm (A1 ++ B1) :=
  ((List.subperm_append_right B).mpr hA).trans ((List.subperm_append_left A1).mpr hB)

section
variable {α δ : Type} [LinearOrder α] [Zero α] [One α] [Neg α] [Add α] [Sub α] [Mul α]

theorem range_visit_subperm (node : kdnode α δ) (pos : List α) (r : α) (dim : Nat) :
    (range_visit node pos r dim).Subperm node.nodes := by
  induction node with
  | null => exact List.Subperm.refl _
  | mk npos ndir ndata left right ihl ihr =>
    simp only [range_visit, kdnode.nodes]
    have hA : (if dist_sq npos pos dim ≤ SQ r then [kdnode.mk npos ndir ndata left right]
        else []).Subperm [kdnode.mk npos ndir ndata left right] := by
      split
      · exact List.Subperm.refl _
      · exact List.nil_subperm
    have hC : ∀ (v : List (kdnode α δ)) (l : List (kdnode α δ)), v.Subperm l →
        (if fabs (pos.getD ndir 0 - npos.getD ndir 0) < r then v else []).Subperm l := by
      intro v l hv
      split
      · exact hv
      · exact List.nil_subperm
    have hBC : ((if pos.getD ndir 0 - npos.getD ndir 0 ≤ 0 then range_visit left pos r dim
          else range_visit right pos r dim) ++
        (if fabs (pos.getD ndir 0 - npos.getD ndir 0) < r then
          (if pos.getD ndir 0 - npos.getD ndir 0 ≤ 0 then range_visit right pos r dim
            else range_visit left pos r dim)
          else [])).Subperm (left.nodes ++ right.nodes) := by
      by_cases hdx : pos.getD ndir 0 - npos.getD ndir 0 ≤ 0
      · simp only [hdx, if_true]
        exact subperm_append_both ihl (hC _ _ ihr)
      · simp only [hdx, if_false]
        exact (subperm_append_both ihr (hC _ _ ihl)).trans List.perm_append_comm.subperm
    rw [List.append_assoc]
    exact subperm_append_both hA hBC

end

section
variable {α δ : Type} [LinearOrder α] [Zero α] [One α] [Neg α] [Add α] [Sub α] [Mul α]
  [DoubleLaws α]

/-- C12: whenever `kd_nearest_range(tree, pos, r)` returns a result set (it
does when its allocations succeed), the items of the result list, counted with
multiplicity, are among the nodes of the tree, so no stored node appears twice
(the list has no repetition when the nodes are pairwise distinct), and
`kd_res_size` is the number of items of the list: the count `find_nearest`
accumulates over both branches is the number of result nodes it inserted. -/
theorem range_result_duplicate_free (tree : kdtree α δ) (pos : List α) (r : α) :
    (∃ rset, kd_nearest_range [] tree pos r = (some rset, [])) ∧
    (∀ (a : List Bool) (rset : kdres α δ), (kd_nearest_range a tree pos r).1 = some rset →
      (rset.rlist.map (fun x => x.item)).Subperm tree.root.nodes ∧
      (tree.root.nodes.Nodup → (rset.rlist.map (fun x => x.item)).Nodup) ∧
      kd_res_size rset = (rset.rlist.length : Int)) ∧
    (∀ (a : List Bool) (list : List (res_node α δ)),
      (find_nearest a tree.root pos r list false tree.dim).1 ≠ -1 →
      ((find_nearest a tree.root pos r list false tree.dim).2.1.length : Int) =
        (list.length : Int) + (find_nearest a tree.root pos r list false tree.dim).1) := by
  refine ⟨⟨_, kd_nearest_range_nil tree pos r⟩, ?_, ?_⟩
  · intro a rset h
    have hrs := kd_nearest_range_ok a tree pos r rset h
    have hitems : rset.rlist.map (fun x => x.item) =
        (range_visit tree.root pos r tree.dim).reverse := by
      rw [hrs]
      simp only [List.map_map]
      exact List.map_id' _
    have hsub : (rset.rlist.map (fun x => x.item)).Subperm tree.root.nodes := by
      rw [hitems]
      exact (List.reverse_perm _).subperm.trans (range_visit_subperm _ _ _ _)
    refine ⟨hsub, ?_, ?_⟩
    · intro hnd
      obtain ⟨l, hl1, hl2⟩ := hsub
      exact (hl1.nodup_iff).mp (hnd.sublist hl2)
    · rw [hrs]
      simp [kd_res_size]
  · intro a list h
    obtain ⟨h1, h2⟩ := find_nearest_ok a tree.root pos r list tree.dim h
    rw [h1, h2]
    simp only [List.length_append, List.length_map, List.length_reverse]
    push_cast
    ring

end

/-- A concrete instance of C12: the query at `(0,0,0)` with range 5 on the
sample tree returns both stored nodes, each once, and reports size 2. -/
theorem range_result_duplicate_free_witness :
    (kd_nearest_range [] sample_tree [0, 0, 0] 5).1 =
      some { tree := sample_tree,
             rlist := [{ item := kdnode.mk [0, 3, 4] 1 11 kdnode.null kdnode.null, dist_sq := -1 },
                       { item := sample_root, dist_sq := -1 }],
             riter := [{ item := kdnode.mk [0, 3, 4] 1 11 kdnode.null kdnode.null, dist_sq := -1 },
                       { item := sample_root, dist_sq := -1 }],
             size := 2 } ∧
    ([kdnode.mk [0, 3, 4] 1 11 kdnode.null kdnode.null, sample_root]).Subperm
      sample_tree.root.nodes :=
  ⟨by decide, ((range_result_duplicate_free sample_tree [0, 0, 0] 5).2.1 []
    { tree := sample_tree,
      rlist := [{ item := kdnode.mk [0, 3, 4] 1 11 kdnode.null kdnode.null, dist_sq := -1 },
                { item := sample_root, dist_sq := -1 }],
      riter := [{ item := kdnode.mk [0, 3, 4] 1 11 kdnode.null kdnode.null, dist_sq := -1 },
                { item := sample_root, dist_sq := -1 }],
      size := 2 } (by decide)).1⟩

/-! ## The working hyper-rectangle of the nearest-neighbour search -/

section
variable {α δ : Type} [LinearOrder α] [Zero α] [Add α] [Sub α] [Mul α]

theorem kd_nearest_i_frame_le (npos : List α) (dir : Nat) (ndata : δ) (left right : kdnode α δ)
    (pos : List α) (res : kdnode α δ) (d : α) (rect : kdhyperrect α)
    (hle : pos.getD dir 0 - npos.getD dir 0 ≤ 0)
    (hnear : ∀ (res0 : kdnode α δ) (d0 : α),
      (kd_nearest_i left pos res0 d0 { rect with max := rect.max.set dir (npos.getD dir 0) }).2.2 =
        { rect with max := rect.max.set dir (npos.getD dir 0) } ∧
      ((kd_nearest_i left pos res0 d0
          { rect with max := rect.max.set dir (npos.getD dir 0) }).1 = res0 ∨
        (kd_nearest_i left pos res0 d0
          { rect with max := rect.max.set dir (npos.getD dir 0) }).1 ∈ left.nodes))
    (hfar : ∀ (res0 : kdnode α δ) (d0 : α),
      (kd_nearest_i right pos res0 d0 { rect with min := rect.min.set dir (npos.getD dir 0) }).2.2 =
        { rect with min := rect.min.set dir (npos.getD dir 0) } ∧
      ((kd_nearest_i right pos res0 d0
          { rect with min := rect.min.set dir (npos.getD dir 0) }).1 = res0 ∨
        (kd_nearest_i right pos res0 d0
          { rect with min := rect.min.set dir (npos.getD dir 0) }).1 ∈ right.nodes)) :
    (kd_nearest_i (kdnode.mk npos dir ndata left right) pos res d rect).2.2 = rect ∧
      ((kd_nearest_i (kdnode.mk npos dir ndata left right) pos res d rect).1 = res ∨
        (kd_nearest_i (kdnode.mk npos dir ndata left right) pos res d rect).1 ∈
          (kdnode.mk npos dir ndata left right).nodes) := by
  obtain ⟨i1, i2⟩ := hnear res d
  generalize hr1 : kd_nearest_i left pos res d
    { rect with max := rect.max.set dir (npos.getD dir 0) } = r1 at i1 i2
  obtain ⟨res1, d1, rect1⟩ := r1
  simp only at i1 i2
  have hs2 : ∀ s2 : kdnode α δ × α × kdhyperrect α,
      s2 = (if dist_sq npos pos rect.dim < d1 then
        (kdnode.mk npos dir ndata left right, dist_sq npos pos rect.dim, rect)
        else (res1, d1, rect)) →
      s2.2.2 = rect ∧ (s2.1 = res ∨ s2.1 ∈ (kdnode.mk npos dir ndata left right).nodes) := by
    intro s2 h2
    subst h2
    split
    · exact ⟨rfl, Or.inr (by simp [kdnode.nodes])⟩
    · refine ⟨rfl, ?_⟩
      rcases i2 with h | h
      · exact Or.inl h
      · exact Or.inr (by simp [kdnode.nodes, h])
  generalize hs2eq : (if dist_sq npos pos rect.dim < d1 then
        (kdnode.mk npos dir ndata left right, dist_sq npos pos rect.dim, rect)
        else (res1, d1, rect)) = s2 at hs2
  obtain ⟨j1, j2⟩ := hs2 s2 rfl
  obtain ⟨res2, d2, rect2⟩ := s2
  simp only at j1 j2
  subst j1
  have hs3 : ∀ r3 : kdnode α δ × α × kdhyperrect α,
      r3 = (if hyperrect_dist_sq { rect2 with min := rect2.min.set dir (npos.getD dir 0) } pos < d2
        then kd_nearest_i right pos res2 d2
          { rect2 with min := rect2.min.set dir (npos.getD dir 0) }
        else (res2, d2, { rect2 with min := rect2.min.set dir (npos.getD dir 0) })) →
      r3.2.2 = { rect2 with min := rect2.min.set dir (npos.getD dir 0) } ∧
        (r3.1 = res2 ∨ r3.1 ∈ right.nodes) := by
    intro r3 h3
    subst h3
    split
    · exact hfar res2 d2
    · exact ⟨rfl, Or.inl rfl⟩
  generalize hr3 : (if hyperrect_dist_sq { rect2 with min := rect2.min.set dir (npos.getD dir 0) }
      pos < d2
    then kd_nearest_i right pos res2 d2 { rect2 with min := rect2.min.set dir (npos.getD dir 0) }
    else (res2, d2, { rect2 with min := rect2.min.set dir (npos.getD dir 0) })) = r3 at hs3
  obtain ⟨k1, k2⟩ := hs3 r3 rfl
  have key := kd_nearest_i_mk_le npos dir ndata left right pos res d rect2 hle
    (res1, d1, rect1) (res1, d1, rect2) (res2, d2, rect2) r3 hr1.symm
    (by
      simp only [i1, set_set_getD])
    hs2eq.symm hr3.symm
  rw [key]
  obtain ⟨res3, d3, rect3⟩ := r3
  simp only at k1 k2 ⊢
  subst k1
  refine ⟨by simp only [set_set_getD], ?_⟩
  rcases k2 with h | h
  · rw [h]
    exact j2
  · exact Or.inr (by simp [kdnode.nodes, h])

theorem kd_nearest_i_frame_gt (npos : List α) (dir : Nat) (ndata : δ) (left right : kdnode α δ)
    (pos : List α) (res : kdnode α δ) (d : α) (rect : kdhyperrect α)
    (hle : ¬ (pos.getD dir 0 - npos.getD dir 0 ≤ 0))
    (hnear : ∀ (res0 : kdnode α δ) (d0 : α),
      (kd_nearest_i right pos res0 d0 { rect with min := rect.min.set dir (npos.getD dir 0) }).2.2 =
        { rect with min := rect.min.set dir (npos.getD dir 0) } ∧
      ((kd_nearest_i right pos res0 d0
          { rect with min := rect.min.set dir (npos.getD dir 0) }).1 = res0 ∨
        (kd_nearest_i right pos res0 d0
          { rect with min := rect.min.set dir (npos.getD dir 0) }).1 ∈ right.nodes))
    (hfar : ∀ (res0 : kdnode α δ) (d0 : α),
      (kd_nearest_i left pos res0 d0 { rect with max := rect.max.set dir (npos.getD dir 0) }).2.2 =
        { rect with max := rect.max.set dir (npos.getD dir 0) } ∧
      ((kd_nearest_i left pos res0 d0
          { rect with max := rect.max.set dir (npos.getD dir 0) }).1 = res0 ∨
        (kd_nearest_i left pos res0 d0
          { rect with max := rect.max.set dir (npos.getD dir 0) }).1 ∈ left.nodes)) :
    (kd_nearest_i (kdnode.mk npos dir ndata left right) pos res d rect).2.2 = rect ∧
      ((kd_nearest_i (kdnode.mk npos dir ndata left right) pos res d rect).1 = res ∨
        (kd_nearest_i (kdnode.mk npos dir ndata left right) pos res d rect).1 ∈
          (kdnode.mk npos dir ndata left right).nodes) := by
  obtain ⟨i1, i2⟩ := hnear res d
  generalize hr1 : kd_nearest_i right pos res d
    { rect with min := rect.min.set dir (npos.getD dir 0) } = r1 at i1 i2
  obtain ⟨res1, d1, rect1⟩ := r1
  simp only at i1 i2
  have hs2 : ∀ s2 : kdnode α δ × α × kdhyperrect α,
      s2 = (if dist_sq npos pos rect.dim < d1 then
        (kdnode.mk npos dir ndata left right, dist_sq npos pos rect.dim, rect)
        else (res1, d1, rect)) →
      s2.2.2 = rect ∧ (s2.1 = res ∨ s2.1 ∈ (kdnode.mk npos dir ndata left right).nodes) := by
    intro s2 h2
    subst h2
    split
    · exact ⟨rfl, Or.inr (by simp [kdnode.nodes])⟩
    · refine ⟨rfl, ?_⟩
      rcases i2 with h | h
      · exact Or.inl h
      · exact Or.inr (by simp [kdnode.nodes, h])
  generalize hs2eq : (if dist_sq npos pos rect.dim < d1 then
        (kdnode.mk npos dir ndata left right, dist_sq npos pos rect.dim, rect)
        else (res1, d1, rect)) = s2 at hs2
  obtain ⟨j1, j2⟩ := hs2 s2 rfl
  obtain ⟨res2, d2, rect2⟩ := s2
  simp only at j1 j2
  subst j1
  have hs3 : ∀ r3 : kdnode α δ × α × kdhyperrect α,
      r3 = (if hyperrect_dist_sq { rect2 with max := rect2.max.set dir (npos.getD dir 0) } pos < d2
        then kd_nearest_i left pos res2 d2
          { rect2 with max := rect2.max.set dir (npos.getD dir 0) }
        else (res2, d2, { rect2 with max := rect2.max.set dir (npos.getD dir 0) })) →
      r3.2.2 = { rect2 with max := rect2.max.set dir (npos.getD dir 0) } ∧
        (r3.1 = res2 ∨ r3.1 ∈ left.nodes) := by
    intro r3 h3
    subst h3
    split
    · exact hfar res2 d2
    · exact ⟨rfl, Or.inl rfl⟩
  generalize hr3 : (if hyperrect_dist_sq { rect2 with max := rect2.max.set dir (npos.getD dir 0) }
      pos < d2
    then kd_nearest_i left pos res2 d2 { rect2 with max := rect2.max.set dir (npos.getD dir 0) }
    else (res2, d2, { rect2 with max := rect2.max.set dir (npos.getD dir 0) })) = r3 at hs3
  obtain ⟨k1, k2⟩ := hs3 r3 rfl
  have key := kd_nearest_i_mk_gt npos dir ndata left right pos res d rect2 hle
    (res1, d1, rect1) (res1, d1, rect2) (res2, d2, rect2) r3 hr1.symm
    (by
      simp only [i1, set_set_getD])
    hs2eq.symm hr3.symm
  rw [key]
  obtain ⟨res3, d3, rect3⟩ := r3
  simp only at k1 k2 ⊢
  subst k1
  refine ⟨by simp only [set_set_getD], ?_⟩
  rcases k2 with h | h
  · rw [h]
    exact j2
  · exact Or.inr (by simp [kdnode.nodes, h])

/-- What `kd_nearest_i` does on every node, whatever the state of the tree: it
hands back the hyper-rectangle it was given, and the best node is the one it
was given or a node of the subtree. -/
theorem kd_nearest_i_frame (node : kdnode α δ) (pos : List α) (res : kdnode α δ) (d : α)
    (rect : kdhyperrect α) :
    (kd_nearest_i node pos res d rect).2.2 = rect ∧
      ((kd_nearest_i node pos res d rect).1 = res ∨
        (kd_nearest_i node pos res d rect).1 ∈ node.nodes) := by
  induction node generalizing res d rect with
  | null => exact ⟨rfl, Or.inl rfl⟩
  | mk npos dir ndata left right ihl ihr =>
    by_cases hle : pos.getD dir 0 - npos.getD dir 0 ≤ 0
    · exact kd_nearest_i_frame_le npos dir ndata left right pos res d rect hle
        (fun res0 d0 => ihl res0 d0 _) (fun res0 d0 => ihr res0 d0 _)
    · exact kd_nearest_i_frame_gt npos dir ndata left right pos res d rect hle
        (fun res0 d0 => ihr res0 d0 _) (fun res0 d0 => ihl res0 d0 _)

end

/-! ## Claims about the working hyper-rectangle and the empty index -/

theorem entries_nil_iff {α δ : Type} (node : kdnode α δ) :
    node.entries = [] ↔ node = kdnode.null := by
  cases node with
  | null => simp [kdnode.entries]
  | mk _ _ _ _ _ => simp [kdnode.entries]

section
variable {α δ : Type} [LinearOrder α] [Zero α] [Add α] [Sub α] [Mul α]

/-- C18: `kd_nearest_i` undoes every slice. For every node, query position,
current best and hyper-rectangle, the hyper-rectangle after the call is the
one at entry, with the same `min` and `max` on every axis; and searching a
subtree on a slice of `rect` and then restoring the saved coordinate gives
back `rect`, so the box sliced for the sibling subtree is a slice of the
entry box. -/
theorem kd_nearest_i_restores_rect (node : kdnode α δ) (pos : List α) (res : kdnode α δ)
    (d : α) (rect : kdhyperrect α) (dir : Nat) (v : α) :
    (kd_nearest_i node pos res d rect).2.2 = rect ∧
    (∀ i, (kd_nearest_i node pos res d rect).2.2.min.getD i 0 = rect.min.getD i 0 ∧
      (kd_nearest_i node pos res d rect).2.2.max.getD i 0 = rect.max.getD i 0) ∧
    { (kd_nearest_i node pos res d { rect with max := rect.max.set dir v }).2.2 with
        max := (kd_nearest_i node pos res d { rect with max := rect.max.set dir v }).2.2.max.set
          dir (rect.max.getD dir 0) } = rect ∧
    { (kd_nearest_i node pos res d { rect with min := rect.min.set dir v }).2.2 with
        min := (kd_nearest_i node pos res d { rect with min := rect.min.set dir v }).2.2.min.set
          dir (rect.min.getD dir 0) } = rect := by
  have h := (kd_nearest_i_frame node pos res d rect).1
  refine ⟨h, fun i => by rw [h]; exact ⟨rfl, rfl⟩, ?_, ?_⟩
  · rw [(kd_nearest_i_frame node pos res d _).1]
    simp only [set_set_getD]
  · rw [(kd_nearest_i_frame node pos res d _).1]
    simp only [set_set_getD]

end

section
variable {α δ : Type} [LinearOrder α] [Zero α]

theorem kd_run_append (t : kdtree α δ) (ops more : List (kd_call α δ)) :
    kd_run t (ops ++ more) = kd_run (kd_run t ops) more := by
  induction ops generalizing t with
  | nil => rfl
  | cons op rest ih =>
    cases op with
    | insert p data => exact ih _
    | clear => exact ih _

theorem kd_run_inv (t : kdtree α δ) (ops : List (kd_call α δ))
    (h : t.rect = none ↔ t.root = kdnode.null) :
    (kd_run t ops).rect = none ↔ (kd_run t ops).root = kdnode.null := by
  induction ops generalizing t with
  | nil => exact h
  | cons op rest ih =>
    cases op with
    | insert p data =>
      simp only [kd_run]
      apply ih
      have h1 := kd_insert_rect_some t p data
      have h2 : (kd_insert [] t p data).2.1.root ≠ kdnode.null := by
        rw [kd_insert_root]
        obtain ⟨hs, _⟩ := insert_rec_nil t.root p data 0 t.dim
        obtain ⟨d, hleaf⟩ := insert_rec_ok [] t.root p data 0 t.dim hs
        exact leaf_added_ne_null _ _ _ hleaf (by simp)
      constructor
      · intro hc
        exact absurd hc h1
      · intro hc
        exact absurd hc h2
    | clear =>
      simp only [kd_run]
      apply ih
      have := kd_clear_spec t
      constructor
      · intro _
        exact this.2.1
      · intro _
        exact this.2.2.1

end

section
variable {α δ : Type} [LinearOrder α] [Zero α] [One α] [Neg α] [Add α] [Sub α] [Mul α]
  [DoubleLaws α]

theorem kd_nearest_some_iff (t : kdtree α δ) (pos : List α)
    (h : t.rect = none ↔ t.root = kdnode.null) :
    (kd_nearest [] (some t) pos).1 = none ↔ t.root = kdnode.null := by
  cases hrect : t.rect with
  | none =>
    simp only [kd_nearest, hrect]
    exact ⟨fun _ => h.mp hrect, fun _ => trivial⟩
  | some rect =>
    have hroot : t.root ≠ kdnode.null := fun hc => by
      have := h.mpr hc
      rw [hrect] at this
      exact Option.noConfusion this
    have hres : (kd_nearest_i t.root pos t.root (dist_sq t.root.pos pos t.dim)
        { dim := rect.dim, min := rect.min.take rect.dim, max := rect.max.take rect.dim }).1 ≠
        kdnode.null := by
      rcases (kd_nearest_i_frame t.root pos t.root (dist_sq t.root.pos pos t.dim)
        { dim := rect.dim, min := rect.min.take rect.dim, max := rect.max.take rect.dim }).2 with
        h1 | h1
      · rw [h1]
        exact hroot
      · exact nodes_ne_null _ _ h1
    constructor
    · intro hnone
      exfalso
      simp only [kd_nearest, hrect, malloc, hyperrect_duplicate, hyperrect_create] at hnone
      generalize kd_nearest_i t.root pos t.root (dist_sq t.root.pos pos t.dim)
        { dim := rect.dim, min := rect.min.take rect.dim, max := rect.max.take rect.dim } = out
        at hnone hres
      obtain ⟨n, d1, rect1⟩ := out
      cases n with
      | null => exact hres rfl
      | mk _ _ _ _ _ =>
        simp only [rlist_insert_nil_unordered] at hnone
        simp at hnone
    · intro hc
      exact absurd hc hroot

/-- C13: with every allocation succeeding, `kd_nearest` returns the null
result for the null tree, and for a tree reached from a freshly created tree
by `kd_insert` and `kd_clear` calls it returns the null result if and only if
the tree holds no points: so it does for a tree never inserted into and for a
cleared tree, and it does not after an insertion. In those trees `tree->rect`
is null exactly when the root is null, so the root is only read when present. -/
theorem kd_nearest_null_iff_empty (k : Nat) (t0 : kdtree α δ) (ops : List (kd_call α δ))
    (pos : List α) (hcreate : (kd_create [] k).1 = some t0) :
    (kd_nearest [] (none : Option (kdtree α δ)) pos).1 = none ∧
    ((kd_nearest [] (some (kd_run t0 ops)) pos).1 = none ↔ (kd_run t0 ops).root.entries = []) ∧
    ((kd_run t0 ops).rect = none ↔ (kd_run t0 ops).root = kdnode.null) ∧
    (kd_nearest [] (some t0) pos).1 = none ∧
    (kd_nearest [] (some (kd_clear (kd_run t0 ops)).1) pos).1 = none ∧
    (∀ (p : List α) (data : δ),
      (kd_nearest [] (some (kd_insert [] (kd_run t0 ops) p data).2.1) pos).1 ≠ none) := by
  obtain ⟨_, h2, h3⟩ := kd_create_spec [] k t0 hcreate
  have h0 : t0.rect = none ↔ t0.root = kdnode.null := ⟨fun _ => h2, fun _ => h3⟩
  have hinv := kd_run_inv t0 ops h0
  refine ⟨rfl, ?_, hinv, ?_, ?_, ?_⟩
  · rw [entries_nil_iff]
    exact kd_nearest_some_iff _ pos hinv
  · exact (kd_nearest_some_iff t0 pos h0).mpr h2
  · have hc := kd_run_inv t0 (ops ++ [kd_call.clear]) h0
    have hrun : kd_run t0 (ops ++ [kd_call.clear]) = (kd_clear (kd_run t0 ops)).1 :=
      kd_run_append t0 ops _
    rw [hrun] at hc
    exact (kd_nearest_some_iff _ pos hc).mpr (kd_clear_spec _).2.1
  · intro p data
    have hc := kd_run_inv t0 (ops ++ [kd_call.insert p data]) h0
    have hrun : kd_run t0 (ops ++ [kd_call.insert p data]) =
        (kd_insert [] (kd_run t0 ops) p data).2.1 := kd_run_append t0 ops _
    rw [hrun] at hc
    intro hnone
    have := (kd_nearest_some_iff _ pos hc).mp hnone
    exact absurd (hc.mpr this) (kd_insert_rect_some _ _ _)

end

/-- A concrete instance of C13: the fresh tree, the sample insertions, a clear. -/
theorem kd_nearest_null_iff_empty_witness :
    (kd_create [] 3).1 = some (⟨3, kdnode.null, none, none⟩ : kdtree ℤ Nat) ∧
    (kd_nearest [] (some (kd_run (⟨3, kdnode.null, none, none⟩ : kdtree ℤ Nat)
      [kd_call.insert [0, 0, 0] 10, kd_call.insert [0, 3, 4] 11, kd_call.clear])) [1, 1, 1]).1 =
        none ∧
    (kd_nearest [] (some (kd_run (⟨3, kdnode.null, none, none⟩ : kdtree ℤ Nat)
      [kd_call.insert [0, 0, 0] 10, kd_call.insert [0, 3, 4] 11])) [1, 1, 1]).1 ≠ none ∧
    ((kd_run (⟨3, kdnode.null, none, none⟩ : kdtree ℤ Nat)
      [kd_call.insert [0, 0, 0] 10, kd_call.insert [0, 3, 4] 11, kd_call.clear]).rect = none ↔
     (kd_run (⟨3, kdnode.null, none, none⟩ : kdtree ℤ Nat)
      [kd_call.insert [0, 0, 0] 10, kd_call.insert [0, 3, 4] 11, kd_call.clear]).root =
        kdnode.null) :=
  ⟨rfl, by decide, by decide,
    (kd_nearest_null_iff_empty 3 (⟨3, kdnode.null, none, none⟩ : kdtree ℤ Nat)
      [kd_call.insert [0, 0, 0] 10, kd_call.insert [0, 3, 4] 11, kd_call.clear] [1, 1, 1]
      rfl).2.2.1⟩

/-! ## The distance to a hyper-rectangle -/

section
variable {α δ : Type} [LinearOrder α] [Zero α] [Add α] [Sub α] [Mul α]

end

section
variable {α δ : Type} [LinearOrder α] [Zero α] [One α] [Neg α] [Add α] [Sub α] [Mul α]
  [DoubleLaws α]

end

section
variable {α δ : Type} [LinearOrder α] [Zero α]

end

section
variable {α δ : Type} [LinearOrder α] [Zero α] [One α] [Neg α] [Add α] [Sub α] [Mul α]
  [DoubleLaws α]

end

theorem dirs_in_range_mem {α δ : Type} (dim : Nat) (node : kdnode α δ)
    (h : dirs_in_range dim node) (p : List α) (d : Nat) (x : δ) (l r : kdnode α δ)
    (hn : kdnode.mk p d x l r ∈ node.nodes) : d < dim := by
  induction node with
  | null => simp [kdnode.nodes] at hn
  | mk npos ndir ndata left right ihl ihr =>
    obtain ⟨h1, h2, h3⟩ := h
    simp only [kdnode.nodes, List.mem_cons, List.mem_append] at hn
    rcases hn with hn | hn | hn
    · injection hn with e1 e2
      omega
    · exact ihl h2 hn
    · exact ihr h3 hn

section
variable {α δ : Type} [LinearOrder α] [Zero α]

theorem insert_rec_cycle (a : List Bool) (nptr : kdnode α δ) (pos : List α) (data : δ)
    (depth dim : Nat) (h : dirs_cycle dim depth nptr) :
    dirs_cycle dim depth (insert_rec a nptr pos data (depth % dim) dim).2.1 := by
  induction nptr generalizing a depth with
  | null =>
    simp only [insert_rec]
    split
    · trivial
    · split
      · trivial
      · exact ⟨rfl, trivial, trivial⟩
  | mk npos ndir ndata left right ihl ihr =>
    obtain ⟨h1, h2, h3⟩ := h
    have hnew : (ndir + 1) % dim = (depth + 1) % dim := by
      rw [h1, Nat.mod_add_mod]
    simp only [insert_rec, hnew]
    split
    · exact ⟨h1, ihl a (depth + 1) h2, h3⟩
    · exact ⟨h1, h2, ihr a (depth + 1) h3⟩

theorem kd_insert_calls_cycle (t : kdtree α δ) (calls : List (List Bool × List α × δ))
    (h : dirs_cycle t.dim 0 t.root) : dirs_cycle t.dim 0 (kd_insert_calls t calls).root := by
  induction calls generalizing t with
  | nil => exact h
  | cons c cs ih =>
    obtain ⟨a, pos, data⟩ := c
    simp only [kd_insert_calls]
    have := ih (kd_insert a t pos data).2.1 (by
      rw [kd_insert_dim, kd_insert_root]
      have h2 := insert_rec_cycle a t.root pos data 0 t.dim h
      rwa [Nat.zero_mod] at h2)
    rwa [kd_insert_dim] at this

/-- C17: in every tree of dimension `k ≥ 1` reached from a freshly created tree
by `kd_insert` calls, whatever their allocation outcomes, the split axes cycle
with the depth (the root has axis `0`, a node at depth `j` has axis `j mod k`),
every split axis `dir` satisfies `dir < k`, the tree keeps the dimension `k`
(the divisor of the remainder in `insert_rec`, not zero), and when every
inserted position has at least `k` coordinates every stored position has
exactly `k`, so `pos[dir]` is in bounds in the stored and in the given
arrays. -/
theorem split_axes_cycle_in_range (k : Nat) (a0 : List Bool) (t0 : kdtree α δ)
    (calls : List (List Bool × List α × δ)) (hk : 0 < k)
    (hcreate : (kd_create a0 k).1 = some t0) :
    dirs_cycle k 0 (kd_insert_calls t0 calls).root ∧
    (∀ (p : List α) (d : Nat) (x : δ) (l r : kdnode α δ),
      (kd_insert_calls t0 calls).root = kdnode.mk p d x l r → d = 0) ∧
    dirs_in_range k (kd_insert_calls t0 calls).root ∧
    (∀ (p : List α) (d : Nat) (x : δ) (l r : kdnode α δ),
      kdnode.mk p d x l r ∈ (kd_insert_calls t0 calls).root.nodes → d < k) ∧
    ((kd_insert_calls t0 calls).dim = k ∧ k ≠ 0) ∧
    ((∀ c ∈ calls, k ≤ c.2.1.length) →
      ∀ (p : List α) (d : Nat) (x : δ) (l r : kdnode α δ),
        kdnode.mk p d x l r ∈ (kd_insert_calls t0 calls).root.nodes →
        p.length = k ∧ d < p.length ∧ ∀ c ∈ calls, d < c.2.1.length) := by
  obtain ⟨h1, h2, _⟩ := kd_create_spec a0 k t0 hcreate
  have hcyc := kd_insert_calls_cycle t0 calls (by rw [h2]; trivial)
  have hrange := (kd_insert_calls_ordered t0 calls (by omega) (by rw [h2]; trivial)
    (by rw [h2]; trivial)).1
  rw [h1] at hcyc hrange
  have hlt := dirs_in_range_mem k _ hrange
  refine ⟨hcyc, ?_, hrange, hlt, ⟨by rw [kd_insert_calls_dim, h1], by omega⟩, ?_⟩
  · intro p d x l r hroot
    rw [hroot] at hcyc
    have := hcyc.1
    rwa [Nat.zero_mod] at this
  · intro hlen p d x l r hn
    have hd := hlt p d x l r hn
    obtain ⟨y, _, hy⟩ := nodes_entries _ _ hn
    rw [kdnode_pos_mk] at hy
    have hp : p.length = k := by
      rcases kd_insert_calls_entries t0 calls _ hy with he | ⟨c, hc, he⟩
      · rw [h2] at he
        simp [kdnode.entries] at he
      · simp only [Prod.mk.injEq] at he
        rw [he.1, h1, List.length_take]
        exact Nat.min_eq_left (hlen c hc)
    refine ⟨hp, by omega, ?_⟩
    intro c hc
    have := hlen c hc
    omega

end

section
variable {α δ : Type} [LinearOrder α] [Zero α] [One α] [Neg α] [Add α] [Sub α] [Mul α]
  [DoubleLaws α]

/-- C14: `kd_clear` resets the index to the empty state and is idempotent. For
every tree, after `kd_clear(tree)` the root and the hyper-rectangle are
absent while `dim` and the destructor are unchanged, so the tree is the
freshly created tree of the same dimension given the same destructor; every
radius query on it returns an empty set of size 0; and a second `kd_clear`
changes nothing and destroys no payload. -/
theorem kd_clear_resets_and_is_idempotent (tree : kdtree α δ) (pos : List α) (r : α) :
    (kd_clear tree).1.root = kdnode.null ∧ (kd_clear tree).1.rect = none ∧
    (kd_clear tree).1.dim = tree.dim ∧ (kd_clear tree).1.destr = tree.destr ∧
    (kd_create [] tree.dim).1.map (fun t => kd_data_destructor t tree.destr) =
      some (kd_clear tree).1 ∧
    kd_nearest_range [] (kd_clear tree).1 pos r =
      (some { tree := (kd_clear tree).1, rlist := [], riter := [], size := 0 }, []) ∧
    (∀ (a : List Bool) (rset : kdres α δ),
      (kd_nearest_range a (kd_clear tree).1 pos r).1 = some rset →
      rset.rlist = [] ∧ kd_res_size rset = 0 ∧ kd_res_end rset = true) ∧
    (kd_clear (kd_clear tree).1).1 = (kd_clear tree).1 ∧
    (kd_clear (kd_clear tree).1).2 = [] := by
  obtain ⟨c1, c2, c3, c4⟩ := kd_clear_spec tree
  have hvisit : range_visit (kd_clear tree).1.root pos r (kd_clear tree).1.dim = [] := by
    rw [c2]
    rfl
  have heq : (kd_clear tree).1 =
      { dim := tree.dim, root := kdnode.null, rect := none, destr := tree.destr } := by
    unfold kd_clear
    cases tree.rect <;> rfl
  refine ⟨c2, c3, c1, c4, ?_, ?_, ?_, ?_, ?_⟩
  · rw [heq]
    rfl
  · rw [kd_nearest_range_nil, hvisit]
    rfl
  · intro a rset h
    have := kd_nearest_range_ok a _ pos r rset h
    rw [hvisit] at this
    rw [this]
    exact ⟨rfl, rfl, rfl⟩
  · rw [heq]
    rfl
  · rw [heq]
    rfl

end

/-- A concrete instance of C17: three calls, the second failing to allocate. -/
theorem split_axes_cycle_in_range_witness :
    0 < 3 ∧ (kd_create [] 3).1 = some (⟨3, kdnode.null, none, none⟩ : kdtree ℤ Nat) ∧
    dirs_cycle 3 0 (kd_insert_calls (⟨3, kdnode.null, none, none⟩ : kdtree ℤ Nat)
      [([], [1, 2, 3], 10), ([false], [0, 0, 0], 11), ([], [0, 5, 1], 12)]).root ∧
    (kd_insert_calls (⟨3, kdnode.null, none, none⟩ : kdtree ℤ Nat)
      [([], [1, 2, 3], 10), ([false], [0, 0, 0], 11), ([], [0, 5, 1], 12)]).root =
      kdnode.mk [1, 2, 3] 0 10 (kdnode.mk [0, 5, 1] 1 12 kdnode.null kdnode.null) kdnode.null :=
  ⟨by decide, rfl, (split_axes_cycle_in_range 3 [] (⟨3, kdnode.null, none, none⟩ : kdtree ℤ Nat)
    [([], [1, 2, 3], 10), ([false], [0, 0, 0], 11), ([], [0, 5, 1], 12)] (by decide) rfl).1,
    by decide⟩

/-- A concrete instance of C14: clearing the sample tree. -/
theorem kd_clear_resets_and_is_idempotent_witness :
    (kd_clear sample_tree).1 = { dim := 3, root := kdnode.null, rect := none, destr := none } ∧
    (kd_nearest_range [] (kd_clear sample_tree).1 [0, 0, 0] 5).1 =
      some { tree := (kd_clear sample_tree).1, rlist := [], riter := [], size := 0 } ∧
    kd_res_size ({ tree := (kd_clear sample_tree).1, rlist := [], riter := [], size := 0 } :
      kdres ℤ Nat) = 0 :=
  ⟨by decide, by decide,
    ((kd_clear_resets_and_is_idempotent sample_tree [0, 0, 0] 5).2.2.2.2.2.2.1 []
      { tree := (kd_clear sample_tree).1, rlist := [], riter := [], size := 0 }
      (by decide)).2.1⟩

theorem kd_res_loop_spec {α δ : Type} (l : List (res_node α δ)) (rset : kdres α δ)
    (pos : Option (List α)) (extra : Nat) (h : rset.riter = l) :
    kd_res_loop (l.length + 1 + extra) rset pos =
      some (l.map (fun x => (x.item.data,
              pos.map (fun buf => x.item.pos.take rset.tree.dim ++ buf.drop rset.tree.dim))),
            (List.range l.length).map (fun i => decide (i + 1 < l.length)),
            { rset with riter := [] }) := by
  induction l generalizing rset with
  | nil =>
    have hf : ([] : List (res_node α δ)).length + 1 + extra = extra + 1 := by
      simp only [List.length_nil]
      omega
    rw [hf]
    simp only [kd_res_loop, kd_res_end, h, List.isEmpty_nil, if_true, List.map_nil,
      List.length_nil, List.range_zero]
    rw [← h]
  | cons x rest ih =>
    have hf : (x :: rest).length + 1 + extra = (rest.length + 1 + extra) + 1 := by
      simp only [List.length_cons]
      omega
    rw [hf]
    have hnext : (kd_res_next rset).1 = { rset with riter := rest } := by
      simp [kd_res_next, h]
    have hflag : (kd_res_next rset).2 = decide (0 + 1 < (x :: rest).length) := by
      simp only [kd_res_next, h, List.tail_cons, List.length_cons]
      cases rest with
      | nil => rfl
      | cons y ys => simp
    have hitem : kd_res_item rset pos = (x.item.data,
        pos.map (fun buf => x.item.pos.take rset.tree.dim ++ buf.drop rset.tree.dim)) := by
      simp only [kd_res_item, h]
      cases pos <;> rfl
    have hend : kd_res_end rset = false := by
      simp [kd_res_end, h]
    simp only [kd_res_loop, hend]
    rw [hnext, ih { rset with riter := rest } rfl, hitem, hflag]
    simp only [Bool.false_eq_true, if_false, List.map_cons, List.length_cons,
      List.range_succ_eq_map, List.map_map]
    congr 1
    congr 1
    congr 1
    congr 1
    apply List.map_congr_left
    intro i _
    simp only [Function.comp, Nat.succ_eq_add_one]
    congr 1
    apply propext
    omega

section
variable {α δ : Type} [LinearOrder α] [Zero α] [One α] [Neg α] [Add α] [Sub α] [Mul α]
  [DoubleLaws α]

/-- What `kd_nearest` returns when it returns a result set: the set refers to
the tree, the search ran on the duplicate of `tree->rect` and handed the
duplicate back, and the list holds the node found. -/
theorem kd_nearest_some (a : List Bool) (kd : Option (kdtree α δ)) (pos : List α)
    (rset : kdres α δ) (h : (kd_nearest a kd pos).1 = some rset) :
    ∃ (tree : kdtree α δ) (rect dup : kdhyperrect α) (a2 a3 : List Bool),
      kd = some tree ∧ tree.rect = some rect ∧
      hyperrect_duplicate a2 rect = (some dup, a3) ∧
      (kd_nearest_i tree.root pos tree.root (dist_sq tree.root.pos pos tree.dim) dup).2.2 = dup ∧
      rset = { tree := tree,
               rlist := [{ item := (kd_nearest_i tree.root pos tree.root
                  (dist_sq tree.root.pos pos tree.dim) dup).1, dist_sq := -1 }],
               riter := [{ item := (kd_nearest_i tree.root pos tree.root
                  (dist_sq tree.root.pos pos tree.dim) dup).1, dist_sq := -1 }],
               size := 1 } := by
  unfold kd_nearest at h
  split at h
  · simp at h
  · rename_i tree
    split at h
    · simp at h
    · rename_i rect hrect
      split at h
      · simp at h
      · split at h
        · simp at h
        · rename_i a2 _
          split at h
          · simp at h
          · rename_i dup a3 hdup
            simp only at h
            have hframe := (kd_nearest_i_frame tree.root pos tree.root
              (dist_sq tree.root.pos pos tree.dim) dup).1
            generalize hout : kd_nearest_i tree.root pos tree.root
              (dist_sq tree.root.pos pos tree.dim) dup = out at h hframe
            obtain ⟨result1, d1, rect1⟩ := out
            simp only at h hframe
            cases result1 with
            | null => simp at h
            | mk npos ndir ndata nl nr =>
              simp only at h
              rcases rlist_insert_unordered_cases a3 ([] : List (res_node α δ))
                (kdnode.mk npos ndir ndata nl nr) with hc | hc
              · rw [if_pos hc] at h
                simp at h
              · have hne : ¬ ((rlist_insert a3 [] (kdnode.mk npos ndir ndata nl nr) (-1)).1 = -1) := by
                  rw [hc.1]
                  decide
                rw [if_neg hne] at h
                simp only [Option.some.injEq] at h
                refine ⟨tree, rect, dup, a2, a3, rfl, hrect, hdup, by rw [hout]; exact hframe, ?_⟩
                rw [← h, hout]
                simp only [kd_res_rewind, hc.2]

/-- C16: iterating over a result set visits every result exactly once. From
the rewound set, the loop `while (!kd_res_end) { kd_res_item; kd_res_next; }`
terminates; its iterations read the items of the result list in order, one
iteration per item; `kd_res_next` returns non-zero at iteration `i` exactly
when a further item remains; the loop is left with `kd_res_end` true, and then
`kd_res_item` returns the null payload and leaves the buffer alone. For a set
returned by `kd_nearest_range` or `kd_nearest` the set is already rewound and
the number of iterations is `kd_res_size`. -/
theorem result_iteration_visits_each_once :
    (∀ (rset : kdres α δ) (pos : Option (List α)) (extra : Nat),
      kd_res_loop (rset.rlist.length + 1 + extra) (kd_res_rewind rset) pos =
        some (rset.rlist.map (fun x => (x.item.data,
                pos.map (fun buf => x.item.pos.take rset.tree.dim ++ buf.drop rset.tree.dim))),
              (List.range rset.rlist.length).map (fun i => decide (i + 1 < rset.rlist.length)),
              { rset with riter := [] }) ∧
      kd_res_end { rset with riter := [] } = true) ∧
    (∀ (rset : kdres α δ) (pos : Option (List α)),
      kd_res_end rset = true → kd_res_item rset pos = (none, pos)) ∧
    (∀ (a : List Bool) (tree : kdtree α δ) (p : List α) (r : α) (rset : kdres α δ),
      (kd_nearest_range a tree p r).1 = some rset →
      kd_res_rewind rset = rset ∧ (rset.rlist.length : Int) = kd_res_size rset) ∧
    (∀ (a : List Bool) (kd : Option (kdtree α δ)) (p : List α) (rset : kdres α δ),
      (kd_nearest a kd p).1 = some rset →
      kd_res_rewind rset = rset ∧ (rset.rlist.length : Int) = kd_res_size rset) := by
  refine ⟨?_, ?_, ?_, ?_⟩
  · intro rset pos extra
    exact ⟨kd_res_loop_spec rset.rlist (kd_res_rewind rset) pos extra rfl, rfl⟩
  · intro rset pos hend
    unfold kd_res_end at hend
    unfold kd_res_item
    cases hr : rset.riter with
    | nil => rfl
    | cons x rest =>
      rw [hr] at hend
      exact Bool.noConfusion hend
  · intro a tree p r rset h
    rw [kd_nearest_range_ok a tree p r rset h]
    exact ⟨rfl, by simp [kd_res_size]⟩
  · intro a kd p rset h
    obtain ⟨tree, rect, dup, a2, a3, _, _, _, _, hrs⟩ := kd_nearest_some a kd p rset h
    rw [hrs]
    exact ⟨rfl, rfl⟩

end

/-- A concrete instance of C16: iterating over the two results of a query on
the sample tree. -/
theorem result_iteration_visits_each_once_witness :
    (kd_nearest_range [] sample_tree [0, 0, 0] 5).1.map kd_res_size = some 2 ∧
    (kd_nearest_range [] sample_tree [0, 0, 0] 5).1.bind (fun rset =>
      kd_res_loop 3 rset none) =
      some ([(some 11, none), (some 10, none)], [true, false],
        { tree := sample_tree,
          rlist := [{ item := kdnode.mk [0, 3, 4] 1 11 kdnode.null kdnode.null, dist_sq := -1 },
                    { item := sample_root, dist_sq := -1 }],
          riter := [], size := 2 }) ∧
    kd_res_item ({ tree := sample_tree, rlist := [], riter := [], size := 0 } : kdres ℤ Nat)
      (some [7, 7, 7]) = (none, some [7, 7, 7]) :=
  ⟨by decide, by decide,
    (@result_iteration_visits_each_once ℤ Nat _).2.1
      { tree := sample_tree, rlist := [], riter := [], size := 0 } (some [7, 7, 7]) rfl⟩

/-! ## The frame of the queries over the explicit memory -/

section
variable {α δ : Type} [LinearOrder α] [Zero α]

end

section
variable {α δ : Type} [LinearOrder α] [Zero α] [One α] [Neg α] [Add α] [Sub α] [Mul α]

end

section
variable {α δ : Type} [LinearOrder α] [Zero α] [Add α] [Sub α] [Mul α]

end

section
variable {α δ : Type} [LinearOrder α] [Zero α] [One α] [Neg α] [Add α] [Sub α] [Mul α]

end

/-! ## The queries over the explicit memory return -/

section
variable {α δ : Type} [LinearOrder α] [Zero α] [One α] [Neg α] [Add α] [Sub α] [Mul α]
  [DoubleLaws α]

end

section
variable {α δ : Type} [LinearOrder α] [Zero α] [Add α] [Sub α] [Mul α]

end

section
variable {α δ : Type} [LinearOrder α] [Zero α] [One α] [Neg α] [Add α] [Sub α] [Mul α]
  [DoubleLaws α]

end

section
variable {α δ : Type} [LinearOrder α] [Zero α] [One α] [Neg α] [Add α] [Sub α] [Mul α]
  [DoubleLaws α]

end

end KRRT
